import Mathlib

/-!
# JSBSim UDP bridge: control decoder and state encoder

A shallow embedding of `addons/simplified_flightsim/JSBSim/jsbsim_bridge.cpp`.

* C `double` is modelled by `Dbl`: sign, integer significand and binary exponent
  of an IEEE-754 binary64 number, plus the infinities and NaNs.  Arithmetic
  rounds to nearest, ties to even, as the default floating-point environment does.
* The C library calls of the source (`strtok`, `atof`, `snprintf` with `%.6f`)
  are modelled by executable functions on lists of characters.
* The class `JSBSimBridge` becomes the record `Bridge`; every member function
  is a function on that record.  What the program does to the outside world
  (property writes, engine steps, datagrams sent) is appended to `Bridge.trace`.
-/

namespace JSBSimBridge

/-! ## Binary64 numbers -/

/-- A value of the C type `double`: `fin neg m e` stands for `(-1)^neg * m * 2^e`. -/
inductive Dbl where
  | fin (neg : Bool) (m : Nat) (e : Int)
  | inf (neg : Bool)
  | nan (neg : Bool)
  deriving DecidableEq

namespace Dbl

/-- The constant `0.0`. -/
def zero : Dbl := .fin false 0 (-1074)

/-- Whether the value is a number (neither an infinity nor a NaN). -/
def isFinite : Dbl → Bool
  | .fin _ _ _ => true
  | _ => false

/-- Whether the value is a binary64 number: a significand below `2^53` and an
exponent from `-1074` to `971`. -/
def isBinary64 : Dbl → Bool
  | .fin _ m e => decide (m < 2 ^ 53) && decide (-1074 ≤ e) && decide (e ≤ 971)
  | _ => false

/-- The rational number a finite value stands for (0 for infinities and NaNs). -/
def toRat : Dbl → ℚ
  | .fin neg m e => (if neg then -1 else 1) * (m : ℚ) * (2 : ℚ) ^ e
  | _ => 0

end Dbl

/-- Quotient `num / den` rounded to the nearest natural number, ties to even. -/
def divRoundEven (num den : Nat) : Nat :=
  let q := num / den
  let r := num % den
  if 2 * r < den then q
  else if den < 2 * r then q + 1
  else if q % 2 = 0 then q else q + 1

/-- Position of the highest set bit of `n`, by repeated halving. -/
def log2Aux : Nat → Nat → Nat
  | 0, _ => 0
  | fuel + 1, n => if n < 2 then 0 else log2Aux fuel (n / 2) + 1

/-- The natural number `k` with `2^k ≤ n < 2^(k+1)`, for positive `n`. -/
def log2 (n : Nat) : Nat := log2Aux n n

/-- The integer `k` with `2^k ≤ num / den < 2^(k+1)`, for positive `num` and `den`. -/
def ilog2Ratio (num den : Nat) : Int :=
  let l : Int := (log2 num : Int) - (log2 den : Int)
  if 0 ≤ l then (if den * 2 ^ l.toNat ≤ num then l else l - 1)
  else (if den ≤ num * 2 ^ (-l).toNat then l else l - 1)

/-- The binary64 number nearest to `(-1)^neg * num / den` (ties to even): 53 bits of
significand, exponents from `-1074` (subnormal) to `971`, overflow to infinity. -/
def roundRat (neg : Bool) (num den : Nat) : Dbl :=
  if num = 0 then .fin neg 0 (-1074) else
  let e : Int := max (ilog2Ratio num den - 52) (-1074)
  let m := if 0 ≤ e then divRoundEven num (den * 2 ^ e.toNat)
           else divRoundEven (num * 2 ^ (-e).toNat) den
  let m1 := if m = 2 ^ 53 then 2 ^ 52 else m
  let e1 := if m = 2 ^ 53 then e + 1 else e
  if 971 < e1 then .inf neg else .fin neg m1 e1

/-- The significand `roundRat` rounds to, before renormalisation. -/
def roundRatSignificand (num den : Nat) : Nat :=
  if 0 ≤ max (ilog2Ratio num den - 52) (-1074)
  then divRoundEven num (den * 2 ^ (max (ilog2Ratio num den - 52) (-1074)).toNat)
  else divRoundEven (num * 2 ^ (-(max (ilog2Ratio num den - 52) (-1074))).toNat) den

/-- The binary64 number nearest to `(-1)^neg * (num / den) * 2^k`. -/
def roundScaled (neg : Bool) (num den : Nat) (k : Int) : Dbl :=
  if 0 ≤ k then roundRat neg (num * 2 ^ k.toNat) den
  else roundRat neg num (den * 2 ^ (-k).toNat)

/-- The binary64 number nearest to `(-1)^neg * mant * 10^k`. -/
def roundDecimal (neg : Bool) (mant : Nat) (k : Int) : Dbl :=
  if 0 ≤ k then roundRat neg (mant * 10 ^ k.toNat) 1
  else roundRat neg mant (10 ^ (-k).toNat)

namespace Dbl

/-- The value of a positive decimal literal `num / den` of the source text, e.g.
`lit 3048 10000` for `0.3048`. -/
def lit (num den : Nat) : Dbl := roundRat false num den

/-- Unary minus. -/
def neg : Dbl → Dbl
  | .fin s m e => .fin (!s) m e
  | .inf s => .inf (!s)
  | .nan s => .nan (!s)

/-- The product `a * b` of two doubles.  An invalid product (infinity times zero)
gives the default NaN of x86-64, which has its sign bit set. -/
def mul : Dbl → Dbl → Dbl
  | .nan s, _ => .nan s
  | .fin _ _ _, .nan t => .nan t
  | .inf _, .nan t => .nan t
  | .inf s, .inf t => .inf (s != t)
  | .inf s, .fin t n _ => if n = 0 then .nan true else .inf (s != t)
  | .fin s m _, .inf t => if m = 0 then .nan true else .inf (s != t)
  | .fin s m e, .fin t n f => roundScaled (s != t) (m * n) 1 (e + f)

/-- The quotient `a / b` of two doubles. -/
def div : Dbl → Dbl → Dbl
  | .nan s, _ => .nan s
  | .fin _ _ _, .nan t => .nan t
  | .inf _, .nan t => .nan t
  | .inf _, .inf _ => .nan true
  | .inf s, .fin t _ _ => .inf (s != t)
  | .fin s _ _, .inf t => .fin (s != t) 0 (-1074)
  | .fin s m e, .fin t n f =>
    if n = 0 then (if m = 0 then .nan true else .inf (s != t))
    else roundScaled (s != t) m n (e - f)

end Dbl

/-- The macro `M_PI` of `<math.h>`, `3.14159265358979323846`. -/
def M_PI : Dbl := Dbl.lit 314159265358979323846 100000000000000000000

/-! ## Text -/

/-- The terminating byte of a C string. -/
def NUL : Char := Char.ofNat 0

/-- The character of a decimal digit `d < 10`. -/
def digitChar (d : Nat) : Char := Char.ofNat (48 + d)

/-- Decimal digits of `n`, most significant first, in front of `acc`. -/
def natDigitsAux : Nat → Nat → List Char → List Char
  | 0, _, acc => acc
  | fuel + 1, n, acc =>
    if n < 10 then digitChar n :: acc
    else natDigitsAux fuel (n / 10) (digitChar (n % 10) :: acc)

/-- Decimal digits of `n` without leading zeros (`0` prints as one digit). -/
def natDigits (n : Nat) : List Char := natDigitsAux (n + 1) n []

/-- The six decimal digits of `k < 10^6`, leading zeros included. -/
def fracDigits6 (k : Nat) : List Char :=
  [digitChar (k / 100000 % 10), digitChar (k / 10000 % 10), digitChar (k / 1000 % 10),
   digitChar (k / 100 % 10), digitChar (k / 10 % 10), digitChar (k % 10)]

/-- The sign printed in front of a negative value. -/
def signChars (neg : Bool) : List Char := if neg then ['-'] else []

/-- The number `|x| * 10^6` rounded to the nearest integer (ties to even), for the
finite `x = m * 2^e`. -/
def scaled6 (m : Nat) (e : Int) : Nat :=
  if 0 ≤ e then m * 2 ^ e.toNat * 10 ^ 6
  else divRoundEven (m * 10 ^ 6) (2 ^ (-e).toNat)

/-- The conversion `%.6f` of `printf`: the exact value rounded to six fractional
digits; infinities and NaNs print as `inf` and `nan`. -/
def fmt6 : Dbl → List Char
  | .nan s => signChars s ++ ['n', 'a', 'n']
  | .inf s => signChars s ++ ['i', 'n', 'f']
  | .fin s m e =>
    signChars s ++ natDigits (scaled6 m e / 10 ^ 6) ++ '.' :: fracDigits6 (scaled6 m e % 10 ^ 6)

/-- The text `snprintf(buffer, size, "%.6f,%.6f,...", args)` leaves in `buffer`:
the conversions joined by commas, cut after `size - 1` characters. -/
def snprintf (size : Nat) (args : List Dbl) : List Char :=
  (List.intercalate [','] (args.map fmt6)).take (size - 1)

/-! ## Numeric conversion of a token (`atof`) -/

/-- The C-locale `isspace`. -/
def isspace (c : Char) : Bool :=
  c = ' ' || c = '\t' || c = '\n' || c = Char.ofNat 11 || c = Char.ofNat 12 || c = '\r'

/-- The C-locale `isdigit`. -/
def isdigit (c : Char) : Bool := 48 ≤ c.toNat && c.toNat ≤ 57

/-- The C-locale `isxdigit`. -/
def isxdigit (c : Char) : Bool :=
  isdigit c || (97 ≤ c.toNat && c.toNat ≤ 102) || (65 ≤ c.toNat && c.toNat ≤ 70)

/-- Value of a (hexadecimal) digit character. -/
def xdigitVal (c : Char) : Nat :=
  if isdigit c then c.toNat - 48
  else if 97 ≤ c.toNat then c.toNat - 87
  else c.toNat - 55

/-- Value of a digit string in the given base. -/
def digitsValue (base : Nat) (ds : List Char) : Nat :=
  ds.foldl (fun a c => base * a + xdigitVal c) 0

/-- Whether `c` is the letter written `lower` in lower and `upper` in upper case. -/
def isLetter (lower upper c : Char) : Bool := c = lower || c = upper

/-- Whether the text starts with `inf`, in any case. -/
def startsInf : List Char → Bool
  | a :: b :: c :: _ => isLetter 'i' 'I' a && isLetter 'n' 'N' b && isLetter 'f' 'F' c
  | _ => false

/-- Whether the text starts with `nan`, in any case. -/
def startsNan : List Char → Bool
  | a :: b :: c :: _ => isLetter 'n' 'N' a && isLetter 'a' 'A' b && isLetter 'n' 'N' c
  | _ => false

/-- The text after a leading `0x` or `0X`, when there is one. -/
def hexBody : List Char → Option (List Char)
  | '0' :: x :: t => if isLetter 'x' 'X' x then some t else none
  | _ => none

/-- Splits an optional sign off the front. -/
def takeSign : List Char → Bool × List Char
  | '-' :: t => (true, t)
  | '+' :: t => (false, t)
  | s => (false, s)

/-- The optional exponent part: after a marker character an optional sign and at
least one decimal digit; anything else is no exponent (value 0). -/
def exponentPart (lower upper : Char) (s : List Char) : Int :=
  match s with
  | [] => 0
  | c :: r =>
    if isLetter lower upper c then
      let ds := (takeSign r).2.takeWhile isdigit
      if ds = [] then 0
      else if (takeSign r).1 then -(digitsValue 10 ds : Int) else (digitsValue 10 ds : Int)
    else 0

/-- The digits after an optional point at the front of `s`, and what follows them. -/
def fractionPart (digit : Char → Bool) : List Char → List Char × List Char
  | '.' :: t => (t.takeWhile digit, t.dropWhile digit)
  | s => ([], s)

/-- The decimal form of `strtod`: digits with an optional point, at least one digit,
then an optional exponent. -/
def strtodDecimal (neg : Bool) (s : List Char) : Option Dbl :=
  let ip := s.takeWhile isdigit
  let fp := fractionPart isdigit (s.dropWhile isdigit)
  if ip ++ fp.1 = [] then none
  else some (roundDecimal neg (digitsValue 10 (ip ++ fp.1))
              (exponentPart 'e' 'E' fp.2 - (fp.1.length : Int)))

/-- The hexadecimal form of `strtod`, for the text after `0x`. -/
def strtodHex (neg : Bool) (s : List Char) : Option Dbl :=
  let ip := s.takeWhile isxdigit
  let fp := fractionPart isxdigit (s.dropWhile isxdigit)
  if ip ++ fp.1 = [] then none
  else some (roundScaled neg (digitsValue 16 (ip ++ fp.1)) 1
              (exponentPart 'p' 'P' fp.2 - 4 * (fp.1.length : Int)))

/-- The subject sequence of `strtod` after white space and sign: `inf`, `nan`,
a hexadecimal or a decimal number; `none` when there is none. -/
def strtodMagnitude (neg : Bool) (s : List Char) : Option Dbl :=
  if startsInf s then some (.inf neg)
  else if startsNan s then some (.nan neg)
  else
    match (hexBody s).bind (strtodHex neg) with
    | some v => some v
    | none => strtodDecimal neg s

/-- Whether the text starts with a digit, or with a point followed by a digit. -/
def startsDigits : List Char → Bool
  | '.' :: c :: _ => isdigit c
  | c :: _ => isdigit c
  | [] => false

/-- Whether `strtod` finds a number at the front of the token: after white space and
an optional sign comes `inf`, `nan`, a digit, or a point followed by a digit. -/
def hasNumericPrefix (tok : List Char) : Bool :=
  let r := (takeSign (tok.dropWhile isspace)).2
  startsInf r || startsNan r || startsDigits r

/-- The C library `atof(token)`, that is `strtod(token, NULL)` in the C locale:
the value of the longest numeric prefix, and `0.0` when there is none. -/
def atof (s : List Char) : Dbl :=
  let t := takeSign (s.dropWhile isspace)
  match strtodMagnitude t.1 t.2 with
  | some v => v
  | none => Dbl.zero

/-! ## Tokens (`strtok`) -/

/-- One call of `strtok(..., ",")` on the text not yet consumed: leading commas are
skipped; `none` when nothing is left, otherwise the token (up to the next comma or
the end) and the text after that comma, where the next call resumes. -/
def strtok (s : List Char) : Option (List Char × List Char) :=
  match s.dropWhile (· == ',') with
  | [] => none
  | c :: t => some ((c :: t).takeWhile (· != ','), ((c :: t).dropWhile (· != ',')).drop 1)

/-- The non-empty pieces of `s` between commas. -/
def tokens (s : List Char) : List (List Char) :=
  (List.splitOn ',' s).filter (· ≠ [])

/-- The loop `while (token != nullptr && i < 10) { vals[i++] = atof(token);
token = strtok(nullptr, ","); }`.  The first argument is `10 - i`; `vals` holds the
entries `vals[0] .. vals[i-1]` written so far, so `i` is its length. -/
def tokenLoop : Nat → Option (List Char × List Char) → List Dbl → List Dbl
  | 0, _, vals => vals
  | _ + 1, none, vals => vals
  | n + 1, some (tok, rest), vals => tokenLoop n (strtok rest) (vals ++ [atof tok])

/-! ## The bridge -/

/-- The record `ControlInputs` of the source. -/
structure ControlInputs where
  throttle : Dbl
  elevator : Dbl
  aileron : Dbl
  rudder : Dbl
  flaps : Dbl
  gear : Dbl
  mix : Dbl
  aileron_trim : Dbl
  elevator_trim : Dbl
  rudder_trim : Dbl
  deriving DecidableEq

/-- The default member initialisers of `ControlInputs`. -/
def ControlInputs.default : ControlInputs :=
  { throttle := Dbl.zero, elevator := Dbl.zero, aileron := Dbl.zero, rudder := Dbl.zero,
    flaps := Dbl.zero, gear := Dbl.lit 1 1, mix := Dbl.zero, aileron_trim := Dbl.zero,
    elevator_trim := Dbl.zero, rudder_trim := Dbl.zero }

/-- An IPv4 socket address (`struct sockaddr_in`). -/
structure SockAddr where
  addr : Nat
  port : Nat
  deriving DecidableEq

/-- A datagram as `recvfrom` sees it: its bytes and the address it came from. -/
structure Datagram where
  payload : List Char
  sender : SockAddr
  deriving DecidableEq

/-- What the bridge does to the outside world. -/
inductive Effect where
  | setDouble (name : String) (value : Dbl)
  | run
  | sendto (payload : List Char) (dest : SockAddr)
  | usleep (microseconds : Nat)
  deriving DecidableEq

/-- The property tree of the simulation engine: the value behind each property name. -/
abbrev Fdm := String → Dbl

/-- The call `propMgr->SetDouble(name, v)`. -/
def SetDouble (fdm : Fdm) (name : String) (v : Dbl) : Fdm :=
  fun n => if n = name then v else fdm n

/-- The data members of `JSBSimBridge` (the socket descriptor and the unused
`server_addr` apart) and the trace of effects so far, oldest first. -/
structure Bridge where
  fdm : Fdm
  client_addr : SockAddr
  controls : ControlInputs
  trace : List Effect

/-- One `SetDouble` of `set_control`: the property is written and the write recorded. -/
def Bridge.setDouble (b : Bridge) (name : String) (v : Dbl) : Bridge :=
  { b with fdm := SetDouble b.fdm name v, trace := b.trace ++ [Effect.setDouble name v] }

/-- The member function `set_control`. -/
def set_control (b : Bridge) (throttle elevator aileron rudder flaps gear mix_val
    aileron_trim elevator_trim rudder_trim : Dbl) : Bridge :=
  let b0 : Bridge := { b with controls :=
    { throttle := throttle, elevator := elevator, aileron := aileron, rudder := rudder,
      flaps := flaps, gear := gear, mix := mix_val, aileron_trim := aileron_trim,
      elevator_trim := elevator_trim, rudder_trim := rudder_trim } }
  let b1 := b0.setDouble "controls/throttle" b0.controls.throttle
  let b2 := b1.setDouble "controls/elevator" b1.controls.elevator
  let b3 := b2.setDouble "controls/aileron" b2.controls.aileron
  let b4 := b3.setDouble "controls/rudder" b3.controls.rudder
  let b5 := b4.setDouble "controls/flaps" b4.controls.flaps
  let b6 := b5.setDouble "controls/gear" b5.controls.gear
  let b7 := b6.setDouble "controls/mix" b6.controls.mix
  let b8 := b7.setDouble "controls/aileron-trim" b7.controls.aileron_trim
  let b9 := b8.setDouble "controls/elevator-trim" b8.controls.elevator_trim
  b9.setDouble "controls/rudder-trim" b9.controls.rudder_trim

/-- The bytes `recvfrom` stores in the 256-byte `buffer`: at most 255 of the datagram. -/
def received (payload : List Char) : List Char := payload.take 255

/-- The C string that starts at `buffer`: the bytes before the first NUL. -/
def cString (buffer : List Char) : List Char := buffer.takeWhile (· != NUL)

/-- The values `vals[0 .. i-1]` that the token loop of `receive_controls` stores for
a received buffer. -/
def parse_vals (buffer : List Char) : List Dbl :=
  tokenLoop 10 (strtok (cString buffer)) []

/-- The member function `receive_controls`.  The argument is what the non-blocking
`recvfrom` finds: `none` when no datagram is queued (the call fails and leaves
`client_addr` alone), otherwise the datagram, whose sender is stored in `client_addr`. -/
def receive_controls (b : Bridge) (rx : Option Datagram) : Bool × Bridge :=
  match rx with
  | none => (false, b)
  | some d =>
    let buffer := received d.payload
    let len := buffer.length
    let b0 : Bridge := { b with client_addr := d.sender }
    if 0 < len then
      let vals := parse_vals buffer
      let i := vals.length
      let v := fun k => vals.getD k Dbl.zero
      if 6 ≤ i then
        (true, set_control b0 (v 0) (v 1) (v 2) (v 3) (v 4) (v 5)
          (if 6 < i then v 6 else Dbl.zero)
          (if 7 < i then v 7 else Dbl.zero)
          (if 8 < i then v 8 else Dbl.zero)
          (if 9 < i then v 9 else Dbl.zero))
      else (true, b0)
    else (false, b0)

/-- The eighteen arguments of the `snprintf` in `send_state`, in order, with the
unit conversions of the source (`* M_PI / 180.0` and `* 0.3048`).  The source also
reads three north/east/down velocities that it never prints. -/
def state_values (fdm : Fdm) : List Dbl :=
  let lat := ((fdm "position/lat-gc-deg").mul M_PI).div (Dbl.lit 180 1)
  let lon := ((fdm "position/long-gc-deg").mul M_PI).div (Dbl.lit 180 1)
  let alt := (fdm "position/h-sl-ft").mul (Dbl.lit 3048 10000)
  let q0 := fdm "orientation/phi-rad"
  let q1 := fdm "orientation/theta-rad"
  let q2 := fdm "orientation/psi-rad"
  let u := (fdm "velocities/u-fps").mul (Dbl.lit 3048 10000)
  let v := (fdm "velocities/v-fps").mul (Dbl.lit 3048 10000)
  let w := (fdm "velocities/w-fps").mul (Dbl.lit 3048 10000)
  let p := fdm "velocities/p-rad_sec"
  let q := fdm "velocities/q-rad_sec"
  let r := fdm "velocities/r-rad_sec"
  let vc := (fdm "velocities/vc-fps").mul (Dbl.lit 3048 10000)
  let mach := fdm "velocities/mach"
  let alpha := ((fdm "aero/alpha-deg").mul M_PI).div (Dbl.lit 180 1)
  let beta := ((fdm "aero/beta-deg").mul M_PI).div (Dbl.lit 180 1)
  let sim_time := fdm "simulation/sim-time-secs"
  [lat, lon, alt, q0, q1, q2, u, v, w, p, q, r, alt, vc, mach, alpha, beta, sim_time]

/-- The text `send_state` formats into its 512-byte buffer and sends. -/
def state_payload (fdm : Fdm) : List Char := snprintf 512 (state_values fdm)

/-- The member function `send_state`: the payload goes to `client_addr`. -/
def send_state (b : Bridge) : Bridge :=
  { b with trace := b.trace ++ [Effect.sendto (state_payload b.fdm) b.client_addr] }

/-- One iteration of the loop of `run`: receive, advance the engine by one step
(`fdm->Run()`, the function `engine` on the property tree), send, sleep. -/
def tick (engine : Fdm → Fdm) (b : Bridge) (rx : Option Datagram) : Bridge :=
  let b1 := (receive_controls b rx).2
  let b2 : Bridge := { b1 with fdm := engine b1.fdm, trace := b1.trace ++ [Effect.run] }
  let b3 := send_state b2
  { b3 with trace := b3.trace ++ [Effect.usleep 16666] }

/-- The first iterations of the endless loop of `run`, one per element of `rxs`,
which says what `recvfrom` finds at each of them. -/
def run (engine : Fdm → Fdm) (b : Bridge) (rxs : List (Option Datagram)) : Bridge :=
  rxs.foldl (tick engine) b

/-! ## Vocabulary of the properties proved below -/

/-- The channel of a `ControlInputs` at a position of the payload, in the order of
the parameters of `set_control`. -/
def ControlInputs.channel (c : ControlInputs) : Nat → Dbl
  | 0 => c.throttle
  | 1 => c.elevator
  | 2 => c.aileron
  | 3 => c.rudder
  | 4 => c.flaps
  | 5 => c.gear
  | 6 => c.mix
  | 7 => c.aileron_trim
  | 8 => c.elevator_trim
  | _ => c.rudder_trim

/-- The name of the control property `set_control` writes for a position. -/
def controlProperty : Nat → String
  | 0 => "controls/throttle"
  | 1 => "controls/elevator"
  | 2 => "controls/aileron"
  | 3 => "controls/rudder"
  | 4 => "controls/flaps"
  | 5 => "controls/gear"
  | 6 => "controls/mix"
  | 7 => "controls/aileron-trim"
  | 8 => "controls/elevator-trim"
  | _ => "controls/rudder-trim"

/-- The ten property writes of one `set_control`, for the controls it stores. -/
def controlWrites (c : ControlInputs) : List Effect :=
  [Effect.setDouble "controls/throttle" c.throttle,
   Effect.setDouble "controls/elevator" c.elevator,
   Effect.setDouble "controls/aileron" c.aileron,
   Effect.setDouble "controls/rudder" c.rudder,
   Effect.setDouble "controls/flaps" c.flaps,
   Effect.setDouble "controls/gear" c.gear,
   Effect.setDouble "controls/mix" c.mix,
   Effect.setDouble "controls/aileron-trim" c.aileron_trim,
   Effect.setDouble "controls/elevator-trim" c.elevator_trim,
   Effect.setDouble "controls/rudder-trim" c.rudder_trim]

/-- The value decoded for position `k`: the conversion of token `k` when the payload
has one, `0.0` otherwise. -/
def tokenVal (toks : List (List Char)) (k : Nat) : Dbl :=
  if k < toks.length then atof (toks.getD k []) else Dbl.zero

/-- A bridge with every control channel set to a value of its own. -/
def sampleBridge : Bridge :=
  { fdm := fun _ => Dbl.zero
    client_addr := { addr := 2130706433, port := 4242 }
    controls :=
      { throttle := Dbl.lit 1 1, elevator := Dbl.lit 2 1, aileron := Dbl.lit 3 1,
        rudder := Dbl.lit 4 1, flaps := Dbl.lit 5 1, gear := Dbl.lit 6 1, mix := Dbl.lit 7 1,
        aileron_trim := Dbl.lit 8 1, elevator_trim := Dbl.lit 9 1,
        rudder_trim := Dbl.lit 10 1 }
    trace := [] }

/-- The text the format string of `send_state` produces for the eighteen values,
before the size of the buffer cuts it. -/
def state_text (fdm : Fdm) : List Char :=
  List.intercalate [','] ((state_values fdm).map fmt6)

/-- Splits an optional minus sign off the front. -/
def takeMinus : List Char → Bool × List Char
  | '-' :: t => (true, t)
  | s => (false, s)

/-- Reads a decimal numeral `[-]digits.digits` (nothing before, nothing after):
its sign, its integer digits and its fraction digits. -/
def splitDecimal (s : List Char) : Option (Bool × List Char × List Char) :=
  let ip := (takeMinus s).2.takeWhile isdigit
  match (takeMinus s).2.dropWhile isdigit with
  | '.' :: fp =>
    if ip ≠ [] ∧ fp ≠ [] ∧ fp.all isdigit = true then some ((takeMinus s).1, ip, fp) else none
  | _ => none

/-- Whether a field is a decimal numeral with exactly six digits after the point. -/
def isFixed6 (s : List Char) : Bool :=
  match splitDecimal s with
  | some (_, _, fp) => fp.length = 6
  | none => false

/-- The number a decimal numeral `[-]digits.digits` denotes. -/
def decimalValue (s : List Char) : Option ℚ :=
  match splitDecimal s with
  | some (neg, ip, fp) =>
    some ((if neg then -1 else 1) *
      ((digitsValue 10 ip : ℚ) + (digitsValue 10 fp : ℚ) / (10 : ℚ) ^ fp.length))
  | none => none

/-- The property writes recorded in a trace, in order. -/
def propertyWrites (trace : List Effect) : List Effect :=
  trace.filter (fun e => match e with
    | Effect.setDouble _ _ => true
    | _ => false)

/-- The destinations of the datagrams sent in a trace, in order. -/
def destinations : List Effect → List SockAddr
  | [] => []
  | Effect.sendto _ dest :: rest => dest :: destinations rest
  | _ :: rest => destinations rest

/-- The sender of the most recent datagram among what `recvfrom` found, if any. -/
def lastSender (rxs : List (Option Datagram)) : Option SockAddr :=
  rxs.foldl (fun acc rx => match rx with
    | some d => some d.sender
    | none => acc) none

/-- An engine step that only advances the simulation time property. -/
def clockEngine (fdm : Fdm) : Fdm :=
  fun n => if n = "simulation/sim-time-secs" then Dbl.lit 1 60 else fdm n

/-- An engine state in level cruise: every printed property has a value of its own. -/
def cruiseFdm : Fdm := fun n =>
  if n = "position/lat-gc-deg" then Dbl.lit 45 1
  else if n = "position/long-gc-deg" then Dbl.lit 90 1
  else if n = "position/h-sl-ft" then Dbl.lit 1000 1
  else if n = "orientation/phi-rad" then Dbl.lit 1 100
  else if n = "orientation/theta-rad" then Dbl.lit 2 100
  else if n = "orientation/psi-rad" then Dbl.lit 3 100
  else if n = "velocities/u-fps" then Dbl.lit 100 1
  else if n = "velocities/v-fps" then Dbl.lit 2 1
  else if n = "velocities/w-fps" then Dbl.lit 3 1
  else if n = "velocities/p-rad_sec" then Dbl.lit 4 100
  else if n = "velocities/q-rad_sec" then Dbl.lit 5 100
  else if n = "velocities/r-rad_sec" then Dbl.lit 6 100
  else if n = "velocities/vc-fps" then Dbl.lit 120 1
  else if n = "velocities/mach" then Dbl.lit 2 10
  else if n = "aero/alpha-deg" then Dbl.lit 5 1
  else if n = "aero/beta-deg" then Dbl.lit 1 1
  else if n = "simulation/sim-time-secs" then Dbl.lit 10 1
  else Dbl.zero

/-- An engine state with an altitude of `2^1000` feet and zero elsewhere. -/
def hugeAltitudeFdm : Fdm := fun n =>
  if n = "position/h-sl-ft" then Dbl.fin false (2 ^ 52) 948 else Dbl.zero

/-- An engine state with latitude and longitude of `2^824` degrees, an altitude of
1000 feet and zero elsewhere. -/
def hugeAnglesFdm : Fdm := fun n =>
  if n = "position/lat-gc-deg" then Dbl.fin false (2 ^ 52) 772
  else if n = "position/long-gc-deg" then Dbl.fin false (2 ^ 52) 772
  else if n = "position/h-sl-ft" then Dbl.lit 1000 1
  else Dbl.zero

/-- An engine state at the south pole and the date line (latitude -90, longitude
-180 degrees) with the lowest altitude a `double` can hold, `-DBL_MAX` feet, and
zero elsewhere. -/
def deepestFdm : Fdm := fun n =>
  if n = "position/lat-gc-deg" then Dbl.fin true 90 0
  else if n = "position/long-gc-deg" then Dbl.fin true 180 0
  else if n = "position/h-sl-ft" then Dbl.fin true (2 ^ 53 - 1) 971
  else Dbl.zero

/-- A datagram with seven tokens. -/
def sevenTokenDatagram : Datagram :=
  { payload := "0.5,0.1,-0.2,0.0,0.0,1.0,0.8".toList, sender := { addr := 1, port := 2 } }

/-- A datagram with twelve tokens. -/
def twelveTokenDatagram : Datagram :=
  { payload := "1,2,3,4,5,6,7,8,9,10,11,12".toList, sender := { addr := 1, port := 2 } }

/-- A datagram whose second token is not a number. -/
def junkTokenDatagram : Datagram :=
  { payload := "0.5,abc,-0.2,0.0,0.0,1.0".toList, sender := { addr := 1, port := 2 } }

/-- A datagram of 326 bytes with seven fields: the sixth field is the digit `1`
followed by 300 zeros (the number `10^300`), the seventh is `0.8`. -/
def longSevenDatagram : Datagram :=
  { payload := "0.5,0.1,-0.2,0.0,0.0,".toList ++ '1' :: List.replicate 300 '0' ++ ",0.8".toList,
    sender := { addr := 1, port := 2 } }

/-- A datagram of 321 bytes with six fields: the fifth field is 300 zeros. -/
def longSixDatagram : Datagram :=
  { payload := "0.5,0.1,-0.2,0.0,".toList ++ List.replicate 300 '0' ++ ",1.0".toList,
    sender := { addr := 1, port := 2 } }

/-- A datagram with seven fields and a NUL byte at the end of the sixth. -/
def nulSevenDatagram : Datagram :=
  { payload := "0.5,0.1,-0.2,0.0,0.0,1.0".toList ++ NUL :: ",0.8".toList,
    sender := { addr := 1, port := 2 } }

/-- A datagram of 256 bytes with ten fields: the tenth field is 237 zeros followed
by the digit `7` (the number 7), the last byte of the datagram. -/
def longTenDatagram : Datagram :=
  { payload := "1,2,3,4,5,6,7,8,9,".toList ++ List.replicate 237 '0' ++ ['7'],
    sender := { addr := 1, port := 2 } }

/-- A datagram with eleven fields and a NUL byte at the end of the ninth. -/
def nulElevenDatagram : Datagram :=
  { payload := "1,2,3,4,5,6,7,8,9".toList ++ NUL :: ",10,11".toList,
    sender := { addr := 1, port := 2 } }

/-- A datagram whose second token starts with a number and goes on with letters. -/
def numericStartDatagram : Datagram :=
  { payload := "0.5,1abc,-0.2,0.0,0.0,1.0".toList, sender := { addr := 1, port := 2 } }

/-- A datagram whose second token is a name that starts with `nan`. -/
def nancyDatagram : Datagram :=
  { payload := "0.5,nancy,-0.2,0.0,0.0,1.0".toList, sender := { addr := 1, port := 2 } }

/-- A datagram of 321 bytes with six fields: the second is not a number, the fifth
is 300 zeros. -/
def longJunkDatagram : Datagram :=
  { payload := "0.5,abc,-0.2,0.0,".toList ++ List.replicate 300 '0' ++ ",1.0".toList,
    sender := { addr := 1, port := 2 } }

/-! ## Tokens: what the `strtok` loop computes -/

theorem splitOn_comma_cons (t : List Char) :
    List.splitOn ',' (',' :: t) = [] :: List.splitOn ',' t := by
  simp [List.splitOn]

theorem splitOn_other_cons (c : Char) (t : List Char) (h : c ≠ ',') :
    List.splitOn ',' (c :: t) = (List.splitOn ',' t).modifyHead (List.cons c) := by
  simp [List.splitOn, h]

theorem splitOn_ne_nil (s : List Char) : List.splitOn ',' s ≠ [] :=
  List.splitOnP_ne_nil _ _

theorem tokens_nil : tokens [] = [] := by
  simp [tokens]

theorem tokens_comma_cons (t : List Char) : tokens (',' :: t) = tokens t := by
  simp [tokens, splitOn_comma_cons]

/-- The first piece of a split is the text before the first comma, and the other
pieces are the split of the text after that comma. -/
theorem splitOn_eq_takeWhile (s : List Char) :
    List.splitOn ',' s = s.takeWhile (· != ',') ::
      (match s.dropWhile (· != ',') with
       | [] => []
       | _ :: r => List.splitOn ',' r) := by
  induction s with
  | nil => simp
  | cons c t ih =>
    by_cases h : c = ','
    · subst h
      simp [splitOn_comma_cons]
    · rw [splitOn_other_cons c t h, ih]
      simp [h, List.modifyHead]

theorem strtok_comma_cons (t : List Char) : strtok (',' :: t) = strtok t := by
  simp [strtok]

theorem strtok_other_cons (c : Char) (t : List Char) (h : c ≠ ',') :
    strtok (c :: t) =
      some (c :: t.takeWhile (· != ','), (t.dropWhile (· != ',')).drop 1) := by
  simp [strtok, h]

theorem tokens_other_cons (c : Char) (t : List Char) (h : c ≠ ',') :
    tokens (c :: t) =
      (c :: t.takeWhile (· != ',')) :: tokens ((t.dropWhile (· != ',')).drop 1) := by
  unfold tokens
  rw [splitOn_other_cons c t h, splitOn_eq_takeWhile t]
  cases hd : t.dropWhile (· != ',') with
  | nil => simp [List.modifyHead]
  | cons x r => simp [List.modifyHead]

/-- The tokens `strtok` hands out one after the other are the non-empty pieces
between commas. -/
theorem strtok_tokens (s : List Char) :
    match strtok s with
    | none => tokens s = []
    | some (tok, rest) => tokens s = tok :: tokens rest := by
  induction s with
  | nil => simp [strtok, tokens_nil]
  | cons c t ih =>
    by_cases h : c = ','
    · subst h
      rw [strtok_comma_cons, tokens_comma_cons]
      exact ih
    · rw [strtok_other_cons c t h]
      exact tokens_other_cons c t h

theorem tokenLoop_eq (n : Nat) (s : List Char) (vals : List Dbl) :
    tokenLoop n (strtok s) vals = vals ++ ((tokens s).take n).map atof := by
  induction n generalizing s vals with
  | zero => simp [tokenLoop]
  | succ n ih =>
    have h := strtok_tokens s
    cases hs : strtok s with
    | none =>
      rw [hs] at h
      simp [tokenLoop, h]
    | some p =>
      obtain ⟨tok, rest⟩ := p
      rw [hs] at h
      simp only at h
      simp [tokenLoop, ih, h]

/-- The values the loop stores: the first ten tokens, each converted by `atof`. -/
theorem parse_vals_eq (buffer : List Char) :
    parse_vals buffer = ((tokens (cString buffer)).take 10).map atof := by
  simp [parse_vals, tokenLoop_eq]

theorem parse_vals_length (buffer : List Char) :
    (parse_vals buffer).length = min 10 (tokens (cString buffer)).length := by
  simp [parse_vals_eq]

/-! ## The decoder -/

theorem tokens_ne_nil_imp (s : List Char) (h : tokens s ≠ []) : s ≠ [] := by
  intro hs
  subst hs
  exact h tokens_nil

theorem cString_ne_nil_imp (buffer : List Char) (h : cString buffer ≠ []) : buffer ≠ [] := by
  intro hs
  subst hs
  exact h (by simp [cString])

theorem getD_parse_vals (buffer : List Char) (k : Nat)
    (hk : k < 10) (hn : k < (tokens (cString buffer)).length) :
    (parse_vals buffer).getD k Dbl.zero = tokenVal (tokens (cString buffer)) k := by
  have hlen : k < (parse_vals buffer).length := by
    rw [parse_vals_length]; omega
  rw [List.getD_eq_getElem _ _ hlen]
  simp only [tokenVal, hn, if_true]
  rw [List.getD_eq_getElem _ _ hn]
  simp [parse_vals_eq]

/-- A payload with fewer than six tokens only replaces the reply address. -/
theorem receive_controls_reject (b : Bridge) (d : Datagram)
    (h : (tokens (cString (received d.payload))).length < 6) :
    (receive_controls b (some d)).2 = { b with client_addr := d.sender } := by
  have hl := parse_vals_length (received d.payload)
  have h6 : ¬ 6 ≤ (parse_vals (received d.payload)).length := by omega
  simp only [receive_controls]
  split <;> simp [h6]

/-- A payload with at least six tokens is handed to `set_control`. -/
theorem receive_controls_accept (b : Bridge) (d : Datagram)
    (h : 6 ≤ (tokens (cString (received d.payload))).length) :
    (receive_controls b (some d)).2 =
      set_control { b with client_addr := d.sender }
        (tokenVal (tokens (cString (received d.payload))) 0)
        (tokenVal (tokens (cString (received d.payload))) 1)
        (tokenVal (tokens (cString (received d.payload))) 2)
        (tokenVal (tokens (cString (received d.payload))) 3)
        (tokenVal (tokens (cString (received d.payload))) 4)
        (tokenVal (tokens (cString (received d.payload))) 5)
        (tokenVal (tokens (cString (received d.payload))) 6)
        (tokenVal (tokens (cString (received d.payload))) 7)
        (tokenVal (tokens (cString (received d.payload))) 8)
        (tokenVal (tokens (cString (received d.payload))) 9) := by
  have hl := parse_vals_length (received d.payload)
  have h6 : 6 ≤ (parse_vals (received d.payload)).length := by omega
  have hne : tokens (cString (received d.payload)) ≠ [] := by
    intro h0; rw [h0] at h; simp at h
  have hbuf : received d.payload ≠ [] :=
    cString_ne_nil_imp _ (tokens_ne_nil_imp _ hne)
  have hpos : 0 < (received d.payload).length := List.length_pos.mpr hbuf
  have g : ∀ k, k < 10 → k < (tokens (cString (received d.payload))).length →
      (parse_vals (received d.payload)).getD k Dbl.zero =
        tokenVal (tokens (cString (received d.payload))) k :=
    fun k hk hn => getD_parse_vals _ k hk hn
  have g2 : ∀ k, k < 10 → 6 ≤ k →
      (if k < (parse_vals (received d.payload)).length then
        (parse_vals (received d.payload)).getD k Dbl.zero else Dbl.zero) =
        tokenVal (tokens (cString (received d.payload))) k := by
    intro k hk _
    by_cases hn : k < (tokens (cString (received d.payload))).length
    · have : k < (parse_vals (received d.payload)).length := by omega
      rw [if_pos this, g k hk hn]
    · have : ¬ k < (parse_vals (received d.payload)).length := by omega
      rw [if_neg this]
      simp [tokenVal, hn]
  simp only [receive_controls, hpos, h6, if_true]
  rw [g 0 (by omega) (by omega), g 1 (by omega) (by omega), g 2 (by omega) (by omega),
    g 3 (by omega) (by omega), g 4 (by omega) (by omega), g 5 (by omega) (by omega),
    g2 6 (by omega) (by omega), g2 7 (by omega) (by omega), g2 8 (by omega) (by omega),
    g2 9 (by omega) (by omega)]

theorem set_control_controls (b : Bridge) (v0 v1 v2 v3 v4 v5 v6 v7 v8 v9 : Dbl) :
    (set_control b v0 v1 v2 v3 v4 v5 v6 v7 v8 v9).controls =
      { throttle := v0, elevator := v1, aileron := v2, rudder := v3, flaps := v4,
        gear := v5, mix := v6, aileron_trim := v7, elevator_trim := v8,
        rudder_trim := v9 } := rfl

theorem set_control_client_addr (b : Bridge) (v0 v1 v2 v3 v4 v5 v6 v7 v8 v9 : Dbl) :
    (set_control b v0 v1 v2 v3 v4 v5 v6 v7 v8 v9).client_addr = b.client_addr := rfl

theorem set_control_trace (b : Bridge) (v0 v1 v2 v3 v4 v5 v6 v7 v8 v9 : Dbl) :
    (set_control b v0 v1 v2 v3 v4 v5 v6 v7 v8 v9).trace = b.trace ++
      [Effect.setDouble "controls/throttle" v0, Effect.setDouble "controls/elevator" v1,
       Effect.setDouble "controls/aileron" v2, Effect.setDouble "controls/rudder" v3,
       Effect.setDouble "controls/flaps" v4, Effect.setDouble "controls/gear" v5,
       Effect.setDouble "controls/mix" v6, Effect.setDouble "controls/aileron-trim" v7,
       Effect.setDouble "controls/elevator-trim" v8,
       Effect.setDouble "controls/rudder-trim" v9] := by
  simp [set_control, Bridge.setDouble]

theorem set_control_fdm (b : Bridge) (v0 v1 v2 v3 v4 v5 v6 v7 v8 v9 : Dbl) (k : Nat)
    (hk : k < 10) :
    (set_control b v0 v1 v2 v3 v4 v5 v6 v7 v8 v9).fdm (controlProperty k) =
      ({ throttle := v0, elevator := v1, aileron := v2, rudder := v3, flaps := v4,
         gear := v5, mix := v6, aileron_trim := v7, elevator_trim := v8,
         rudder_trim := v9 } : ControlInputs).channel k := by
  interval_cases k <;>
    simp [set_control, Bridge.setDouble, SetDouble, controlProperty, ControlInputs.channel]

theorem length_splitOn (s : List Char) :
    (List.splitOn ',' s).length = s.count ',' + 1 := by
  induction s with
  | nil => simp
  | cons c t ih =>
    by_cases h : c = ','
    · subst h
      simp [splitOn_comma_cons, ih]
    · rw [splitOn_other_cons c t h, List.length_modifyHead, ih, List.count_cons_of_ne (Ne.symm h)]

theorem cString_received_sublist (payload : List Char) :
    List.Sublist (cString (received payload)) payload :=
  (List.takeWhile_sublist _).trans (List.take_sublist _ _)

/-- The code never sees more tokens than the payload has comma-separated fields. -/
theorem length_tokens_le (payload : List Char) :
    (tokens (cString (received payload))).length ≤ (List.splitOn ',' payload).length := by
  have h1 : (tokens (cString (received payload))).length ≤
      (List.splitOn ',' (cString (received payload))).length :=
    List.length_filter_le _ _
  have h2 := (cString_received_sublist payload).count_le ','
  rw [length_splitOn] at h1 ⊢
  omega

/-- C1: a received payload with fewer than six tokens (counted as the code counts
them, or as comma-separated fields of the payload) is rejected whatever its tokens
are: the ten fields of the held `ControlInputs` are as before, the property tree is
as before, and no property write (no effect at all) is added to the trace. -/
theorem receive_controls_short_payload_rejected (b : Bridge) (d : Datagram)
    (h : (tokens (cString (received d.payload))).length < 6 ∨
      (List.splitOn ',' d.payload).length < 6) :
    (receive_controls b (some d)).2.controls = b.controls ∧
    (receive_controls b (some d)).2.fdm = b.fdm ∧
    (receive_controls b (some d)).2.trace = b.trace := by
  have h6 : (tokens (cString (received d.payload))).length < 6 := by
    have := length_tokens_le d.payload
    omega
  rw [receive_controls_reject b d h6]
  exact ⟨rfl, rfl, rfl⟩

theorem receive_controls_short_payload_rejected_witness :
    (receive_controls sampleBridge
        (some { payload := "a,b,c,d,e".toList, sender := { addr := 1, port := 2 } })).2.controls
      = sampleBridge.controls ∧
    (receive_controls sampleBridge
        (some { payload := "a,b,c,d,e".toList, sender := { addr := 1, port := 2 } })).2.fdm
      = sampleBridge.fdm ∧
    (receive_controls sampleBridge
        (some { payload := "a,b,c,d,e".toList, sender := { addr := 1, port := 2 } })).2.trace
      = sampleBridge.trace :=
  receive_controls_short_payload_rejected sampleBridge
    { payload := "a,b,c,d,e".toList, sender := { addr := 1, port := 2 } }
    (Or.inl (by decide))

theorem receive_controls_fst (b : Bridge) (d : Datagram) :
    (receive_controls b (some d)).1 = decide (0 < (received d.payload).length) := by
  simp only [receive_controls]
  split
  · split <;> simp [*]
  · simp [*]

theorem controlWrites_eq (v0 v1 v2 v3 v4 v5 v6 v7 v8 v9 : Dbl) :
    controlWrites
      ({ throttle := v0, elevator := v1, aileron := v2, rudder := v3, flaps := v4,
         gear := v5, mix := v6, aileron_trim := v7, elevator_trim := v8,
         rudder_trim := v9 } : ControlInputs) =
      [Effect.setDouble "controls/throttle" v0, Effect.setDouble "controls/elevator" v1,
       Effect.setDouble "controls/aileron" v2, Effect.setDouble "controls/rudder" v3,
       Effect.setDouble "controls/flaps" v4, Effect.setDouble "controls/gear" v5,
       Effect.setDouble "controls/mix" v6, Effect.setDouble "controls/aileron-trim" v7,
       Effect.setDouble "controls/elevator-trim" v8,
       Effect.setDouble "controls/rudder-trim" v9] := rfl

/-- What an accepted payload does: the channel at every position is the decoded
value of that position, the ten control properties hold the same values, and the
trace grows by the ten property writes. -/
theorem receive_controls_accept_spec (b : Bridge) (d : Datagram)
    (h : 6 ≤ (tokens (cString (received d.payload))).length) :
    (∀ k, k < 10 → (receive_controls b (some d)).2.controls.channel k =
      tokenVal (tokens (cString (received d.payload))) k) ∧
    (∀ k, k < 10 → (receive_controls b (some d)).2.fdm (controlProperty k) =
      tokenVal (tokens (cString (received d.payload))) k) ∧
    (receive_controls b (some d)).2.trace =
      b.trace ++ controlWrites (receive_controls b (some d)).2.controls := by
  rw [receive_controls_accept b d h]
  refine ⟨?_, ?_, ?_⟩
  · intro k hk
    rw [set_control_controls]
    interval_cases k <;> rfl
  · intro k hk
    rw [set_control_fdm _ _ _ _ _ _ _ _ _ _ _ k hk]
    interval_cases k <;> rfl
  · rw [set_control_trace, set_control_controls, controlWrites_eq]

theorem tokenVal_of_lt (toks : List (List Char)) (k : Nat) (h : k < toks.length) :
    tokenVal toks k = atof (toks.getD k []) := by
  simp [tokenVal, h]

theorem tokenVal_of_le (toks : List (List Char)) (k : Nat) (h : toks.length ≤ k) :
    tokenVal toks k = Dbl.zero := by
  have : ¬ k < toks.length := by omega
  simp [tokenVal, this]

theorem receive_controls_accept_controls (b : Bridge) (p : List Char) (a : SockAddr)
    (h : 6 ≤ (tokens (cString (received p))).length) :
    (receive_controls b (some { payload := p, sender := a })).2.controls =
      { throttle := tokenVal (tokens (cString (received p))) 0,
        elevator := tokenVal (tokens (cString (received p))) 1,
        aileron := tokenVal (tokens (cString (received p))) 2,
        rudder := tokenVal (tokens (cString (received p))) 3,
        flaps := tokenVal (tokens (cString (received p))) 4,
        gear := tokenVal (tokens (cString (received p))) 5,
        mix := tokenVal (tokens (cString (received p))) 6,
        aileron_trim := tokenVal (tokens (cString (received p))) 7,
        elevator_trim := tokenVal (tokens (cString (received p))) 8,
        rudder_trim := tokenVal (tokens (cString (received p))) 9 } := by
  rw [receive_controls_accept b _ h, set_control_controls]

/-! ## Payloads rebuilt from tokens -/

theorem mem_splitOn (s : List Char) :
    ∀ f ∈ List.splitOn ',' s, ',' ∉ f ∧ ∀ c ∈ f, c ∈ s := by
  induction s with
  | nil => simp
  | cons x t ih =>
    by_cases h : x = ','
    · subst h
      rw [splitOn_comma_cons]
      intro f hf
      rcases List.mem_cons.mp hf with rfl | hf
      · simp
      · exact ⟨(ih f hf).1, fun c hc => List.mem_cons_of_mem _ ((ih f hf).2 c hc)⟩
    · rw [splitOn_other_cons x t h]
      cases hs : List.splitOn ',' t with
      | nil => exact absurd hs (splitOn_ne_nil t)
      | cons g gs =>
        rw [hs] at ih
        intro f hf
        simp only [List.modifyHead, List.mem_cons] at hf
        rcases hf with rfl | hf
        · have hg := ih g (List.mem_cons_self _ _)
          refine ⟨?_, ?_⟩
          · intro hmem
            rcases List.mem_cons.mp hmem with h1 | h1
            · exact h h1.symm
            · exact hg.1 h1
          · intro c hc
            rcases List.mem_cons.mp hc with rfl | h1
            · exact List.mem_cons_self _ _
            · exact List.mem_cons_of_mem _ (hg.2 c h1)
        · have hg := ih f (List.mem_cons_of_mem _ hf)
          exact ⟨hg.1, fun c hc => List.mem_cons_of_mem _ (hg.2 c hc)⟩

theorem mem_tokens (s : List Char) (f : List Char) (hf : f ∈ tokens s) :
    f ≠ [] ∧ ',' ∉ f ∧ ∀ c ∈ f, c ∈ s := by
  simp only [tokens, List.mem_filter, decide_eq_true_eq] at hf
  exact ⟨hf.2, mem_splitOn s f hf.1⟩

theorem tokens_intercalate (l : List (List Char))
    (h : ∀ f ∈ l, f ≠ [] ∧ ',' ∉ f) : tokens (List.intercalate [','] l) = l := by
  cases l with
  | nil => simp [List.intercalate, tokens]
  | cons g gs =>
    unfold tokens
    rw [List.splitOn_intercalate _ ',' (fun f hf => (h f hf).2) (List.cons_ne_nil _ _)]
    rw [List.filter_eq_self]
    intro f hf
    simpa using (h f hf).1

theorem length_intercalate_cons (g : List Char) (gs : List (List Char)) :
    (List.intercalate [','] (g :: gs)).length =
      g.length + (if gs = [] then 0 else 1 + (List.intercalate [','] gs).length) := by
  cases gs with
  | nil => simp [List.intercalate]
  | cons x xs => simp [List.intercalate, List.intersperse]; omega

theorem length_intercalate_sublist {l₁ l₂ : List (List Char)} (h : List.Sublist l₁ l₂) :
    (List.intercalate [','] l₁).length ≤ (List.intercalate [','] l₂).length := by
  induction h with
  | slnil => simp
  | @cons l₁ l₂ a _ ih =>
    rw [length_intercalate_cons]
    split
    · next h0 =>
      subst h0
      have := List.sublist_nil.mp ‹List.Sublist l₁ []›
      subst this
      simp [List.intercalate]
    · omega
  | @cons₂ l₁ l₂ a hs ih =>
    rw [length_intercalate_cons, length_intercalate_cons]
    by_cases h1 : l₁ = []
    · subst h1; simp
    · have h2 : l₂ ≠ [] := by
        intro h2; subst h2; exact h1 (List.sublist_nil.mp hs)
      simp [h1, h2]; omega

theorem mem_intercalate (l : List (List Char)) (c : Char)
    (hc : c ∈ List.intercalate [','] l) : c = ',' ∨ ∃ f ∈ l, c ∈ f := by
  induction l with
  | nil => simp [List.intercalate] at hc
  | cons g gs ih =>
    cases gs with
    | nil =>
      simp [List.intercalate] at hc
      exact Or.inr ⟨g, List.mem_cons_self _ _, hc⟩
    | cons x xs =>
      have e : List.intercalate [','] (g :: x :: xs) =
          g ++ ',' :: List.intercalate [','] (x :: xs) := by
        simp [List.intercalate, List.intersperse]
      rw [e] at hc
      rcases List.mem_append.mp hc with h1 | h1
      · exact Or.inr ⟨g, List.mem_cons_self _ _, h1⟩
      · rcases List.mem_cons.mp h1 with h2 | h2
        · exact Or.inl h2
        · rcases ih h2 with h3 | ⟨f, hf, hcf⟩
          · exact Or.inl h3
          · exact Or.inr ⟨f, List.mem_cons_of_mem _ hf, hcf⟩

theorem cString_length_le (payload : List Char) :
    (cString (received payload)).length ≤ 255 := by
  have h1 : (cString (received payload)).length ≤ (received payload).length :=
    (List.takeWhile_sublist _).length_le
  have h2 : (received payload).length ≤ 255 := by
    simp [received]
  omega

theorem mem_cString (buffer : List Char) (c : Char) (hc : c ∈ cString buffer) : c ≠ NUL := by
  have := List.mem_takeWhile_imp hc
  simpa using this

theorem cString_received_eq_self (s : List Char) (hlen : s.length ≤ 255)
    (hnul : ∀ c ∈ s, c ≠ NUL) : cString (received s) = s := by
  have h1 : received s = s := by
    simp [received, List.take_of_length_le hlen]
  rw [h1, cString, List.takeWhile_eq_self_iff]
  intro c hc
  simpa using hnul c hc

/-- For a payload without NUL, of at most 255 bytes and without empty field, the
tokens of the decoder are the comma-separated fields of the payload. -/
theorem tokens_of_plain_payload (p : List Char) (hlen : p.length ≤ 255)
    (hnul : ∀ c ∈ p, c ≠ NUL) (hne : ∀ f ∈ List.splitOn ',' p, f ≠ []) :
    tokens (cString (received p)) = List.splitOn ',' p := by
  rw [cString_received_eq_self p hlen hnul, tokens, List.filter_eq_self]
  intro f hf
  simpa using hne f hf

/-- The payload made of the first `n` tokens of a received payload is read back as
exactly those tokens. -/
theorem tokens_rebuilt (payload : List Char) (n : Nat) :
    tokens (cString (received
      (List.intercalate [','] ((tokens (cString (received payload))).take n)))) =
      (tokens (cString (received payload))).take n := by
  have hsub : List.Sublist ((tokens (cString (received payload))).take n)
      (List.splitOn ',' (cString (received payload))) :=
    (List.take_sublist _ _).trans (List.filter_sublist _)
  have hlen := length_intercalate_sublist hsub
  rw [List.intercalate_splitOn] at hlen
  have h255 := cString_length_le payload
  have hmem : ∀ f ∈ (tokens (cString (received payload))).take n,
      f ≠ [] ∧ ',' ∉ f ∧ ∀ c ∈ f, c ∈ cString (received payload) :=
    fun f hf => mem_tokens _ f (List.mem_of_mem_take hf)
  rw [cString_received_eq_self _ (by omega)]
  · exact tokens_intercalate _ (fun f hf => ⟨(hmem f hf).1, (hmem f hf).2.1⟩)
  · intro c hc
    rcases mem_intercalate _ c hc with h1 | ⟨f, hf, hcf⟩
    · rw [h1]; decide
    · exact mem_cString _ c ((hmem f hf).2.2 c hcf)

theorem tokenVal_take (toks : List (List Char)) (n k : Nat) (hk : k < n) :
    tokenVal (toks.take n) k = tokenVal toks k := by
  by_cases h : k < toks.length
  · have h1 : k < (toks.take n).length := by simp; omega
    rw [tokenVal_of_lt _ _ h1, tokenVal_of_lt _ _ h, List.getD_eq_getElem _ _ h1,
      List.getD_eq_getElem _ _ h]
    simp
  · have h1 : (toks.take n).length ≤ k := by simp; omega
    rw [tokenVal_of_le _ _ h1, tokenVal_of_le _ _ (by omega)]

/-- Two datagrams from the same sender whose first ten tokens agree are handled alike. -/
theorem receive_controls_congr (b : Bridge) (d d' : Datagram) (hs : d'.sender = d.sender)
    (ht : tokens (cString (received d'.payload)) =
      (tokens (cString (received d.payload))).take 10)
    (h : 6 ≤ (tokens (cString (received d.payload))).length) :
    receive_controls b (some d') = receive_controls b (some d) := by
  have h' : 6 ≤ (tokens (cString (received d'.payload))).length := by
    rw [ht]; simp; omega
  have hpos : ∀ e : Datagram, 6 ≤ (tokens (cString (received e.payload))).length →
      0 < (received e.payload).length := by
    intro e he
    apply List.length_pos.mpr
    apply cString_ne_nil_imp
    apply tokens_ne_nil_imp
    intro h0
    rw [h0] at he
    simp at he
  apply Prod.ext
  · rw [receive_controls_fst, receive_controls_fst]
    simp [hpos d h, hpos d' h']
  · rw [receive_controls_accept b d h, receive_controls_accept b d' h', ht, hs]
    simp only [tokenVal_take _ 10 _ (by decide : 0 < 10), tokenVal_take _ 10 _ (by decide : 1 < 10),
      tokenVal_take _ 10 _ (by decide : 2 < 10), tokenVal_take _ 10 _ (by decide : 3 < 10),
      tokenVal_take _ 10 _ (by decide : 4 < 10), tokenVal_take _ 10 _ (by decide : 5 < 10),
      tokenVal_take _ 10 _ (by decide : 6 < 10), tokenVal_take _ 10 _ (by decide : 7 < 10),
      tokenVal_take _ 10 _ (by decide : 8 < 10), tokenVal_take _ 10 _ (by decide : 9 < 10)]

/-! ## Empty and non-numeric tokens -/

/-- C8, as the claim states it, fails: with an empty second token the payload
`0.5,,-0.2,0.0,0.0,1.0` has five tokens for the decoder and is rejected; the held
controls stay as they were (elevator is not 0.0, aileron is not -0.2) and nothing is
written. -/
theorem empty_token_is_not_a_field :
    (receive_controls sampleBridge
      (some { payload := "0.5,,-0.2,0.0,0.0,1.0".toList,
              sender := { addr := 1, port := 2 } })).2.controls = sampleBridge.controls ∧
    (receive_controls sampleBridge
      (some { payload := "0.5,,-0.2,0.0,0.0,1.0".toList,
              sender := { addr := 1, port := 2 } })).2.trace = [] ∧
    (receive_controls sampleBridge
      (some { payload := "0.5,,-0.2,0.0,0.0,1.0".toList,
              sender := { addr := 1, port := 2 } })).2.controls.elevator ≠ Dbl.zero ∧
    (receive_controls sampleBridge
      (some { payload := "0.5,,-0.2,0.0,0.0,1.0".toList,
              sender := { addr := 1, port := 2 } })).2.controls.aileron ≠ (Dbl.lit 2 10).neg := by
  decide!

theorem receive_controls_reject_payload (b : Bridge) (p : List Char) (a : SockAddr)
    (h : (tokens (cString (received p))).length < 6) :
    (receive_controls b (some { payload := p, sender := a })).2 =
      { b with client_addr := a } :=
  receive_controls_reject b { payload := p, sender := a } h

/-- C8, amended: empty tokens are skipped.  The values the decoder stores are the
conversions of the first ten non-empty comma-separated pieces of the received text,
so the tokens after an empty one move down one position, and the message is accepted
(the ten property writes are made) exactly when there are six non-empty pieces.
Both `0.5,,-0.2,0.0,0.0,1.0` and `0.5,0.1,-0.2,0.0,0.0,` have five tokens and are
rejected: controls and trace stay as they were. -/
theorem receive_controls_skips_empty_tokens (b : Bridge) (d : Datagram) :
    parse_vals (received d.payload) =
      ((((List.splitOn ',' (cString (received d.payload))).filter (· ≠ [])).take 10).map atof) ∧
    (receive_controls b (some d)).2.trace =
      (if 6 ≤ ((List.splitOn ',' (cString (received d.payload))).filter (· ≠ [])).length
       then b.trace ++ controlWrites (receive_controls b (some d)).2.controls
       else b.trace) ∧
    (receive_controls b
      (some { payload := "0.5,,-0.2,0.0,0.0,1.0".toList, sender := d.sender })).2.controls
        = b.controls ∧
    (receive_controls b
      (some { payload := "0.5,,-0.2,0.0,0.0,1.0".toList, sender := d.sender })).2.trace
        = b.trace ∧
    (receive_controls b
      (some { payload := "0.5,0.1,-0.2,0.0,0.0,".toList, sender := d.sender })).2.controls
        = b.controls ∧
    (receive_controls b
      (some { payload := "0.5,0.1,-0.2,0.0,0.0,".toList, sender := d.sender })).2.trace
        = b.trace := by
  refine ⟨parse_vals_eq _, ?_, ?_, ?_, ?_, ?_⟩
  · split
    · next h => exact (receive_controls_accept_spec b d h).2.2
    · next h =>
      have h' : (tokens (cString (received d.payload))).length < 6 := Nat.lt_of_not_le h
      rw [receive_controls_reject b d h']
  · rw [receive_controls_reject_payload b _ _ (by decide)]
  · rw [receive_controls_reject_payload b _ _ (by decide)]
  · rw [receive_controls_reject_payload b _ _ (by decide)]
  · rw [receive_controls_reject_payload b _ _ (by decide)]

theorem hexBody_of_not_digit (c : Char) (t : List Char) (h : isdigit c = false) :
    hexBody (c :: t) = none := by
  by_cases h0 : c = '0'
  · subst h0
    exact absurd h (by decide)
  · unfold hexBody
    split
    · next heq =>
      simp only [List.cons.injEq] at heq
      exact absurd heq.1 h0
    · rfl

theorem strtodDecimal_of_not_digit (neg : Bool) (c : Char) (t : List Char)
    (h : isdigit c = false) (hdot : c ≠ '.') : strtodDecimal neg (c :: t) = none := by
  have h1 : (c :: t).takeWhile isdigit = [] := by simp [List.takeWhile, h]
  have h2 : (c :: t).dropWhile isdigit = c :: t := by simp [List.dropWhile, h]
  have h3 : fractionPart isdigit (c :: t) = ([], c :: t) := by
    unfold fractionPart
    split
    · next heq =>
      simp only [List.cons.injEq] at heq
      exact absurd heq.1 hdot
    · rfl
  simp [strtodDecimal, h1, h2, h3]

theorem strtodDecimal_of_dot (neg : Bool) (t : List Char)
    (h : t.takeWhile isdigit = []) : strtodDecimal neg ('.' :: t) = none := by
  have hd : isdigit '.' = false := by decide
  have h1 : ('.' :: t).takeWhile isdigit = [] := by simp [List.takeWhile, hd]
  have h2 : ('.' :: t).dropWhile isdigit = '.' :: t := by simp [List.dropWhile, hd]
  simp [strtodDecimal, h1, h2, fractionPart, h]

theorem strtodMagnitude_eq_none (neg : Bool) (r : List Char)
    (hi : startsInf r = false) (hn : startsNan r = false) (hd : startsDigits r = false) :
    strtodMagnitude neg r = none := by
  unfold strtodMagnitude
  rw [hi, hn]
  simp only [Bool.false_eq_true, if_false]
  cases r with
  | nil => simp [hexBody, strtodDecimal, fractionPart]
  | cons c t =>
    by_cases hdot : c = '.'
    · subst hdot
      have hh : hexBody ('.' :: t) = none := hexBody_of_not_digit _ _ (by decide)
      rw [hh]
      simp only [Option.bind]
      apply strtodDecimal_of_dot
      cases t with
      | nil => rfl
      | cons c2 t2 =>
        have hd2 : isdigit c2 = false := hd
        simp [List.takeWhile, hd2]
    · have hc : isdigit c = false := by
        unfold startsDigits at hd
        split at hd
        · next heq =>
          simp only [List.cons.injEq] at heq
          exact absurd heq.1 hdot
        · next heq =>
          simp only [List.cons.injEq] at heq
          rw [heq.1]; exact hd
        · next heq => simp at heq
      rw [hexBody_of_not_digit c t hc]
      simp only [Option.bind]
      exact strtodDecimal_of_not_digit neg c t hc hdot

theorem strtodDecimal_of_digit (neg : Bool) (c : Char) (t : List Char)
    (h : isdigit c = true) : (strtodDecimal neg (c :: t)).isSome = true := by
  have h1 : (c :: t).takeWhile isdigit ≠ [] := by simp [List.takeWhile, h]
  unfold strtodDecimal
  simp only
  rw [if_neg (by simp [h1])]
  rfl

theorem strtodDecimal_of_dot_digit (neg : Bool) (c : Char) (t : List Char)
    (h : isdigit c = true) : (strtodDecimal neg ('.' :: c :: t)).isSome = true := by
  have hd : isdigit '.' = false := by decide
  have h1 : ('.' :: c :: t).dropWhile isdigit = '.' :: c :: t := by
    simp [List.dropWhile, hd]
  have h2 : (fractionPart isdigit ('.' :: c :: t)).1 ≠ [] := by
    simp [fractionPart, List.takeWhile, h]
  unfold strtodDecimal
  simp only [h1]
  rw [if_neg (by simp [h2])]
  rfl

/-- The test `hasNumericPrefix` is exact: where it holds, `strtod` does find a number. -/
theorem strtodMagnitude_isSome (tok : List Char) (h : hasNumericPrefix tok = true) :
    (strtodMagnitude (takeSign (tok.dropWhile isspace)).1
      (takeSign (tok.dropWhile isspace)).2).isSome = true := by
  unfold hasNumericPrefix at h
  simp only [Bool.or_eq_true] at h
  unfold strtodMagnitude
  rcases h with (h | h) | h
  · simp [h]
  · by_cases hi : startsInf (takeSign (tok.dropWhile isspace)).2 = true
    · simp [hi]
    · simp [hi, h]
  · by_cases hi : startsInf (takeSign (tok.dropWhile isspace)).2 = true
    · simp [hi]
    · by_cases hn : startsNan (takeSign (tok.dropWhile isspace)).2 = true
      · simp [hi, hn]
      · simp only [hi, hn, if_false]
        have hdec : (strtodDecimal (takeSign (tok.dropWhile isspace)).1
            (takeSign (tok.dropWhile isspace)).2).isSome = true := by
          generalize (takeSign (tok.dropWhile isspace)).2 = r at h
          generalize (takeSign (tok.dropWhile isspace)).1 = neg
          unfold startsDigits at h
          split at h
          · exact strtodDecimal_of_dot_digit neg _ _ h
          · exact strtodDecimal_of_digit neg _ _ h
          · exact absurd h (by decide)
        cases hh : (hexBody (takeSign (tok.dropWhile isspace)).2).bind
            (strtodHex (takeSign (tok.dropWhile isspace)).1) with
        | some v => rfl
        | none => exact hdec

/-- A token in which `strtod` finds no number converts to `0.0`. -/
theorem atof_eq_zero (tok : List Char) (h : hasNumericPrefix tok = false) :
    atof tok = Dbl.zero := by
  unfold hasNumericPrefix at h
  simp only [Bool.or_eq_false_iff] at h
  unfold atof
  simp only
  rw [strtodMagnitude_eq_none _ _ h.1.1 h.1.2 h.2]

/-! ## Six to nine tokens -/

/-- C2, as the claim states it, fails for payloads the decoder does not read in
full.  Of the 326-byte payload `0.5,0.1,-0.2,0.0,0.0,1000...0,0.8` (seven non-empty
fields, the sixth being `10^300`) `recvfrom` stores 255 bytes: gear becomes `10^233`
instead of the value `10^300` of the sixth field, and mixture becomes `0.0` instead
of the value `0.8` of the seventh.  The 321-byte payload
`0.5,0.1,-0.2,0.0,000...0,1.0` has six fields and is rejected: the controls stay as
they were and nothing is written.  Of the seven fields of the payload
`0.5,0.1,-0.2,0.0,0.0,1.0<NUL>,0.8` only six are read: mixture becomes `0.0`, not
`0.8`. -/
theorem long_payload_is_not_read_in_full :
    (longSevenDatagram.payload.length = 326 ∧
      (List.splitOn ',' longSevenDatagram.payload).length = 7 ∧
      (∀ f ∈ List.splitOn ',' longSevenDatagram.payload, f ≠ []) ∧
      (receive_controls sampleBridge (some longSevenDatagram)).2.controls.gear =
        roundDecimal false 1 233 ∧
      atof ((List.splitOn ',' longSevenDatagram.payload).getD 5 []) =
        roundDecimal false 1 300 ∧
      (receive_controls sampleBridge (some longSevenDatagram)).2.controls.gear ≠
        atof ((List.splitOn ',' longSevenDatagram.payload).getD 5 []) ∧
      (receive_controls sampleBridge (some longSevenDatagram)).2.controls.mix = Dbl.zero ∧
      atof ((List.splitOn ',' longSevenDatagram.payload).getD 6 []) = Dbl.lit 8 10 ∧
      (receive_controls sampleBridge (some longSevenDatagram)).2.controls.mix ≠
        atof ((List.splitOn ',' longSevenDatagram.payload).getD 6 [])) ∧
    (longSixDatagram.payload.length = 321 ∧
      (List.splitOn ',' longSixDatagram.payload).length = 6 ∧
      (∀ f ∈ List.splitOn ',' longSixDatagram.payload, f ≠ []) ∧
      (receive_controls sampleBridge (some longSixDatagram)).2.controls =
        sampleBridge.controls ∧
      (receive_controls sampleBridge (some longSixDatagram)).2.controls.throttle ≠
        atof ((List.splitOn ',' longSixDatagram.payload).getD 0 []) ∧
      (receive_controls sampleBridge (some longSixDatagram)).2.trace = []) ∧
    ((List.splitOn ',' nulSevenDatagram.payload).length = 7 ∧
      (receive_controls sampleBridge (some nulSevenDatagram)).2.controls.mix = Dbl.zero ∧
      atof ((List.splitOn ',' nulSevenDatagram.payload).getD 6 []) = Dbl.lit 8 10 ∧
      (receive_controls sampleBridge (some nulSevenDatagram)).2.controls.mix ≠
        atof ((List.splitOn ',' nulSevenDatagram.payload).getD 6 [])) := by
  decide!

/-- C2, amended: the tokens are the ones the decoder reads, the non-empty
comma-separated pieces of the received text, which is the first 255 bytes of the
payload up to its first NUL byte (for a payload of at most 255 bytes without NUL
byte and without empty field these are its comma-separated fields).  When there are
`n` of them, `6 ≤ n ≤ 9`, then for any prior state, after `receive_controls` the
channel at each position below `n` is the parsed value (`atof`) of the token at that
position, every optional channel at a position from `n` on is `0.0` whatever it was
before, and the message is accepted (the ten property writes are made).  In
particular `0.5,0.1,-0.2,0.0,0.0,1.0` yields throttle 0.5, elevator 0.1,
aileron -0.2, rudder 0.0, flaps 0.0, gear 1.0, and 0.0 for mixture and the three
trims. -/
theorem receive_controls_six_to_nine_tokens (b : Bridge) (d : Datagram)
    (h6 : 6 ≤ (tokens (cString (received d.payload))).length)
    (h9 : (tokens (cString (received d.payload))).length ≤ 9) :
    (∀ k, k < (tokens (cString (received d.payload))).length →
      (receive_controls b (some d)).2.controls.channel k =
        atof ((tokens (cString (received d.payload))).getD k [])) ∧
    (∀ k, (tokens (cString (received d.payload))).length ≤ k → k < 10 →
      (receive_controls b (some d)).2.controls.channel k = Dbl.zero) ∧
    (receive_controls b (some d)).2.trace =
      b.trace ++ controlWrites (receive_controls b (some d)).2.controls ∧
    (receive_controls b
        (some { payload := "0.5,0.1,-0.2,0.0,0.0,1.0".toList, sender := d.sender })).2.controls =
      { throttle := Dbl.lit 5 10, elevator := Dbl.lit 1 10, aileron := (Dbl.lit 2 10).neg,
        rudder := Dbl.zero, flaps := Dbl.zero, gear := Dbl.lit 10 10, mix := Dbl.zero,
        aileron_trim := Dbl.zero, elevator_trim := Dbl.zero, rudder_trim := Dbl.zero } ∧
    (d.payload.length ≤ 255 → (∀ c ∈ d.payload, c ≠ NUL) →
      (∀ f ∈ List.splitOn ',' d.payload, f ≠ []) →
      tokens (cString (received d.payload)) = List.splitOn ',' d.payload) := by
  obtain ⟨hc, _, ht⟩ := receive_controls_accept_spec b d h6
  refine ⟨?_, ?_, ht, ?_, tokens_of_plain_payload d.payload⟩
  · intro k hk
    rw [hc k (by omega), tokenVal_of_lt _ _ hk]
  · intro k hk hk10
    rw [hc k hk10, tokenVal_of_le _ _ hk]
  · rw [receive_controls_accept_controls b _ _ (by decide)]
    decide!

theorem receive_controls_six_to_nine_tokens_witness :
    (∀ k, k < (tokens (cString (received sevenTokenDatagram.payload))).length →
      (receive_controls sampleBridge (some sevenTokenDatagram)).2.controls.channel k =
        atof ((tokens (cString (received sevenTokenDatagram.payload))).getD k [])) ∧
    (∀ k, (tokens (cString (received sevenTokenDatagram.payload))).length ≤ k → k < 10 →
      (receive_controls sampleBridge (some sevenTokenDatagram)).2.controls.channel k =
        Dbl.zero) ∧
    (receive_controls sampleBridge (some sevenTokenDatagram)).2.trace =
      sampleBridge.trace ++
        controlWrites (receive_controls sampleBridge (some sevenTokenDatagram)).2.controls ∧
    (receive_controls sampleBridge
        (some { payload := "0.5,0.1,-0.2,0.0,0.0,1.0".toList,
                sender := sevenTokenDatagram.sender })).2.controls =
      { throttle := Dbl.lit 5 10, elevator := Dbl.lit 1 10, aileron := (Dbl.lit 2 10).neg,
        rudder := Dbl.zero, flaps := Dbl.zero, gear := Dbl.lit 10 10, mix := Dbl.zero,
        aileron_trim := Dbl.zero, elevator_trim := Dbl.zero, rudder_trim := Dbl.zero } ∧
    (sevenTokenDatagram.payload.length ≤ 255 → (∀ c ∈ sevenTokenDatagram.payload, c ≠ NUL) →
      (∀ f ∈ List.splitOn ',' sevenTokenDatagram.payload, f ≠ []) →
      tokens (cString (received sevenTokenDatagram.payload)) =
        List.splitOn ',' sevenTokenDatagram.payload) :=
  receive_controls_six_to_nine_tokens sampleBridge sevenTokenDatagram
    (by decide) (by decide)

/-! ## Ten or more tokens -/

/-- C3, as the claim states it, fails for payloads the decoder does not read in
full.  The 256-byte payload `1,2,3,4,5,6,7,8,9,000...07` has ten non-empty fields,
the tenth being the number 7; `recvfrom` stores 255 bytes, the digit `7` is not
among them, and rudder-trim becomes `0.0`, not the parsed value 7 of the tenth
field.  Of the eleven fields of `1,2,3,4,5,6,7,8,9<NUL>,10,11` only nine are read:
rudder-trim becomes `0.0`, not the parsed value 10 of the tenth field. -/
theorem tenth_token_is_not_read_in_full :
    (longTenDatagram.payload.length = 256 ∧
      (List.splitOn ',' longTenDatagram.payload).length = 10 ∧
      (∀ f ∈ List.splitOn ',' longTenDatagram.payload, f ≠ []) ∧
      (receive_controls sampleBridge (some longTenDatagram)).2.controls.rudder_trim =
        Dbl.zero ∧
      atof ((List.splitOn ',' longTenDatagram.payload).getD 9 []) = Dbl.lit 7 1 ∧
      (receive_controls sampleBridge (some longTenDatagram)).2.controls.rudder_trim ≠
        atof ((List.splitOn ',' longTenDatagram.payload).getD 9 [])) ∧
    ((List.splitOn ',' nulElevenDatagram.payload).length = 11 ∧
      (receive_controls sampleBridge (some nulElevenDatagram)).2.controls.rudder_trim =
        Dbl.zero ∧
      atof ((List.splitOn ',' nulElevenDatagram.payload).getD 9 []) = Dbl.lit 10 1 ∧
      (receive_controls sampleBridge (some nulElevenDatagram)).2.controls.rudder_trim ≠
        atof ((List.splitOn ',' nulElevenDatagram.payload).getD 9 [])) := by
  decide!

/-- C3, amended: the tokens are the ones the decoder reads, the non-empty
comma-separated pieces of the received text, which is the first 255 bytes of the
payload up to its first NUL byte (for a payload of at most 255 bytes without NUL
byte and without empty field these are its comma-separated fields).  When there are
ten or more of them, after `receive_controls` the ten channels are the parsed values
(`atof`) of the tokens 0 to 9 in that order, and the call does exactly what it does
for the payload made of the first ten tokens alone: tokens after index 9 have no
effect. -/
theorem receive_controls_ten_or_more_tokens (b : Bridge) (d : Datagram)
    (h10 : 10 ≤ (tokens (cString (received d.payload))).length) :
    (∀ k, k < 10 → (receive_controls b (some d)).2.controls.channel k =
      atof ((tokens (cString (received d.payload))).getD k [])) ∧
    receive_controls b (some
      { payload := List.intercalate [','] ((tokens (cString (received d.payload))).take 10),
        sender := d.sender }) = receive_controls b (some d) ∧
    (d.payload.length ≤ 255 → (∀ c ∈ d.payload, c ≠ NUL) →
      (∀ f ∈ List.splitOn ',' d.payload, f ≠ []) →
      tokens (cString (received d.payload)) = List.splitOn ',' d.payload) := by
  refine ⟨?_, ?_, tokens_of_plain_payload d.payload⟩
  · intro k hk
    rw [(receive_controls_accept_spec b d (by omega)).1 k hk, tokenVal_of_lt _ _ (by omega)]
  · exact receive_controls_congr b d _ rfl (tokens_rebuilt d.payload 10) (by omega)

theorem receive_controls_ten_or_more_tokens_witness :
    (∀ k, k < 10 → (receive_controls sampleBridge (some twelveTokenDatagram)).2.controls.channel k =
      atof ((tokens (cString (received twelveTokenDatagram.payload))).getD k [])) ∧
    receive_controls sampleBridge (some
      { payload := List.intercalate [',']
          ((tokens (cString (received twelveTokenDatagram.payload))).take 10),
        sender := twelveTokenDatagram.sender }) =
      receive_controls sampleBridge (some twelveTokenDatagram) ∧
    (twelveTokenDatagram.payload.length ≤ 255 → (∀ c ∈ twelveTokenDatagram.payload, c ≠ NUL) →
      (∀ f ∈ List.splitOn ',' twelveTokenDatagram.payload, f ≠ []) →
      tokens (cString (received twelveTokenDatagram.payload)) =
        List.splitOn ',' twelveTokenDatagram.payload) :=
  receive_controls_ten_or_more_tokens sampleBridge twelveTokenDatagram (by decide)

/-! ## Tokens that are not numbers -/

/-- C9, as the claim states it, fails.  A token that is not a floating-point number
but starts like one takes the value of that start: `0.5,1abc,-0.2,0.0,0.0,1.0` is
accepted with elevator 1.0, and `0.5,nancy,-0.2,0.0,0.0,1.0` with elevator NaN,
not `0.0`.  And a payload the decoder does not read in full can be rejected: of the
321-byte payload `0.5,abc,-0.2,0.0,000...0,1.0` (six fields) `recvfrom` stores 255
bytes, which hold five tokens; the controls stay as they were and nothing is
written. -/
theorem token_with_numeric_start_is_not_zero :
    ((receive_controls sampleBridge (some numericStartDatagram)).2.trace =
        controlWrites (receive_controls sampleBridge (some numericStartDatagram)).2.controls ∧
      (List.splitOn ',' numericStartDatagram.payload).getD 1 [] = "1abc".toList ∧
      (receive_controls sampleBridge (some numericStartDatagram)).2.controls.elevator =
        Dbl.lit 1 1 ∧
      (receive_controls sampleBridge (some numericStartDatagram)).2.controls.elevator ≠
        Dbl.zero) ∧
    ((receive_controls sampleBridge (some nancyDatagram)).2.trace =
        controlWrites (receive_controls sampleBridge (some nancyDatagram)).2.controls ∧
      (List.splitOn ',' nancyDatagram.payload).getD 1 [] = "nancy".toList ∧
      (receive_controls sampleBridge (some nancyDatagram)).2.controls.elevator =
        Dbl.nan false ∧
      (receive_controls sampleBridge (some nancyDatagram)).2.controls.elevator ≠
        Dbl.zero) ∧
    (longJunkDatagram.payload.length = 321 ∧
      (List.splitOn ',' longJunkDatagram.payload).length = 6 ∧
      (∀ f ∈ List.splitOn ',' longJunkDatagram.payload, f ≠ []) ∧
      (List.splitOn ',' longJunkDatagram.payload).getD 1 [] = "abc".toList ∧
      (receive_controls sampleBridge (some longJunkDatagram)).2.controls =
        sampleBridge.controls ∧
      (receive_controls sampleBridge (some longJunkDatagram)).2.controls.elevator ≠
        Dbl.zero ∧
      (receive_controls sampleBridge (some longJunkDatagram)).2.trace = []) := by
  decide!

/-- C9, amended: the tokens are the ones the decoder reads, the non-empty
comma-separated pieces of the received text, which is the first 255 bytes of the
payload up to its first NUL byte (for a payload of at most 255 bytes without NUL
byte and without empty field these are its comma-separated fields).  When there are
at least six of them, no token causes rejection, whatever its text: the message is
accepted (the ten property writes are made) and every channel that has a token takes
the value `atof` gives for its own token.  That value is `0.0` for a token at whose
front `strtod` finds no number (after white space and an optional sign: no digit, no
point followed by a digit, no `inf`, no `nan`), as for `abc`; for any other token it
is the value of the number found at the front, as 1.0 for `1abc` and NaN for
`nancy`. -/
theorem receive_controls_non_numeric_token (b : Bridge) (d : Datagram)
    (h6 : 6 ≤ (tokens (cString (received d.payload))).length) :
    (receive_controls b (some d)).2.trace =
      b.trace ++ controlWrites (receive_controls b (some d)).2.controls ∧
    (∀ j, j < 10 → j < (tokens (cString (received d.payload))).length →
      (receive_controls b (some d)).2.controls.channel j =
        atof ((tokens (cString (received d.payload))).getD j [])) ∧
    (∀ k, k < 10 → k < (tokens (cString (received d.payload))).length →
      hasNumericPrefix ((tokens (cString (received d.payload))).getD k []) = false →
      (receive_controls b (some d)).2.controls.channel k = Dbl.zero) ∧
    (∀ k, k < 10 → k < (tokens (cString (received d.payload))).length →
      hasNumericPrefix ((tokens (cString (received d.payload))).getD k []) = true →
      strtodMagnitude
          (takeSign (((tokens (cString (received d.payload))).getD k []).dropWhile isspace)).1
          (takeSign (((tokens (cString (received d.payload))).getD k []).dropWhile isspace)).2 =
        some ((receive_controls b (some d)).2.controls.channel k)) ∧
    atof "abc".toList = Dbl.zero ∧
    atof "1abc".toList = Dbl.lit 1 1 ∧
    atof "nancy".toList = Dbl.nan false ∧
    (d.payload.length ≤ 255 → (∀ c ∈ d.payload, c ≠ NUL) →
      (∀ f ∈ List.splitOn ',' d.payload, f ≠ []) →
      tokens (cString (received d.payload)) = List.splitOn ',' d.payload) := by
  obtain ⟨hc, _, ht⟩ := receive_controls_accept_spec b d h6
  refine ⟨ht, ?_, ?_, ?_, by decide!, by decide!, by decide!,
    tokens_of_plain_payload d.payload⟩
  · intro j hj hjn
    rw [hc j hj, tokenVal_of_lt _ _ hjn]
  · intro k hk hkn hbad
    rw [hc k hk, tokenVal_of_lt _ _ hkn, atof_eq_zero _ hbad]
  · intro k hk hkn hnum
    rw [hc k hk, tokenVal_of_lt _ _ hkn]
    have h := strtodMagnitude_isSome _ hnum
    unfold atof
    simp only
    cases hv : strtodMagnitude
        (takeSign (((tokens (cString (received d.payload))).getD k []).dropWhile isspace)).1
        (takeSign (((tokens (cString (received d.payload))).getD k []).dropWhile isspace)).2 with
    | none => rw [hv] at h; exact absurd h (by decide)
    | some v => rfl

theorem receive_controls_non_numeric_token_witness :
    (receive_controls sampleBridge (some junkTokenDatagram)).2.trace =
      sampleBridge.trace ++
        controlWrites (receive_controls sampleBridge (some junkTokenDatagram)).2.controls ∧
    (∀ j, j < 10 → j < (tokens (cString (received junkTokenDatagram.payload))).length →
      (receive_controls sampleBridge (some junkTokenDatagram)).2.controls.channel j =
        atof ((tokens (cString (received junkTokenDatagram.payload))).getD j [])) ∧
    (∀ k, k < 10 → k < (tokens (cString (received junkTokenDatagram.payload))).length →
      hasNumericPrefix ((tokens (cString (received junkTokenDatagram.payload))).getD k []) =
        false →
      (receive_controls sampleBridge (some junkTokenDatagram)).2.controls.channel k =
        Dbl.zero) ∧
    (∀ k, k < 10 → k < (tokens (cString (received junkTokenDatagram.payload))).length →
      hasNumericPrefix ((tokens (cString (received junkTokenDatagram.payload))).getD k []) =
        true →
      strtodMagnitude
          (takeSign (((tokens (cString (received junkTokenDatagram.payload))).getD k []).dropWhile
            isspace)).1
          (takeSign (((tokens (cString (received junkTokenDatagram.payload))).getD k []).dropWhile
            isspace)).2 =
        some ((receive_controls sampleBridge (some junkTokenDatagram)).2.controls.channel k)) ∧
    atof "abc".toList = Dbl.zero ∧
    atof "1abc".toList = Dbl.lit 1 1 ∧
    atof "nancy".toList = Dbl.nan false ∧
    (junkTokenDatagram.payload.length ≤ 255 → (∀ c ∈ junkTokenDatagram.payload, c ≠ NUL) →
      (∀ f ∈ List.splitOn ',' junkTokenDatagram.payload, f ≠ []) →
      tokens (cString (received junkTokenDatagram.payload)) =
        List.splitOn ',' junkTokenDatagram.payload) :=
  receive_controls_non_numeric_token sampleBridge junkTokenDatagram (by decide)

/-! ## The loop of `run` -/

theorem run_nil (engine : Fdm → Fdm) (b : Bridge) : run engine b [] = b := rfl

theorem run_cons (engine : Fdm → Fdm) (b : Bridge) (rx : Option Datagram)
    (rxs : List (Option Datagram)) :
    run engine b (rx :: rxs) = run engine (tick engine b rx) rxs := rfl

theorem run_concat (engine : Fdm → Fdm) (b : Bridge) (rxs : List (Option Datagram))
    (rx : Option Datagram) :
    run engine b (rxs ++ [rx]) = tick engine (run engine b rxs) rx := by
  simp [run, List.foldl_append]

theorem propertyWrites_append (t u : List Effect) :
    propertyWrites (t ++ u) = propertyWrites t ++ propertyWrites u := by
  simp [propertyWrites]

theorem destinations_append (t u : List Effect) :
    destinations (t ++ u) = destinations t ++ destinations u := by
  induction t with
  | nil => rfl
  | cons e t ih => cases e <;> simp [destinations, ih]

/-- A tick that receives nothing keeps the controls and the reply address, lets the
engine step, and adds one engine step, one datagram and one sleep to the trace. -/
theorem tick_none (engine : Fdm → Fdm) (b : Bridge) :
    (tick engine b none).controls = b.controls ∧
    (tick engine b none).client_addr = b.client_addr ∧
    (tick engine b none).fdm = engine b.fdm ∧
    (tick engine b none).trace = b.trace ++
      [Effect.run, Effect.sendto (state_payload (engine b.fdm)) b.client_addr,
       Effect.usleep 16666] := by
  simp [tick, receive_controls, send_state]

theorem tick_some (engine : Fdm → Fdm) (b : Bridge) (d : Datagram) :
    (tick engine b (some d)).controls = (receive_controls b (some d)).2.controls ∧
    (tick engine b (some d)).client_addr = d.sender ∧
    (tick engine b (some d)).fdm = engine (receive_controls b (some d)).2.fdm ∧
    (tick engine b (some d)).trace = (receive_controls b (some d)).2.trace ++
      [Effect.run,
       Effect.sendto (state_payload (engine (receive_controls b (some d)).2.fdm)) d.sender,
       Effect.usleep 16666] := by
  have hc : (receive_controls b (some d)).2.client_addr = d.sender := by
    simp only [receive_controls]
    split
    · split <;> rfl
    · rfl
  simp [tick, send_state, hc]

/-- Ticks that receive nothing, from a state whose control properties agree with
the held controls: the agreement, the controls and the property writes all stay. -/
theorem run_idle (engine : Fdm → Fdm)
    (hengine : ∀ fdm k, k < 10 → engine fdm (controlProperty k) = fdm (controlProperty k))
    (n : Nat) (b : Bridge) :
    (run engine b (List.replicate n none)).controls = b.controls ∧
    (∀ k, k < 10 → (run engine b (List.replicate n none)).fdm (controlProperty k) =
      b.fdm (controlProperty k)) ∧
    propertyWrites (run engine b (List.replicate n none)).trace = propertyWrites b.trace := by
  induction n generalizing b with
  | zero => exact ⟨rfl, fun _ _ => rfl, rfl⟩
  | succ n ih =>
    rw [List.replicate_succ, run_cons]
    obtain ⟨h1, h2, h3⟩ := ih (tick engine b none)
    obtain ⟨t1, _, t3, t4⟩ := tick_none engine b
    refine ⟨h1.trans t1, ?_, ?_⟩
    · intro k hk
      rw [h2 k hk, t3, hengine _ k hk]
    · rw [h3, t4, propertyWrites_append]
      simp [propertyWrites]

/-- C7: after a tick in which a message was applied (at least six tokens), `n`
further ticks in which `receive_controls` finds no datagram leave, for every `n`
(so at every tick of a run of `N` such ticks), the held `ControlInputs` and the ten
control properties equal to the applied values, and add no property write to the
trace.  The engine step is assumed not to change the ten control properties, which
are its inputs. -/
theorem run_idle_keeps_applied_controls (engine : Fdm → Fdm) (b : Bridge) (d : Datagram)
    (n : Nat)
    (hengine : ∀ fdm k, k < 10 → engine fdm (controlProperty k) = fdm (controlProperty k))
    (h6 : 6 ≤ (tokens (cString (received d.payload))).length) :
    (run engine (tick engine b (some d)) (List.replicate n none)).controls =
      (receive_controls b (some d)).2.controls ∧
    (∀ k, k < 10 →
      (run engine (tick engine b (some d)) (List.replicate n none)).controls.channel k =
        tokenVal (tokens (cString (received d.payload))) k ∧
      (run engine (tick engine b (some d)) (List.replicate n none)).fdm (controlProperty k) =
        tokenVal (tokens (cString (received d.payload))) k) ∧
    propertyWrites (run engine (tick engine b (some d)) (List.replicate n none)).trace =
      propertyWrites (tick engine b (some d)).trace := by
  obtain ⟨h1, h2, h3⟩ := run_idle engine hengine n (tick engine b (some d))
  obtain ⟨t1, _, t3, _⟩ := tick_some engine b d
  obtain ⟨a1, a2, _⟩ := receive_controls_accept_spec b d h6
  refine ⟨h1.trans t1, ?_, h3⟩
  intro k hk
  refine ⟨?_, ?_⟩
  · rw [h1, t1, a1 k hk]
  · rw [h2 k hk, t3, hengine _ k hk, a2 k hk]

theorem clockEngine_keeps_controls (fdm : Fdm) (k : Nat) (hk : k < 10) :
    clockEngine fdm (controlProperty k) = fdm (controlProperty k) := by
  interval_cases k <;> simp [clockEngine, controlProperty]

theorem run_idle_keeps_applied_controls_witness :
    (run clockEngine (tick clockEngine sampleBridge (some sevenTokenDatagram))
        (List.replicate 3 none)).controls =
      (receive_controls sampleBridge (some sevenTokenDatagram)).2.controls ∧
    (∀ k, k < 10 →
      (run clockEngine (tick clockEngine sampleBridge (some sevenTokenDatagram))
        (List.replicate 3 none)).controls.channel k =
        tokenVal (tokens (cString (received sevenTokenDatagram.payload))) k ∧
      (run clockEngine (tick clockEngine sampleBridge (some sevenTokenDatagram))
        (List.replicate 3 none)).fdm (controlProperty k) =
        tokenVal (tokens (cString (received sevenTokenDatagram.payload))) k) ∧
    propertyWrites (run clockEngine (tick clockEngine sampleBridge (some sevenTokenDatagram))
        (List.replicate 3 none)).trace =
      propertyWrites (tick clockEngine sampleBridge (some sevenTokenDatagram)).trace :=
  run_idle_keeps_applied_controls clockEngine sampleBridge sevenTokenDatagram 3
    clockEngine_keeps_controls (by decide)

theorem lastSender_concat (rxs : List (Option Datagram)) (rx : Option Datagram) :
    lastSender (rxs ++ [rx]) =
      match rx with
      | some d => some d.sender
      | none => lastSender rxs := by
  simp [lastSender, List.foldl_append]

theorem tick_client_addr (engine : Fdm → Fdm) (b : Bridge) (rx : Option Datagram) :
    (tick engine b rx).client_addr =
      match rx with
      | some d => d.sender
      | none => b.client_addr := by
  cases rx with
  | none => exact (tick_none engine b).2.1
  | some d => exact (tick_some engine b d).2.1

theorem receive_controls_destinations (b : Bridge) (rx : Option Datagram) :
    destinations (receive_controls b rx).2.trace = destinations b.trace := by
  cases rx with
  | none => rfl
  | some d =>
    by_cases h : 6 ≤ (tokens (cString (received d.payload))).length
    · rw [(receive_controls_accept_spec b d h).2.2, destinations_append]
      simp [controlWrites, destinations]
    · rw [receive_controls_reject b d (by omega)]

theorem tick_destinations (engine : Fdm → Fdm) (b : Bridge) (rx : Option Datagram) :
    destinations (tick engine b rx).trace =
      destinations b.trace ++ [(tick engine b rx).client_addr] := by
  cases rx with
  | none =>
    obtain ⟨_, t2, _, t4⟩ := tick_none engine b
    rw [t4, t2, destinations_append]
    simp [destinations]
  | some d =>
    obtain ⟨_, t2, _, t4⟩ := tick_some engine b d
    rw [t4, t2, destinations_append, receive_controls_destinations]
    simp [destinations]

theorem run_client_addr (engine : Fdm → Fdm) (b : Bridge) (rxs : List (Option Datagram)) :
    (run engine b rxs).client_addr = (lastSender rxs).getD b.client_addr := by
  induction rxs using List.reverseRecOn with
  | nil => rfl
  | append_singleton rxs rx ih =>
    rw [run_concat, tick_client_addr, lastSender_concat]
    cases rx with
    | none => simpa using ih
    | some d => simp

/-- C10: in every run of ticks, each `send_state` transmits to the sender of the
most recent datagram received up to and including that tick (to the initial
`client_addr` as long as none has been received): the reply target is replaced at
every receipt, whatever the payload and whether or not the decoder accepts it, and
is left alone by a tick that receives nothing. -/
theorem send_state_targets_last_sender (engine : Fdm → Fdm) (b : Bridge)
    (rxs : List (Option Datagram)) :
    destinations (run engine b rxs).trace =
      destinations b.trace ++
        (List.range rxs.length).map
          (fun i => (lastSender (rxs.take (i + 1))).getD b.client_addr) ∧
    (run engine b rxs).client_addr = (lastSender rxs).getD b.client_addr := by
  refine ⟨?_, run_client_addr engine b rxs⟩
  induction rxs using List.reverseRecOn with
  | nil => simp [run_nil]
  | append_singleton rxs rx ih =>
    rw [run_concat, tick_destinations, ih, ← run_concat, run_client_addr]
    rw [List.length_append, List.length_singleton, List.range_succ, List.map_append,
      List.append_assoc]
    congr 1
    congr 1
    · apply List.map_congr_left
      intro i hi
      have hi' : i + 1 ≤ rxs.length := by
        have := List.mem_range.mp hi
        omega
      rw [List.take_append_of_le_length hi']
    · have ht : List.take (rxs.length + 1) (rxs ++ [rx]) = rxs ++ [rx] :=
        List.take_of_length_le (by simp)
      simp [ht]

/-! ## The conversion `%.6f` -/

theorem isdigit_digitChar (d : Nat) (h : d < 10) : isdigit (digitChar d) = true := by
  interval_cases d <;> decide

theorem xdigitVal_digitChar (d : Nat) (h : d < 10) : xdigitVal (digitChar d) = d := by
  interval_cases d <;> decide

theorem digitsValue_append_singleton (base : Nat) (ds : List Char) (c : Char) :
    digitsValue base (ds ++ [c]) = base * digitsValue base ds + xdigitVal c := by
  simp [digitsValue, List.foldl_append]

/-- The digits printed for `n`: at least one, all decimal digits, with value `n`. -/
theorem natDigitsAux_spec (fuel : Nat) : ∀ (n : Nat) (acc : List Char), n < fuel →
    ∃ ds, natDigitsAux fuel n acc = ds ++ acc ∧ ds ≠ [] ∧
      (∀ c ∈ ds, isdigit c = true) ∧ digitsValue 10 ds = n := by
  induction fuel with
  | zero => intro n acc h; omega
  | succ fuel ih =>
    intro n acc h
    by_cases h10 : n < 10
    · refine ⟨[digitChar n], ?_, by simp, ?_, ?_⟩
      · simp [natDigitsAux, h10]
      · intro c hc
        rw [List.mem_singleton.mp hc]
        exact isdigit_digitChar n h10
      · simp [digitsValue, xdigitVal_digitChar n h10]
    · have hlt : n / 10 < fuel := by omega
      obtain ⟨ds, h1, h2, h3, h4⟩ := ih (n / 10) (digitChar (n % 10) :: acc) hlt
      refine ⟨ds ++ [digitChar (n % 10)], ?_, by simp, ?_, ?_⟩
      · simp [natDigitsAux, h10, h1]
      · intro c hc
        rcases List.mem_append.mp hc with hc | hc
        · exact h3 c hc
        · rw [List.mem_singleton.mp hc]
          exact isdigit_digitChar _ (Nat.mod_lt _ (by decide))
      · rw [digitsValue_append_singleton, h4, xdigitVal_digitChar _ (Nat.mod_lt _ (by decide))]
        omega

theorem natDigits_spec (n : Nat) :
    natDigits n ≠ [] ∧ (∀ c ∈ natDigits n, isdigit c = true) ∧
      digitsValue 10 (natDigits n) = n := by
  obtain ⟨ds, h1, h2, h3, h4⟩ := natDigitsAux_spec (n + 1) n [] (by omega)
  have : natDigits n = ds := by simpa [natDigits] using h1
  rw [this]
  exact ⟨h2, h3, h4⟩

theorem fracDigits6_spec (k : Nat) (hk : k < 10 ^ 6) :
    (fracDigits6 k).length = 6 ∧ (∀ c ∈ fracDigits6 k, isdigit c = true) ∧
      digitsValue 10 (fracDigits6 k) = k := by
  refine ⟨rfl, ?_, ?_⟩
  · intro c hc
    simp only [fracDigits6, List.mem_cons, List.mem_singleton, List.not_mem_nil, or_false] at hc
    rcases hc with h | h | h | h | h | h <;> rw [h] <;>
      exact isdigit_digitChar _ (Nat.mod_lt _ (by decide))
  · simp only [fracDigits6, digitsValue, List.foldl_cons, List.foldl_nil]
    rw [xdigitVal_digitChar _ (Nat.mod_lt _ (by decide)),
      xdigitVal_digitChar _ (Nat.mod_lt _ (by decide)),
      xdigitVal_digitChar _ (Nat.mod_lt _ (by decide)),
      xdigitVal_digitChar _ (Nat.mod_lt _ (by decide)),
      xdigitVal_digitChar _ (Nat.mod_lt _ (by decide)),
      xdigitVal_digitChar _ (Nat.mod_lt _ (by decide))]
    norm_num at hk
    omega

theorem takeWhile_digits_append (ds t : List Char) (h : ∀ c ∈ ds, isdigit c = true) :
    (ds ++ '.' :: t).takeWhile isdigit = ds ∧ (ds ++ '.' :: t).dropWhile isdigit = '.' :: t := by
  induction ds with
  | nil =>
    have hd : isdigit '.' = false := by decide
    simp [List.takeWhile, List.dropWhile, hd]
  | cons d ds ih =>
    have hd := h d (List.mem_cons_self _ _)
    have := ih (fun c hc => h c (List.mem_cons_of_mem _ hc))
    simp [List.takeWhile, List.dropWhile, hd, this.1, this.2]

theorem takeMinus_sign_digits (s : Bool) (ds t : List Char) (hne : ds ≠ [])
    (h : ∀ c ∈ ds, isdigit c = true) :
    takeMinus (signChars s ++ ds ++ t) = (s, ds ++ t) := by
  cases s with
  | true => simp [signChars, takeMinus]
  | false =>
    cases ds with
    | nil => exact absurd rfl hne
    | cons d ds =>
      have hd := h d (List.mem_cons_self _ _)
      have hm : d ≠ '-' := by
        intro hm; rw [hm] at hd; exact absurd hd (by decide)
      simp only [signChars, Bool.false_eq_true, if_false, List.nil_append, List.cons_append]
      unfold takeMinus
      split
      · next heq =>
        simp only [List.cons.injEq] at heq
        exact absurd heq.1 hm
      · rfl

/-- A finite value prints as sign, integer digits, point and six fraction digits. -/
theorem splitDecimal_fmt6 (s : Bool) (m : Nat) (e : Int) :
    splitDecimal (fmt6 (.fin s m e)) =
      some (s, natDigits (scaled6 m e / 10 ^ 6), fracDigits6 (scaled6 m e % 10 ^ 6)) := by
  obtain ⟨n1, n2, _⟩ := natDigits_spec (scaled6 m e / 10 ^ 6)
  obtain ⟨f1, f2, _⟩ := fracDigits6_spec (scaled6 m e % 10 ^ 6) (Nat.mod_lt _ (by norm_num))
  have ht := takeMinus_sign_digits s _ ('.' :: fracDigits6 (scaled6 m e % 10 ^ 6)) n1 n2
  have hw := takeWhile_digits_append _ (fracDigits6 (scaled6 m e % 10 ^ 6)) n2
  have hfne : fracDigits6 (scaled6 m e % 10 ^ 6) ≠ [] := by
    intro h0; rw [h0] at f1; simp at f1
  have hall : (fracDigits6 (scaled6 m e % 10 ^ 6)).all isdigit = true :=
    List.all_eq_true.mpr f2
  unfold splitDecimal
  simp only [fmt6, ht, hw.1, hw.2]
  rw [if_pos ⟨n1, hfne, hall⟩]

/-- A finite value prints with exactly six digits after the point. -/
theorem isFixed6_fmt6 (x : Dbl) (h : x.isFinite = true) : isFixed6 (fmt6 x) = true := by
  cases x with
  | fin s m e =>
    have f1 := (fracDigits6_spec (scaled6 m e % 10 ^ 6) (Nat.mod_lt _ (by norm_num))).1
    simp only [isFixed6, splitDecimal_fmt6, f1, decide_True]
  | inf s => simp [Dbl.isFinite] at h
  | nan s => simp [Dbl.isFinite] at h

theorem comma_not_mem_fmt6 (x : Dbl) : ',' ∉ fmt6 x := by
  have hc : isdigit ',' = false := by decide
  cases x with
  | fin s m e =>
    obtain ⟨_, n2, _⟩ := natDigits_spec (scaled6 m e / 10 ^ 6)
    obtain ⟨_, f2, _⟩ := fracDigits6_spec (scaled6 m e % 10 ^ 6) (Nat.mod_lt _ (by norm_num))
    intro hmem
    simp only [fmt6, List.mem_append, List.mem_cons] at hmem
    rcases hmem with (h | h) | h | h
    · cases s <;> simp [signChars] at h
    · rw [n2 _ h] at hc; exact absurd hc (by decide)
    · exact absurd h (by decide)
    · rw [f2 _ h] at hc; exact absurd hc (by decide)
  | inf s => cases s <;> simp [fmt6, signChars]
  | nan s => cases s <;> simp [fmt6, signChars]

theorem divRoundEven_cases (num den : Nat) :
    (divRoundEven num den = num / den ∧ 2 * (num % den) ≤ den) ∨
    (divRoundEven num den = num / den + 1 ∧ den ≤ 2 * (num % den)) := by
  unfold divRoundEven
  simp only
  split
  · left; exact ⟨rfl, by omega⟩
  · split
    · right; exact ⟨rfl, by omega⟩
    · split
      · left; exact ⟨rfl, by omega⟩
      · right; exact ⟨rfl, by omega⟩

/-- Rounding a quotient to the nearest integer moves it by at most one half. -/
theorem divRoundEven_spec (num den : Nat) (hden : 0 < den) :
    |(divRoundEven num den : ℚ) - (num : ℚ) / (den : ℚ)| ≤ 1 / 2 := by
  have hd : (0 : ℚ) < (den : ℚ) := by exact_mod_cast hden
  have hsplit : (num : ℚ) = (den : ℚ) * ((num / den : Nat) : ℚ) + ((num % den : Nat) : ℚ) := by
    exact_mod_cast (Nat.div_add_mod num den).symm
  have hr : ((num % den : Nat) : ℚ) < (den : ℚ) := by
    exact_mod_cast Nat.mod_lt num hden
  have hr0 : (0 : ℚ) ≤ ((num % den : Nat) : ℚ) := by positivity
  have hq : (num : ℚ) / (den : ℚ) =
      ((num / den : Nat) : ℚ) + ((num % den : Nat) : ℚ) / (den : ℚ) := by
    have h3 : ((num / den : Nat) : ℚ) + ((num % den : Nat) : ℚ) / (den : ℚ) =
        ((den : ℚ) * ((num / den : Nat) : ℚ) + ((num % den : Nat) : ℚ)) / (den : ℚ) := by
      field_simp
      ring
    rw [h3, ← hsplit]
  rcases divRoundEven_cases num den with ⟨h1, h2⟩ | ⟨h1, h2⟩
  · rw [h1, hq]
    have h2' : 2 * ((num % den : Nat) : ℚ) ≤ (den : ℚ) := by exact_mod_cast h2
    have : ((num % den : Nat) : ℚ) / (den : ℚ) ≤ 1 / 2 := by
      rw [div_le_iff₀ hd]; linarith
    have h0 : 0 ≤ ((num % den : Nat) : ℚ) / (den : ℚ) := div_nonneg hr0 hd.le
    rw [abs_le]
    constructor <;> linarith
  · rw [h1, hq]
    have h2' : (den : ℚ) ≤ 2 * ((num % den : Nat) : ℚ) := by exact_mod_cast h2
    have : 1 / 2 ≤ ((num % den : Nat) : ℚ) / (den : ℚ) := by
      rw [le_div_iff₀ hd]; linarith
    have h1' : ((num % den : Nat) : ℚ) / (den : ℚ) < 1 := by
      rw [div_lt_one hd]; exact hr
    rw [abs_le]
    push_cast
    constructor <;> linarith

/-- The integer printed by `%.6f` is within one half of `|x| * 10^6`. -/
theorem scaled6_spec (m : Nat) (e : Int) :
    |(scaled6 m e : ℚ) - (m : ℚ) * (2 : ℚ) ^ e * 10 ^ 6| ≤ 1 / 2 := by
  unfold scaled6
  split
  · next h =>
    have he : e = (e.toNat : ℤ) := (Int.toNat_of_nonneg h).symm
    have : (2 : ℚ) ^ e = (2 : ℚ) ^ e.toNat := by
      conv_lhs => rw [he]
      exact zpow_natCast 2 e.toNat
    rw [this]
    push_cast
    norm_num
  · next h =>
    have hpos : 0 < 2 ^ (-e).toNat := Nat.pos_pow_of_pos _ (by decide)
    have h1 := divRoundEven_spec (m * 10 ^ 6) (2 ^ (-e).toNat) hpos
    have he : e = -((-e).toNat : ℤ) := by
      have : ((-e).toNat : ℤ) = -e := Int.toNat_of_nonneg (by omega)
      omega
    have : (2 : ℚ) ^ e = 1 / (2 : ℚ) ^ (-e).toNat := by
      conv_lhs => rw [he]
      rw [zpow_neg, zpow_natCast]
      simp
    rw [this]
    push_cast at h1
    have e2 : (m : ℚ) * (1 / (2 : ℚ) ^ (-e).toNat) * 10 ^ 6 =
        (m : ℚ) * 10 ^ 6 / (2 : ℚ) ^ (-e).toNat := by ring
    rw [e2]
    exact h1

theorem decimalValue_fmt6 (s : Bool) (m : Nat) (e : Int) :
    decimalValue (fmt6 (.fin s m e)) =
      some ((if s then -1 else 1) * ((scaled6 m e : ℚ) / 10 ^ 6)) := by
  obtain ⟨_, _, n3⟩ := natDigits_spec (scaled6 m e / 10 ^ 6)
  obtain ⟨f1, _, f3⟩ := fracDigits6_spec (scaled6 m e % 10 ^ 6) (Nat.mod_lt _ (by norm_num))
  simp only [decimalValue, splitDecimal_fmt6, n3, f3, f1]
  congr 2
  have h := Nat.div_add_mod (scaled6 m e) (10 ^ 6)
  have h2 : ((10 ^ 6 * (scaled6 m e / 10 ^ 6) + scaled6 m e % 10 ^ 6 : Nat) : ℚ) =
      (scaled6 m e : ℚ) := by exact_mod_cast h
  push_cast at h2
  rw [← h2]
  field_simp
  norm_num
  ring

/-- The numeral printed for a finite value denotes a number within
`0.0000005` of that value. -/
theorem decimalValue_fmt6_close (x : Dbl) (h : x.isFinite = true) :
    ∃ r, decimalValue (fmt6 x) = some r ∧ |r - x.toRat| ≤ 1 / (2 * 10 ^ 6) := by
  cases x with
  | inf s => simp [Dbl.isFinite] at h
  | nan s => simp [Dbl.isFinite] at h
  | fin s m e =>
    refine ⟨_, decimalValue_fmt6 s m e, ?_⟩
    have hs := scaled6_spec m e
    have key : |(scaled6 m e : ℚ) / 10 ^ 6 - (m : ℚ) * (2 : ℚ) ^ e| ≤ 1 / (2 * 10 ^ 6) := by
      have e1 : (scaled6 m e : ℚ) / 10 ^ 6 - (m : ℚ) * (2 : ℚ) ^ e =
          ((scaled6 m e : ℚ) - (m : ℚ) * (2 : ℚ) ^ e * 10 ^ 6) / 10 ^ 6 := by
        field_simp
        ring
      rw [e1, abs_div, abs_of_pos (by norm_num : (0 : ℚ) < 10 ^ 6)]
      rw [div_le_iff₀ (by norm_num : (0 : ℚ) < 10 ^ 6)]
      calc |(scaled6 m e : ℚ) - (m : ℚ) * (2 : ℚ) ^ e * 10 ^ 6| ≤ 1 / 2 := hs
        _ = 1 / (2 * 10 ^ 6) * 10 ^ 6 := by norm_num
    cases s with
    | false =>
      simpa [Dbl.toRat] using key
    | true =>
      have e2 : (if true = true then (-1 : ℚ) else 1) * ((scaled6 m e : ℚ) / 10 ^ 6) -
          (Dbl.fin true m e).toRat = -((scaled6 m e : ℚ) / 10 ^ 6 - (m : ℚ) * (2 : ℚ) ^ e) := by
        simp [Dbl.toRat]; ring
      rw [e2, abs_neg]
      exact key

/-! ## Accuracy of the binary64 rounding -/

theorem log2Aux_spec (fuel : Nat) : ∀ n : Nat, n ≤ fuel → 1 ≤ n →
    2 ^ log2Aux fuel n ≤ n ∧ n < 2 ^ (log2Aux fuel n + 1) := by
  induction fuel with
  | zero => intro n h1 h2; omega
  | succ fuel ih =>
    intro n h1 h2
    by_cases h : n < 2
    · have : n = 1 := by omega
      subst this
      simp [log2Aux]
    · have h3 := ih (n / 2) (by omega) (by omega)
      simp only [log2Aux, h, if_false]
      have e1 : 2 ^ (log2Aux fuel (n / 2) + 1) = 2 * 2 ^ log2Aux fuel (n / 2) := by ring
      have e2 : 2 ^ (log2Aux fuel (n / 2) + 1 + 1) = 4 * 2 ^ log2Aux fuel (n / 2) := by ring
      rw [e1] at h3
      rw [e1, e2]
      omega

theorem log2_spec (n : Nat) (h : 1 ≤ n) : 2 ^ log2 n ≤ n ∧ n < 2 ^ (log2 n + 1) :=
  log2Aux_spec n n (le_refl n) h

theorem zpow_two_toNat (k : Int) (h : 0 ≤ k) : (2 : ℚ) ^ k = ((2 ^ k.toNat : Nat) : ℚ) := by
  have he : k = (k.toNat : ℤ) := (Int.toNat_of_nonneg h).symm
  conv_lhs => rw [he]
  rw [zpow_natCast]
  push_cast
  rfl

theorem zpow_two_neg_toNat (k : Int) (h : k ≤ 0) :
    (2 : ℚ) ^ k = 1 / ((2 ^ (-k).toNat : Nat) : ℚ) := by
  have he : k = -((-k).toNat : ℤ) := by
    have : ((-k).toNat : ℤ) = -k := Int.toNat_of_nonneg (by omega)
    omega
  conv_lhs => rw [he]
  rw [zpow_neg, zpow_natCast]
  push_cast
  simp

/-- The exponent found for a quotient brackets it between two powers of two. -/
theorem ilog2Ratio_spec (num den : Nat) (hn : 1 ≤ num) (hd : 1 ≤ den) :
    (2 : ℚ) ^ ilog2Ratio num den ≤ (num : ℚ) / (den : ℚ) ∧
    (num : ℚ) / (den : ℚ) < (2 : ℚ) ^ (ilog2Ratio num den + 1) := by
  obtain ⟨a1, a2⟩ := log2_spec num hn
  obtain ⟨b1, b2⟩ := log2_spec den hd
  have hdq : (0 : ℚ) < (den : ℚ) := by exact_mod_cast hd
  have a1q : ((2 : ℚ) ^ (log2 num : ℤ)) ≤ (num : ℚ) := by
    rw [zpow_natCast]; exact_mod_cast a1
  have a2q : (num : ℚ) < (2 : ℚ) ^ ((log2 num : ℤ) + 1) := by
    have : ((log2 num : ℤ) + 1) = ((log2 num + 1 : Nat) : ℤ) := by push_cast; rfl
    rw [this, zpow_natCast]; exact_mod_cast a2
  have b1q : ((2 : ℚ) ^ (log2 den : ℤ)) ≤ (den : ℚ) := by
    rw [zpow_natCast]; exact_mod_cast b1
  have b2q : (den : ℚ) < (2 : ℚ) ^ ((log2 den : ℤ) + 1) := by
    have : ((log2 den : ℤ) + 1) = ((log2 den + 1 : Nat) : ℤ) := by push_cast; rfl
    rw [this, zpow_natCast]; exact_mod_cast b2
  have two_ne : (2 : ℚ) ≠ 0 := by norm_num
  have pw : ∀ k : ℤ, (0 : ℚ) < (2 : ℚ) ^ k := fun k => zpow_pos (by norm_num) k
  -- the quotient lies strictly between 2^(l-1) and 2^(l+1)
  have lo : (2 : ℚ) ^ ((log2 num : ℤ) - (log2 den : ℤ) - 1) < (num : ℚ) / (den : ℚ) := by
    rw [lt_div_iff₀ hdq]
    calc (2 : ℚ) ^ ((log2 num : ℤ) - (log2 den : ℤ) - 1) * (den : ℚ)
        < (2 : ℚ) ^ ((log2 num : ℤ) - (log2 den : ℤ) - 1) * (2 : ℚ) ^ ((log2 den : ℤ) + 1) :=
          mul_lt_mul_of_pos_left b2q (pw _)
      _ = (2 : ℚ) ^ (log2 num : ℤ) := by
          rw [← zpow_add₀ two_ne]; congr 1; ring
      _ ≤ (num : ℚ) := a1q
  have hi : (num : ℚ) / (den : ℚ) < (2 : ℚ) ^ ((log2 num : ℤ) - (log2 den : ℤ) + 1) := by
    rw [div_lt_iff₀ hdq]
    calc (num : ℚ) < (2 : ℚ) ^ ((log2 num : ℤ) + 1) := a2q
      _ = (2 : ℚ) ^ ((log2 num : ℤ) - (log2 den : ℤ) + 1) * (2 : ℚ) ^ (log2 den : ℤ) := by
          rw [← zpow_add₀ two_ne]; congr 1; ring
      _ ≤ (2 : ℚ) ^ ((log2 num : ℤ) - (log2 den : ℤ) + 1) * (den : ℚ) :=
          mul_le_mul_of_nonneg_left b1q (pw _).le
  unfold ilog2Ratio
  simp only
  split
  · next hl =>
    have hz := zpow_two_toNat _ hl
    split
    · next ht =>
      refine ⟨?_, hi⟩
      rw [le_div_iff₀ hdq, hz, mul_comm]
      exact_mod_cast ht
    · next ht =>
      refine ⟨lo.le, ?_⟩
      rw [sub_add_cancel, div_lt_iff₀ hdq, hz, mul_comm]
      have : num < den * 2 ^ ((log2 num : ℤ) - (log2 den : ℤ)).toNat := Nat.lt_of_not_le ht
      exact_mod_cast this
  · next hl =>
    have hz := zpow_two_neg_toNat ((log2 num : ℤ) - (log2 den : ℤ)) (by omega)
    have hp : (0 : ℚ) < ((2 ^ (-((log2 num : ℤ) - (log2 den : ℤ))).toNat : Nat) : ℚ) := by
      positivity
    split
    · next ht =>
      refine ⟨?_, hi⟩
      rw [le_div_iff₀ hdq, hz, div_mul_eq_mul_div, one_mul, div_le_iff₀ hp]
      exact_mod_cast ht
    · next ht =>
      refine ⟨lo.le, ?_⟩
      rw [sub_add_cancel, div_lt_iff₀ hdq, hz, div_mul_eq_mul_div, one_mul, lt_div_iff₀ hp]
      have : num * 2 ^ (-((log2 num : ℤ) - (log2 den : ℤ))).toNat < den := Nat.lt_of_not_le ht
      exact_mod_cast this

/-- The significand chosen for exponent `E` is within half a unit in the last
place of the quotient. -/
theorem significand_close (num den : Nat) (hd : 1 ≤ den) (E : Int) :
    |((if 0 ≤ E then divRoundEven num (den * 2 ^ E.toNat)
        else divRoundEven (num * 2 ^ (-E).toNat) den : Nat) : ℚ) * (2 : ℚ) ^ E -
      (num : ℚ) / (den : ℚ)| ≤ (2 : ℚ) ^ E / 2 := by
  have hdq : (0 : ℚ) < (den : ℚ) := by exact_mod_cast hd
  have pw : (0 : ℚ) < (2 : ℚ) ^ E := zpow_pos (by norm_num) E
  split
  · next h =>
    have hz := zpow_two_toNat E h
    have hpos : 0 < den * 2 ^ E.toNat := Nat.mul_pos hd (Nat.pos_pow_of_pos _ (by decide))
    have hs := divRoundEven_spec num (den * 2 ^ E.toNat) hpos
    have e1 : ((den * 2 ^ E.toNat : Nat) : ℚ) = (den : ℚ) * (2 : ℚ) ^ E := by
      rw [hz]; push_cast; ring
    rw [e1] at hs
    have e2 : (divRoundEven num (den * 2 ^ E.toNat) : ℚ) * (2 : ℚ) ^ E - (num : ℚ) / (den : ℚ) =
        ((divRoundEven num (den * 2 ^ E.toNat) : ℚ) - (num : ℚ) / ((den : ℚ) * (2 : ℚ) ^ E)) *
          (2 : ℚ) ^ E := by
      field_simp
      ring
    rw [e2, abs_mul, abs_of_pos pw]
    calc |(divRoundEven num (den * 2 ^ E.toNat) : ℚ) - (num : ℚ) / ((den : ℚ) * (2 : ℚ) ^ E)| *
          (2 : ℚ) ^ E ≤ 1 / 2 * (2 : ℚ) ^ E := mul_le_mul_of_nonneg_right hs pw.le
      _ = (2 : ℚ) ^ E / 2 := by ring
  · next h =>
    have hz := zpow_two_neg_toNat E (by omega)
    have hp : (0 : ℚ) < ((2 ^ (-E).toNat : Nat) : ℚ) := by positivity
    have hs := divRoundEven_spec (num * 2 ^ (-E).toNat) den hd
    have e2 : (divRoundEven (num * 2 ^ (-E).toNat) den : ℚ) * (2 : ℚ) ^ E -
        (num : ℚ) / (den : ℚ) =
        ((divRoundEven (num * 2 ^ (-E).toNat) den : ℚ) -
          ((num * 2 ^ (-E).toNat : Nat) : ℚ) / (den : ℚ)) * (2 : ℚ) ^ E := by
      rw [hz]
      push_cast
      field_simp
      ring
    rw [e2, abs_mul, abs_of_pos pw]
    calc |(divRoundEven (num * 2 ^ (-E).toNat) den : ℚ) -
          ((num * 2 ^ (-E).toNat : Nat) : ℚ) / (den : ℚ)| * (2 : ℚ) ^ E
        ≤ 1 / 2 * (2 : ℚ) ^ E := mul_le_mul_of_nonneg_right hs pw.le
      _ = (2 : ℚ) ^ E / 2 := by ring

theorem renormalise_value (neg : Bool) (m0 : Nat) (E : Int) (s : Bool) (m : Nat) (e : Int)
    (h : (if 971 < (if m0 = 2 ^ 53 then E + 1 else E) then Dbl.inf neg
      else Dbl.fin neg (if m0 = 2 ^ 53 then 2 ^ 52 else m0) (if m0 = 2 ^ 53 then E + 1 else E)) =
      Dbl.fin s m e) :
    s = neg ∧ (m : ℚ) * (2 : ℚ) ^ e = (m0 : ℚ) * (2 : ℚ) ^ E := by
  have two_ne : (2 : ℚ) ≠ 0 := by norm_num
  by_cases hm : m0 = 2 ^ 53
  · simp only [hm, if_true] at h
    split at h
    · exact Dbl.noConfusion h
    · simp only [Dbl.fin.injEq] at h
      obtain ⟨h1, h2, h3⟩ := h
      refine ⟨h1.symm, ?_⟩
      rw [← h2, ← h3, hm]
      push_cast
      rw [zpow_add₀ two_ne]
      norm_num
      ring
  · simp only [hm, if_false] at h
    split at h
    · exact Dbl.noConfusion h
    · simp only [Dbl.fin.injEq] at h
      obtain ⟨h1, h2, h3⟩ := h
      refine ⟨h1.symm, ?_⟩
      rw [← h2, ← h3]

/-- A finite result of the rounding keeps the sign and is within `2^-53` of the
quotient, relative to it, or within `2^-1075` of it in the subnormal range. -/
theorem roundRat_close (neg : Bool) (num den : Nat) (hn : 1 ≤ num) (hd : 1 ≤ den)
    (s : Bool) (m : Nat) (e : Int) (h : roundRat neg num den = Dbl.fin s m e) :
    s = neg ∧
    |(m : ℚ) * (2 : ℚ) ^ e - (num : ℚ) / (den : ℚ)| ≤
      max ((num : ℚ) / (den : ℚ) / 2 ^ 53) (1 / 2 ^ 1075) := by
  have two_ne : (2 : ℚ) ≠ 0 := by norm_num
  have hcore := significand_close num den hd (max (ilog2Ratio num den - 52) (-1074))
  obtain ⟨hfl, _⟩ := ilog2Ratio_spec num den hn hd
  have hbound : (2 : ℚ) ^ (max (ilog2Ratio num den - 52) (-1074)) / 2 ≤
      max ((num : ℚ) / (den : ℚ) / 2 ^ 53) (1 / 2 ^ 1075) := by
    by_cases hc : -1074 ≤ ilog2Ratio num den - 52
    · rw [max_eq_left hc]
      apply le_max_of_le_left
      have : (2 : ℚ) ^ (ilog2Ratio num den - 52) / 2 = (2 : ℚ) ^ ilog2Ratio num den / 2 ^ 53 := by
        rw [zpow_sub₀ two_ne]
        norm_num
        ring
      rw [this]
      exact div_le_div_of_nonneg_right hfl (by positivity)
    · rw [max_eq_right (by omega)]
      apply le_max_of_le_right
      have : (2 : ℚ) ^ (-1074 : ℤ) / 2 = 1 / 2 ^ 1075 := by
        rw [zpow_neg]
        norm_num
      rw [this]
  unfold roundRat at h
  have hn0 : ¬ num = 0 := by omega
  simp only [hn0, if_false] at h
  obtain ⟨h1, h2⟩ := renormalise_value neg _ _ s m e h
  refine ⟨h1, ?_⟩
  rw [h2]
  exact hcore.trans hbound

/-- The sign factor of a value. -/
theorem toRat_fin (s : Bool) (m : Nat) (e : Int) :
    (Dbl.fin s m e).toRat = (if s then -1 else 1) * ((m : ℚ) * (2 : ℚ) ^ e) := by
  simp [Dbl.toRat, mul_assoc]

theorem roundScaled_close (neg : Bool) (num den : Nat) (k : Int) (hd : 1 ≤ den)
    (hfin : (roundScaled neg num den k).isFinite = true) :
    |(roundScaled neg num den k).toRat -
        (if neg then -1 else 1) * ((num : ℚ) / (den : ℚ) * (2 : ℚ) ^ k)| ≤
      max ((num : ℚ) / (den : ℚ) * (2 : ℚ) ^ k / 2 ^ 53) (1 / 2 ^ 1075) := by
  have hdq : (0 : ℚ) < (den : ℚ) := by exact_mod_cast hd
  by_cases hn : num = 0
  · subst hn
    have : roundScaled neg 0 den k = Dbl.fin neg 0 (-1074) := by
      unfold roundScaled
      split <;> simp [roundRat]
    rw [this]
    simp [Dbl.toRat]
  · have hn1 : 1 ≤ num := Nat.one_le_iff_ne_zero.mpr hn
    -- the quotient handed to `roundRat`
    have key : ∀ (n' d' : Nat), 1 ≤ n' → 1 ≤ d' →
        (n' : ℚ) / (d' : ℚ) = (num : ℚ) / (den : ℚ) * (2 : ℚ) ^ k →
        roundScaled neg num den k = roundRat neg n' d' →
        |(roundScaled neg num den k).toRat -
            (if neg then -1 else 1) * ((num : ℚ) / (den : ℚ) * (2 : ℚ) ^ k)| ≤
          max ((num : ℚ) / (den : ℚ) * (2 : ℚ) ^ k / 2 ^ 53) (1 / 2 ^ 1075) := by
      intro n' d' hn' hd' hq hr
      cases hres : roundRat neg n' d' with
      | inf s => rw [hr, hres] at hfin; simp [Dbl.isFinite] at hfin
      | nan s => rw [hr, hres] at hfin; simp [Dbl.isFinite] at hfin
      | fin s m e =>
        obtain ⟨hs, hc⟩ := roundRat_close neg n' d' hn' hd' s m e hres
        rw [hr, hres, toRat_fin, hs, ← hq, ← mul_sub, abs_mul]
        have : |(if neg = true then (-1 : ℚ) else 1)| = 1 := by
          cases neg <;> simp
        rw [this, one_mul]
        exact hc
    unfold roundScaled at key ⊢
    split
    · next h =>
      have hz := zpow_two_toNat k h
      have := key (num * 2 ^ k.toNat) den
        (Nat.mul_pos hn1 (Nat.pos_pow_of_pos _ (by decide))) hd
        (by rw [hz]; push_cast; ring) (by simp [h])
      simpa [h] using this
    · next h =>
      have hz := zpow_two_neg_toNat k (by omega)
      have hp : (0 : ℚ) < ((2 ^ (-k).toNat : Nat) : ℚ) := by positivity
      have := key num (den * 2 ^ (-k).toNat) hn1
        (Nat.mul_pos hd (Nat.pos_pow_of_pos _ (by decide)))
        (by rw [hz]; push_cast; field_simp) (by simp [h])
      simpa [h] using this

/-- The product of two finite doubles, when finite, is the exact product rounded:
within `2^-53` of it, relative to it, or within `2^-1075` of it. -/
theorem mul_close (x y : Dbl) (hx : x.isFinite = true) (hy : y.isFinite = true)
    (hfin : (x.mul y).isFinite = true) :
    |(x.mul y).toRat - x.toRat * y.toRat| ≤
      max (|x.toRat * y.toRat| / 2 ^ 53) (1 / 2 ^ 1075) := by
  cases x with
  | inf s => simp [Dbl.isFinite] at hx
  | nan s => simp [Dbl.isFinite] at hx
  | fin s m e =>
    cases y with
    | inf t => simp [Dbl.isFinite] at hy
    | nan t => simp [Dbl.isFinite] at hy
    | fin t n f =>
      have h := roundScaled_close (s != t) (m * n) 1 (e + f) (le_refl 1) hfin
      have two_ne : (2 : ℚ) ≠ 0 := by norm_num
      have hprod : (Dbl.fin s m e).toRat * (Dbl.fin t n f).toRat =
          (if (s != t) = true then (-1 : ℚ) else 1) *
            (((m * n : Nat) : ℚ) / ((1 : Nat) : ℚ) * (2 : ℚ) ^ (e + f)) := by
        rw [toRat_fin, toRat_fin, zpow_add₀ two_ne]
        push_cast
        cases s <;> cases t <;> simp <;> ring
      have habs : |(Dbl.fin s m e).toRat * (Dbl.fin t n f).toRat| =
          ((m * n : Nat) : ℚ) / ((1 : Nat) : ℚ) * (2 : ℚ) ^ (e + f) := by
        rw [hprod, abs_mul]
        have h1 : |(if (s != t) = true then (-1 : ℚ) else 1)| = 1 := by
          cases s <;> cases t <;> simp
        rw [h1, one_mul, abs_of_nonneg]
        positivity
      rw [hprod] at habs ⊢
      rw [habs]
      exact h

theorem lit_3048 : Dbl.lit 3048 10000 = Dbl.fin false 5490788665690109 (-54) := by
  decide!

/-- Feet to metres: the product with the constant `0.3048`, when finite, is the
exact product with 3048/10000 up to one part in `2^53` of the value in feet (and
`2^-1075` near zero). -/
theorem mul_3048_close (x : Dbl) (hx : x.isFinite = true)
    (hfin : (x.mul (Dbl.lit 3048 10000)).isFinite = true) :
    |(x.mul (Dbl.lit 3048 10000)).toRat - x.toRat * (3048 / 10000)| ≤
      |x.toRat| / 2 ^ 53 + 1 / 2 ^ 1075 := by
  have h := mul_close x (Dbl.lit 3048 10000) hx (by rw [lit_3048]; rfl) hfin
  have hc : (Dbl.lit 3048 10000).toRat = 5490788665690109 / 2 ^ 54 := by
    rw [lit_3048, toRat_fin]
    norm_num
  rw [hc] at h
  have hx0 : 0 ≤ |x.toRat| := abs_nonneg _
  have h1 : |x.toRat * (5490788665690109 / 2 ^ 54)| / 2 ^ 53 ≤ |x.toRat| * (1 / 2 ^ 54) := by
    rw [abs_mul, abs_of_pos (by norm_num : (0 : ℚ) < 5490788665690109 / 2 ^ 54)]
    have : |x.toRat| * (5490788665690109 / 2 ^ 54) / 2 ^ 53 =
        |x.toRat| * (5490788665690109 / 2 ^ 54 / 2 ^ 53) := by ring
    rw [this]
    exact mul_le_mul_of_nonneg_left (by norm_num) hx0
  have h2 : |x.toRat * (5490788665690109 / 2 ^ 54) - x.toRat * (3048 / 10000)| ≤
      |x.toRat| * (1 / 2 ^ 54) := by
    rw [← mul_sub, abs_mul]
    exact mul_le_mul_of_nonneg_left (by rw [abs_le]; constructor <;> norm_num) hx0
  have h3 : max (|x.toRat * (5490788665690109 / 2 ^ 54)| / 2 ^ 53) (1 / 2 ^ 1075) ≤
      |x.toRat| * (1 / 2 ^ 54) + 1 / 2 ^ 1075 := by
    apply max_le
    · have : (0 : ℚ) ≤ 1 / 2 ^ 1075 := by positivity
      linarith
    · have : (0 : ℚ) ≤ |x.toRat| * (1 / 2 ^ 54) := by positivity
      linarith
  have tri := abs_sub_le ((x.mul (Dbl.lit 3048 10000)).toRat)
    (x.toRat * (5490788665690109 / 2 ^ 54)) (x.toRat * (3048 / 10000))
  have e53 : |x.toRat| / 2 ^ 53 = |x.toRat| * (1 / 2 ^ 54) + |x.toRat| * (1 / 2 ^ 54) := by
    ring
  rw [e53]
  linarith [h.trans h3]

theorem isFinite_of_mul_isFinite (x y : Dbl) (h : (x.mul y).isFinite = true) :
    x.isFinite = true := by
  cases x with
  | fin s m e => rfl
  | nan s => simp [Dbl.mul, Dbl.isFinite] at h
  | inf s =>
    cases y with
    | nan t => simp [Dbl.mul, Dbl.isFinite] at h
    | inf t => simp [Dbl.mul, Dbl.isFinite] at h
    | fin t n f =>
      simp only [Dbl.mul] at h
      split at h <;> simp [Dbl.isFinite] at h

theorem isFinite_of_div_isFinite (x : Dbl) (t : Bool) (n : Nat) (f : Int)
    (h : (x.div (Dbl.fin t n f)).isFinite = true) : x.isFinite = true := by
  cases x with
  | fin s m e => rfl
  | nan s => simp [Dbl.div, Dbl.isFinite] at h
  | inf s => simp [Dbl.div, Dbl.isFinite] at h

/-- The quotient of two finite doubles, when finite, is the exact quotient rounded. -/
theorem div_close (x : Dbl) (t : Bool) (n : Nat) (f : Int) (hx : x.isFinite = true)
    (hn : 1 ≤ n) (hfin : (x.div (Dbl.fin t n f)).isFinite = true) :
    |(x.div (Dbl.fin t n f)).toRat - x.toRat / (Dbl.fin t n f).toRat| ≤
      max (|x.toRat / (Dbl.fin t n f).toRat| / 2 ^ 53) (1 / 2 ^ 1075) := by
  cases x with
  | inf s => simp [Dbl.isFinite] at hx
  | nan s => simp [Dbl.isFinite] at hx
  | fin s m e =>
    have hn0 : ¬ n = 0 := by omega
    have hdiv : (Dbl.fin s m e).div (Dbl.fin t n f) = roundScaled (s != t) m n (e - f) := by
      simp [Dbl.div, hn0]
    rw [hdiv] at hfin ⊢
    have h := roundScaled_close (s != t) m n (e - f) hn hfin
    have two_ne : (2 : ℚ) ≠ 0 := by norm_num
    have hnq : (0 : ℚ) < (n : ℚ) := by exact_mod_cast hn
    have hpf : (0 : ℚ) < (2 : ℚ) ^ f := zpow_pos (by norm_num) f
    have hquot : (Dbl.fin s m e).toRat / (Dbl.fin t n f).toRat =
        (if (s != t) = true then (-1 : ℚ) else 1) *
          ((m : ℚ) / (n : ℚ) * (2 : ℚ) ^ (e - f)) := by
      rw [toRat_fin, toRat_fin, zpow_sub₀ two_ne]
      cases s <;> cases t <;> simp <;> field_simp
    have habs : |(Dbl.fin s m e).toRat / (Dbl.fin t n f).toRat| =
        (m : ℚ) / (n : ℚ) * (2 : ℚ) ^ (e - f) := by
      rw [hquot, abs_mul]
      have h1 : |(if (s != t) = true then (-1 : ℚ) else 1)| = 1 := by
        cases s <;> cases t <;> simp
      rw [h1, one_mul, abs_of_nonneg]
      positivity
    rw [hquot] at habs ⊢
    rw [habs]
    exact h

theorem M_PI_eq : M_PI = Dbl.fin false 7074237752028440 (-51) := by
  decide!

theorem lit_180 : Dbl.lit 180 1 = Dbl.fin false 6333186975989760 (-45) := by
  decide!

/-- Degrees to radians: `x * M_PI / 180.0`, when finite, is the exact product of the
value in degrees with the rational value of `M_PI` over 180, up to one part in
`2^57` of the value in degrees (and `2^-1074` near zero). -/
theorem deg_to_rad_close (x : Dbl)
    (hfin : ((x.mul M_PI).div (Dbl.lit 180 1)).isFinite = true) :
    |((x.mul M_PI).div (Dbl.lit 180 1)).toRat - x.toRat * M_PI.toRat / 180| ≤
      |x.toRat| / 2 ^ 57 + 1 / 2 ^ 1074 := by
  rw [lit_180] at hfin ⊢
  have hy : (x.mul M_PI).isFinite = true := isFinite_of_div_isFinite _ _ _ _ hfin
  have hx : x.isFinite = true := isFinite_of_mul_isFinite _ _ hy
  have h1 := mul_close x M_PI hx (by rw [M_PI_eq]; rfl) hy
  have h2 := div_close (x.mul M_PI) false 6333186975989760 (-45) hy (by norm_num) hfin
  have h180 : (Dbl.fin false 6333186975989760 (-45)).toRat = 180 := by
    rw [toRat_fin]; norm_num
  have hP : M_PI.toRat = 7074237752028440 / 2 ^ 51 := by
    rw [M_PI_eq, toRat_fin]; norm_num
  rw [h180] at h2
  rw [hP] at h1 ⊢
  have hx0 : 0 ≤ |x.toRat| := abs_nonneg _
  have hA : |x.toRat * (7074237752028440 / 2 ^ 51)| = |x.toRat| * (7074237752028440 / 2 ^ 51) := by
    rw [abs_mul, abs_of_pos (by norm_num : (0 : ℚ) < 7074237752028440 / 2 ^ 51)]
  rw [hA] at h1
  have e1 : |(x.mul M_PI).toRat - x.toRat * (7074237752028440 / 2 ^ 51)| ≤
      |x.toRat| * (7074237752028440 / 2 ^ 51) / 2 ^ 53 + 1 / 2 ^ 1075 := by
    refine h1.trans (max_le ?_ ?_)
    · have : (0 : ℚ) ≤ 1 / 2 ^ 1075 := by positivity
      linarith
    · have : (0 : ℚ) ≤ |x.toRat| * (7074237752028440 / 2 ^ 51) / 2 ^ 53 := by positivity
      linarith
  have hy1 : |(x.mul M_PI).toRat| ≤
      |x.toRat| * (7074237752028440 / 2 ^ 51) +
        (|x.toRat| * (7074237752028440 / 2 ^ 51) / 2 ^ 53 + 1 / 2 ^ 1075) := by
    have t := abs_sub_abs_le_abs_sub ((x.mul M_PI).toRat) (x.toRat * (7074237752028440 / 2 ^ 51))
    rw [hA] at t
    linarith
  have e2 : |((x.mul M_PI).div (Dbl.fin false 6333186975989760 (-45))).toRat -
      (x.mul M_PI).toRat / 180| ≤ |(x.mul M_PI).toRat| / 180 / 2 ^ 53 + 1 / 2 ^ 1075 := by
    refine h2.trans (max_le ?_ ?_)
    · rw [abs_div, abs_of_pos (by norm_num : (0 : ℚ) < 180)]
      have : (0 : ℚ) ≤ 1 / 2 ^ 1075 := by positivity
      linarith
    · have : (0 : ℚ) ≤ |(x.mul M_PI).toRat| / 180 / 2 ^ 53 := by positivity
      linarith
  have e3 : |(x.mul M_PI).toRat / 180 - x.toRat * (7074237752028440 / 2 ^ 51) / 180| ≤
      (|x.toRat| * (7074237752028440 / 2 ^ 51) / 2 ^ 53 + 1 / 2 ^ 1075) / 180 := by
    rw [← sub_div, abs_div, abs_of_pos (by norm_num : (0 : ℚ) < 180)]
    exact div_le_div_of_nonneg_right e1 (by norm_num)
  have tri := abs_sub_le (((x.mul M_PI).div (Dbl.fin false 6333186975989760 (-45))).toRat)
    ((x.mul M_PI).toRat / 180) (x.toRat * (7074237752028440 / 2 ^ 51) / 180)
  have hy2 : |(x.mul M_PI).toRat| / 180 / 2 ^ 53 ≤
      (|x.toRat| * (7074237752028440 / 2 ^ 51) +
        (|x.toRat| * (7074237752028440 / 2 ^ 51) / 2 ^ 53 + 1 / 2 ^ 1075)) / 180 / 2 ^ 53 := by
    apply div_le_div_of_nonneg_right _ (by positivity)
    exact div_le_div_of_nonneg_right hy1 (by norm_num)
  have fin1 : (|x.toRat| * (7074237752028440 / 2 ^ 51) +
        (|x.toRat| * (7074237752028440 / 2 ^ 51) / 2 ^ 53 + 1 / 2 ^ 1075)) / 180 / 2 ^ 53 +
      1 / 2 ^ 1075 +
      (|x.toRat| * (7074237752028440 / 2 ^ 51) / 2 ^ 53 + 1 / 2 ^ 1075) / 180 ≤
      |x.toRat| / 2 ^ 57 + 1 / 2 ^ 1074 := by
    have c1 : (7074237752028440 / 2 ^ 51 : ℚ) / 180 / 2 ^ 53 +
        (7074237752028440 / 2 ^ 51 : ℚ) / 2 ^ 53 / 180 / 2 ^ 53 +
        (7074237752028440 / 2 ^ 51 : ℚ) / 2 ^ 53 / 180 ≤ 1 / 2 ^ 57 := by norm_num
    have c2 : (1 / 2 ^ 1075 : ℚ) / 180 / 2 ^ 53 + 1 / 2 ^ 1075 + 1 / 2 ^ 1075 / 180 ≤
        1 / 2 ^ 1074 := by norm_num
    have := mul_le_mul_of_nonneg_left c1 hx0
    nlinarith [this, c2]
  linarith

/-- The constant `M_PI` is within `2^-52` of the number pi. -/
theorem M_PI_close : |((M_PI.toRat : ℚ) : ℝ) - Real.pi| ≤ 1 / 2 ^ 52 := by
  have hP : M_PI.toRat = 7074237752028440 / 2 ^ 51 := by
    rw [M_PI_eq, toRat_fin]; norm_num
  rw [hP]
  have h1 := Real.pi_gt_d20
  have h2 := Real.pi_lt_d20
  rw [abs_le]
  push_cast
  constructor <;> norm_num at h1 h2 ⊢ <;> linarith

/-- Degrees to radians against the number pi: one part in `2^56`. -/
theorem deg_to_rad_close_pi (x : Dbl)
    (hfin : ((x.mul M_PI).div (Dbl.lit 180 1)).isFinite = true) :
    |((((x.mul M_PI).div (Dbl.lit 180 1)).toRat : ℚ) : ℝ) -
        ((x.toRat : ℚ) : ℝ) * Real.pi / 180| ≤
      |((x.toRat : ℚ) : ℝ)| / 2 ^ 56 + 1 / 2 ^ 1074 := by
  have h := deg_to_rad_close x hfin
  have hr : |((((x.mul M_PI).div (Dbl.lit 180 1)).toRat : ℚ) : ℝ) -
      ((x.toRat : ℚ) : ℝ) * ((M_PI.toRat : ℚ) : ℝ) / 180| ≤
      |((x.toRat : ℚ) : ℝ)| / 2 ^ 57 + 1 / 2 ^ 1074 := by
    have h' : (((|((x.mul M_PI).div (Dbl.lit 180 1)).toRat - x.toRat * M_PI.toRat / 180| : ℚ)) : ℝ) ≤
        (((|x.toRat| / 2 ^ 57 + 1 / 2 ^ 1074 : ℚ)) : ℝ) := Rat.cast_le.mpr h
    push_cast at h'
    exact h'
  have hpi := M_PI_close
  have hx0 : 0 ≤ |((x.toRat : ℚ) : ℝ)| := abs_nonneg _
  have h2 : |((x.toRat : ℚ) : ℝ) * ((M_PI.toRat : ℚ) : ℝ) / 180 -
      ((x.toRat : ℚ) : ℝ) * Real.pi / 180| ≤ |((x.toRat : ℚ) : ℝ)| * (1 / 2 ^ 52 / 180) := by
    have e : ((x.toRat : ℚ) : ℝ) * ((M_PI.toRat : ℚ) : ℝ) / 180 -
        ((x.toRat : ℚ) : ℝ) * Real.pi / 180 =
        ((x.toRat : ℚ) : ℝ) * ((((M_PI.toRat : ℚ) : ℝ) - Real.pi) / 180) := by ring
    rw [e, abs_mul, abs_div, abs_of_pos (by norm_num : (0 : ℝ) < 180)]
    exact mul_le_mul_of_nonneg_left (div_le_div_of_nonneg_right hpi (by norm_num)) hx0
  have tri := abs_sub_le ((((x.mul M_PI).div (Dbl.lit 180 1)).toRat : ℚ) : ℝ)
    (((x.toRat : ℚ) : ℝ) * ((M_PI.toRat : ℚ) : ℝ) / 180) (((x.toRat : ℚ) : ℝ) * Real.pi / 180)
  have c : |((x.toRat : ℚ) : ℝ)| / 2 ^ 57 + |((x.toRat : ℚ) : ℝ)| * (1 / 2 ^ 52 / 180) ≤
      |((x.toRat : ℚ) : ℝ)| / 2 ^ 56 := by
    have c1 : (1 : ℝ) / 2 ^ 57 + 1 / 2 ^ 52 / 180 ≤ 1 / 2 ^ 56 := by norm_num
    have := mul_le_mul_of_nonneg_left c1 hx0
    nlinarith [this]
  linarith

/-! ## Rounding to the nearest binary64 number -/

/-- No natural number is nearer to the quotient than its rounding. -/
theorem divRoundEven_nearest (num den : Nat) (hden : 0 < den) (k : Nat) :
    |(divRoundEven num den : ℚ) - (num : ℚ) / (den : ℚ)| ≤
      |(k : ℚ) - (num : ℚ) / (den : ℚ)| := by
  have hd : (0 : ℚ) < (den : ℚ) := by exact_mod_cast hden
  have hsplit : (num : ℚ) = (den : ℚ) * ((num / den : Nat) : ℚ) + ((num % den : Nat) : ℚ) := by
    exact_mod_cast (Nat.div_add_mod num den).symm
  have hr : ((num % den : Nat) : ℚ) < (den : ℚ) := by
    exact_mod_cast Nat.mod_lt num hden
  have hr0 : (0 : ℚ) ≤ ((num % den : Nat) : ℚ) := by positivity
  have hq : (num : ℚ) / (den : ℚ) =
      ((num / den : Nat) : ℚ) + ((num % den : Nat) : ℚ) / (den : ℚ) := by
    have h3 : ((num / den : Nat) : ℚ) + ((num % den : Nat) : ℚ) / (den : ℚ) =
        ((den : ℚ) * ((num / den : Nat) : ℚ) + ((num % den : Nat) : ℚ)) / (den : ℚ) := by
      field_simp
      ring
    rw [h3, ← hsplit]
  have hf0 : 0 ≤ ((num % den : Nat) : ℚ) / (den : ℚ) := div_nonneg hr0 hd.le
  have hf1 : ((num % den : Nat) : ℚ) / (den : ℚ) < 1 := by
    rw [div_lt_one hd]; exact hr
  -- an integer is at most the floor or at least the floor plus one
  have hk : (k : ℚ) ≤ ((num / den : Nat) : ℚ) ∨ ((num / den : Nat) : ℚ) + 1 ≤ (k : ℚ) := by
    rcases Nat.lt_or_ge (num / den) k with h | h
    · right
      have : num / den + 1 ≤ k := h
      exact_mod_cast this
    · left
      exact_mod_cast h
  rcases divRoundEven_cases num den with ⟨h1, h2⟩ | ⟨h1, h2⟩
  · rw [h1, hq]
    have h2' : 2 * ((num % den : Nat) : ℚ) ≤ (den : ℚ) := by exact_mod_cast h2
    have hhalf : ((num % den : Nat) : ℚ) / (den : ℚ) ≤ 1 / 2 := by
      rw [div_le_iff₀ hd]; linarith
    have e1 : |((num / den : Nat) : ℚ) - (((num / den : Nat) : ℚ) +
        ((num % den : Nat) : ℚ) / (den : ℚ))| = ((num % den : Nat) : ℚ) / (den : ℚ) := by
      rw [abs_sub_comm, add_sub_cancel_left, abs_of_nonneg hf0]
    rw [e1]
    rcases hk with hk | hk
    · have : ((num % den : Nat) : ℚ) / (den : ℚ) ≤
          (((num / den : Nat) : ℚ) + ((num % den : Nat) : ℚ) / (den : ℚ)) - (k : ℚ) := by linarith
      exact this.trans (by rw [abs_sub_comm]; exact le_abs_self _)
    · have : ((num % den : Nat) : ℚ) / (den : ℚ) ≤
          (k : ℚ) - (((num / den : Nat) : ℚ) + ((num % den : Nat) : ℚ) / (den : ℚ)) := by linarith
      exact this.trans (le_abs_self _)
  · rw [h1, hq]
    have h2' : (den : ℚ) ≤ 2 * ((num % den : Nat) : ℚ) := by exact_mod_cast h2
    have hhalf : 1 / 2 ≤ ((num % den : Nat) : ℚ) / (den : ℚ) := by
      rw [le_div_iff₀ hd]; linarith
    have e1 : |((num / den + 1 : Nat) : ℚ) - (((num / den : Nat) : ℚ) +
        ((num % den : Nat) : ℚ) / (den : ℚ))| = 1 - ((num % den : Nat) : ℚ) / (den : ℚ) := by
      push_cast
      have : ((num / den : Nat) : ℚ) + 1 - (((num / den : Nat) : ℚ) +
          ((num % den : Nat) : ℚ) / (den : ℚ)) = 1 - ((num % den : Nat) : ℚ) / (den : ℚ) := by
        ring
      rw [this, abs_of_nonneg (by linarith)]
    rw [e1]
    rcases hk with hk | hk
    · have : 1 - ((num % den : Nat) : ℚ) / (den : ℚ) ≤
          (((num / den : Nat) : ℚ) + ((num % den : Nat) : ℚ) / (den : ℚ)) - (k : ℚ) := by linarith
      exact this.trans (by rw [abs_sub_comm]; exact le_abs_self _)
    · have : 1 - ((num % den : Nat) : ℚ) / (den : ℚ) ≤
          (k : ℚ) - (((num / den : Nat) : ℚ) + ((num % den : Nat) : ℚ) / (den : ℚ)) := by linarith
      exact this.trans (le_abs_self _)

/-- No multiple of `2^E` is nearer to the quotient than the chosen significand
times `2^E`. -/
theorem significand_nearest (num den : Nat) (hd : 1 ≤ den) (E : Int) (k : Nat) :
    |((if 0 ≤ E then divRoundEven num (den * 2 ^ E.toNat)
        else divRoundEven (num * 2 ^ (-E).toNat) den : Nat) : ℚ) * (2 : ℚ) ^ E -
      (num : ℚ) / (den : ℚ)| ≤ |(k : ℚ) * (2 : ℚ) ^ E - (num : ℚ) / (den : ℚ)| := by
  have hdq : (0 : ℚ) < (den : ℚ) := by exact_mod_cast hd
  have pw : (0 : ℚ) < (2 : ℚ) ^ E := zpow_pos (by norm_num) E
  -- both sides are `|n - q / 2^E| * 2^E`
  have scale : ∀ n : ℚ, ∀ t : ℚ, t * (2 : ℚ) ^ E = (num : ℚ) / (den : ℚ) →
      |n * (2 : ℚ) ^ E - (num : ℚ) / (den : ℚ)| = |n - t| * (2 : ℚ) ^ E := by
    intro n t ht
    rw [← ht, ← sub_mul, abs_mul, abs_of_pos pw]
  split
  · next h =>
    have hz := zpow_two_toNat E h
    have hpos : 0 < den * 2 ^ E.toNat := Nat.mul_pos hd (Nat.pos_pow_of_pos _ (by decide))
    have hs := divRoundEven_nearest num (den * 2 ^ E.toNat) hpos k
    have ht : ((num : ℚ) / ((den * 2 ^ E.toNat : Nat) : ℚ)) * (2 : ℚ) ^ E =
        (num : ℚ) / (den : ℚ) := by
      rw [hz]
      push_cast
      field_simp
      ring
    rw [scale _ _ ht, scale _ _ ht]
    exact mul_le_mul_of_nonneg_right hs pw.le
  · next h =>
    have hz := zpow_two_neg_toNat E (by omega)
    have hp : (0 : ℚ) < ((2 ^ (-E).toNat : Nat) : ℚ) := by positivity
    have hs := divRoundEven_nearest (num * 2 ^ (-E).toNat) den hd k
    have ht : (((num * 2 ^ (-E).toNat : Nat) : ℚ) / (den : ℚ)) * (2 : ℚ) ^ E =
        (num : ℚ) / (den : ℚ) := by
      rw [hz]
      push_cast
      field_simp
      ring
    rw [scale _ _ ht, scale _ _ ht]
    exact mul_le_mul_of_nonneg_right hs pw.le

theorem roundRat_unfold (neg : Bool) (num den : Nat) (hn : 1 ≤ num) :
    roundRat neg num den =
      if 971 < (if roundRatSignificand num den = 2 ^ 53
          then max (ilog2Ratio num den - 52) (-1074) + 1
          else max (ilog2Ratio num den - 52) (-1074))
      then Dbl.inf neg
      else Dbl.fin neg
        (if roundRatSignificand num den = 2 ^ 53 then 2 ^ 52 else roundRatSignificand num den)
        (if roundRatSignificand num den = 2 ^ 53
          then max (ilog2Ratio num den - 52) (-1074) + 1
          else max (ilog2Ratio num den - 52) (-1074)) := by
  have hn0 : ¬ num = 0 := by omega
  unfold roundRat roundRatSignificand
  simp only [hn0, if_false]

/-- A finite result of the rounding is a nearest binary64 number: no number
`M * 2^F` with `M < 2^53` and `F ≥ -1074` is nearer to the quotient. -/
theorem roundRat_nearest (neg : Bool) (num den : Nat) (hn : 1 ≤ num) (hd : 1 ≤ den)
    (s : Bool) (m : Nat) (e : Int) (h : roundRat neg num den = Dbl.fin s m e)
    (M : Nat) (F : Int) (hM : M < 2 ^ 53) (hF : -1074 ≤ F) :
    |(m : ℚ) * (2 : ℚ) ^ e - (num : ℚ) / (den : ℚ)| ≤
      |(M : ℚ) * (2 : ℚ) ^ F - (num : ℚ) / (den : ℚ)| := by
  have two_ne : (2 : ℚ) ≠ 0 := by norm_num
  rw [roundRat_unfold neg num den hn] at h
  obtain ⟨_, hval⟩ := renormalise_value neg _ _ s m e h
  rw [hval]
  have hnear := significand_nearest num den hd (max (ilog2Ratio num den - 52) (-1074))
  have hsig : ((if 0 ≤ max (ilog2Ratio num den - 52) (-1074)
      then divRoundEven num (den * 2 ^ (max (ilog2Ratio num den - 52) (-1074)).toNat)
      else divRoundEven (num * 2 ^ (-(max (ilog2Ratio num den - 52) (-1074))).toNat) den : Nat))
      = roundRatSignificand num den := rfl
  rw [hsig] at hnear
  by_cases hc : max (ilog2Ratio num den - 52) (-1074) ≤ F
  · -- `M * 2^F` is a multiple of `2^E`
    have hz := zpow_two_toNat (F - max (ilog2Ratio num den - 52) (-1074)) (by omega)
    have hk := hnear (M * 2 ^ (F - max (ilog2Ratio num den - 52) (-1074)).toNat)
    have e1 : ((M * 2 ^ (F - max (ilog2Ratio num den - 52) (-1074)).toNat : Nat) : ℚ) *
        (2 : ℚ) ^ (max (ilog2Ratio num den - 52) (-1074)) = (M : ℚ) * (2 : ℚ) ^ F := by
      push_cast
      rw [mul_assoc]
      congr 1
      have := hz
      push_cast at this
      rw [← this, ← zpow_add₀ two_ne]
      congr 1
      ring
    rw [e1] at hk
    exact hk
  · -- `M * 2^F` lies below the binade of the quotient
    have hE : max (ilog2Ratio num den - 52) (-1074) = ilog2Ratio num den - 52 := by
      apply max_eq_left
      by_contra hlt
      have : max (ilog2Ratio num den - 52) (-1074) = -1074 := max_eq_right (by omega)
      omega
    rw [hE] at hnear hc ⊢
    obtain ⟨hfl, _⟩ := ilog2Ratio_spec num den hn hd
    have hk := hnear (2 ^ 52)
    have e1 : ((2 ^ 52 : Nat) : ℚ) * (2 : ℚ) ^ (ilog2Ratio num den - 52) =
        (2 : ℚ) ^ ilog2Ratio num den := by
      have h52 : (2 : ℚ) ^ (ilog2Ratio num den - 52) = (2 : ℚ) ^ ilog2Ratio num den / 2 ^ 52 := by
        rw [zpow_sub₀ two_ne]
        norm_num
      rw [h52]
      push_cast
      field_simp
      ring
    rw [e1] at hk
    have hy : (M : ℚ) * (2 : ℚ) ^ F ≤ (2 : ℚ) ^ ilog2Ratio num den := by
      have hM' : (M : ℚ) ≤ 2 ^ 53 := by exact_mod_cast hM.le
      have hF' : (2 : ℚ) ^ F ≤ (2 : ℚ) ^ (ilog2Ratio num den - 53) :=
        zpow_le_zpow_right₀ (by norm_num) (by omega)
      have pF : (0 : ℚ) ≤ (2 : ℚ) ^ F := (zpow_pos (by norm_num) F).le
      calc (M : ℚ) * (2 : ℚ) ^ F ≤ 2 ^ 53 * (2 : ℚ) ^ F := mul_le_mul_of_nonneg_right hM' pF
        _ ≤ 2 ^ 53 * (2 : ℚ) ^ (ilog2Ratio num den - 53) :=
            mul_le_mul_of_nonneg_left hF' (by norm_num)
        _ = (2 : ℚ) ^ ilog2Ratio num den := by
            have h53 : (2 : ℚ) ^ (ilog2Ratio num den - 53) =
                (2 : ℚ) ^ ilog2Ratio num den / 2 ^ 53 := by
              rw [zpow_sub₀ two_ne]
              norm_num
            rw [h53]
            field_simp
    refine hk.trans ?_
    rw [abs_sub_comm, abs_of_nonneg (by linarith), abs_sub_comm,
      abs_of_nonneg (by linarith)]
    linarith

/-- The rounding overflows only far above every binary64 number: if some number
`M * 2^F` with `M < 2^53` and `F ≤ 971` is within 1 of the quotient, the result is
finite. -/
theorem roundRat_isFinite (neg : Bool) (num den : Nat) (hn : 1 ≤ num) (hd : 1 ≤ den)
    (M : Nat) (F : Int) (hM : M < 2 ^ 53) (hF : F ≤ 971)
    (hnear : |(M : ℚ) * (2 : ℚ) ^ F - (num : ℚ) / (den : ℚ)| ≤ 1) :
    (roundRat neg num den).isFinite = true := by
  have two_ne : (2 : ℚ) ≠ 0 := by norm_num
  -- all bounds are multiples of `P = 2^970`
  obtain ⟨P, hP⟩ : ∃ P : ℚ, P = (2 : ℚ) ^ (970 : ℤ) := ⟨_, rfl⟩
  have hP2 : (2 : ℚ) ≤ P := by
    rw [hP]
    calc (2 : ℚ) = (2 : ℚ) ^ (1 : ℤ) := by norm_num
      _ ≤ (2 : ℚ) ^ (970 : ℤ) := zpow_le_zpow_right₀ (by norm_num) (by norm_num)
  have h971 : (2 : ℚ) ^ (971 : ℤ) = 2 * P := by
    have e1 : (971 : ℤ) = 970 + 1 := by norm_num
    rw [e1, zpow_add_one₀ two_ne, hP]
    ring
  have h1024 : (2 : ℚ) ^ (1024 : ℤ) = 2 ^ 54 * P := by
    have e1 : (1024 : ℤ) = 54 + 970 := by norm_num
    have e2 : (2 : ℚ) ^ (54 : ℤ) = 2 ^ 54 := by norm_num
    rw [e1, zpow_add₀ two_ne, hP, e2]
  have hy : (M : ℚ) * (2 : ℚ) ^ F ≤ (2 ^ 54 - 2) * P := by
    have hM' : (M : ℚ) ≤ 2 ^ 53 - 1 := by
      have : M + 1 ≤ 2 ^ 53 := hM
      have h2 : ((M + 1 : Nat) : ℚ) ≤ ((2 ^ 53 : Nat) : ℚ) := by exact_mod_cast this
      push_cast at h2
      linarith
    have hF' : (2 : ℚ) ^ F ≤ (2 : ℚ) ^ (971 : ℤ) := zpow_le_zpow_right₀ (by norm_num) hF
    rw [h971] at hF'
    have hM0 : (0 : ℚ) ≤ (M : ℚ) := by positivity
    calc (M : ℚ) * (2 : ℚ) ^ F ≤ (M : ℚ) * (2 * P) := mul_le_mul_of_nonneg_left hF' hM0
      _ ≤ (2 ^ 53 - 1) * (2 * P) := mul_le_mul_of_nonneg_right hM' (by linarith)
      _ = (2 ^ 54 - 2) * P := by ring
  rw [roundRat_unfold neg num den hn]
  by_cases hover : 971 < (if roundRatSignificand num den = 2 ^ 53
      then max (ilog2Ratio num den - 52) (-1074) + 1
      else max (ilog2Ratio num den - 52) (-1074))
  · exfalso
    have hq : (2 ^ 54 - 1) * P ≤ (num : ℚ) / (den : ℚ) := by
      by_cases hm : roundRatSignificand num den = 2 ^ 53
      · simp only [hm, if_true] at hover
        have hcl := significand_close num den hd (max (ilog2Ratio num den - 52) (-1074))
        have hsig : ((if 0 ≤ max (ilog2Ratio num den - 52) (-1074)
            then divRoundEven num (den * 2 ^ (max (ilog2Ratio num den - 52) (-1074)).toNat)
            else divRoundEven (num * 2 ^ (-(max (ilog2Ratio num den - 52) (-1074))).toNat) den :
            Nat)) = roundRatSignificand num den := rfl
        rw [hsig, hm] at hcl
        have hE : (2 : ℚ) ^ (971 : ℤ) ≤ (2 : ℚ) ^ (max (ilog2Ratio num den - 52) (-1074)) :=
          zpow_le_zpow_right₀ (by norm_num) (by omega)
        rw [h971] at hE
        have h1 := (abs_le.mp hcl).2
        push_cast at h1
        have c : (2 ^ 54 - 1) * P = ((2 : ℚ) ^ 53 - 1 / 2) * (2 * P) := by ring
        have c2 : ((2 : ℚ) ^ 53 - 1 / 2) * (2 * P) ≤ ((2 : ℚ) ^ 53 - 1 / 2) *
            (2 : ℚ) ^ (max (ilog2Ratio num den - 52) (-1074)) :=
          mul_le_mul_of_nonneg_left hE (by norm_num)
        rw [c]
        linarith
      · simp only [hm, if_false] at hover
        obtain ⟨hfl, _⟩ := ilog2Ratio_spec num den hn hd
        have hfl2 : (1024 : ℤ) ≤ ilog2Ratio num den := by
          rcases max_cases (ilog2Ratio num den - 52) (-1074) with ⟨h1, _⟩ | ⟨h1, _⟩
          · rw [h1] at hover; omega
          · rw [h1] at hover; omega
        have hE : (2 : ℚ) ^ (1024 : ℤ) ≤ (2 : ℚ) ^ ilog2Ratio num den :=
          zpow_le_zpow_right₀ (by norm_num) hfl2
        rw [h1024] at hE
        linarith
    have := (abs_le.mp hnear).1
    linarith
  · rw [if_neg hover]
    rfl

/-! ## Reading a printed value back with `atof` -/

theorem foldl_digits (base : Nat) (ys : List Char) : ∀ a : Nat,
    ys.foldl (fun a c => base * a + xdigitVal c) a =
      a * base ^ ys.length + ys.foldl (fun a c => base * a + xdigitVal c) 0 := by
  induction ys with
  | nil => intro a; simp
  | cons y ys ih =>
    intro a
    simp only [List.foldl_cons, List.length_cons]
    rw [ih (base * a + xdigitVal y), ih (base * 0 + xdigitVal y)]
    ring

theorem digitsValue_append (base : Nat) (xs ys : List Char) :
    digitsValue base (xs ++ ys) =
      digitsValue base xs * base ^ ys.length + digitsValue base ys := by
  simp only [digitsValue, List.foldl_append]
  exact foldl_digits base ys _

theorem isspace_of_isdigit (c : Char) (h : isdigit c = true) : isspace c = false := by
  by_contra hs
  have hs' : isspace c = true := by simpa using hs
  simp only [isspace, Bool.or_eq_true, decide_eq_true_eq] at hs'
  rcases hs' with ((((h1 | h1) | h1) | h1) | h1) | h1 <;>
    (rw [h1] at h; exact absurd h (by decide))

theorem isLetter_of_isdigit (lower upper c : Char) (h : isdigit c = true)
    (hl : isdigit lower = false) (hu : isdigit upper = false) :
    isLetter lower upper c = false := by
  by_contra hs
  have hs' : isLetter lower upper c = true := by simpa using hs
  simp only [isLetter, Bool.or_eq_true, decide_eq_true_eq] at hs'
  rcases hs' with h1 | h1
  · rw [h1, hl] at h; exact absurd h (by decide)
  · rw [h1, hu] at h; exact absurd h (by decide)

theorem startsInf_of_digit (c : Char) (t : List Char) (h : isdigit c = true) :
    startsInf (c :: t) = false := by
  have hl := isLetter_of_isdigit 'i' 'I' c h (by decide) (by decide)
  cases t with
  | nil => rfl
  | cons b t =>
    cases t with
    | nil => rfl
    | cons d t => simp [startsInf, hl]

theorem startsNan_of_digit (c : Char) (t : List Char) (h : isdigit c = true) :
    startsNan (c :: t) = false := by
  have hl := isLetter_of_isdigit 'n' 'N' c h (by decide) (by decide)
  cases t with
  | nil => rfl
  | cons b t =>
    cases t with
    | nil => rfl
    | cons d t => simp [startsNan, hl]

theorem hexBody_of_second (c d : Char) (t : List Char)
    (h : isLetter 'x' 'X' d = false) : hexBody (c :: d :: t) = none := by
  unfold hexBody
  split
  · next heq =>
    simp only [List.cons.injEq] at heq
    obtain ⟨_, h2, _⟩ := heq
    rw [← h2, h]
    rfl
  · rfl

theorem takeSign_of_digit (c : Char) (t : List Char) (h : isdigit c = true) :
    takeSign (c :: t) = (false, c :: t) := by
  have hm : c ≠ '-' := by
    intro hm; rw [hm] at h; exact absurd h (by decide)
  have hp : c ≠ '+' := by
    intro hp; rw [hp] at h; exact absurd h (by decide)
  unfold takeSign
  split
  · next heq =>
    simp only [List.cons.injEq] at heq
    exact absurd heq.1 hm
  · next heq =>
    simp only [List.cons.injEq] at heq
    exact absurd heq.1 hp
  · rfl

/-- What `strtod` makes of digits, a point and digits: the digits taken together as
one number, scaled down by the number of fraction digits. -/
theorem strtodMagnitude_digits (neg : Bool) (c : Char) (ds fd : List Char)
    (hc : isdigit c = true) (hds : ∀ x ∈ ds, isdigit x = true)
    (hfd : ∀ x ∈ fd, isdigit x = true) :
    strtodMagnitude neg ((c :: ds) ++ '.' :: fd) =
      some (roundDecimal neg (digitsValue 10 ((c :: ds) ++ fd)) (0 - (fd.length : Int))) := by
  have hall : ∀ x ∈ c :: ds, isdigit x = true := by
    intro x hx
    rcases List.mem_cons.mp hx with h | h
    · rw [h]; exact hc
    · exact hds x h
  have hw := takeWhile_digits_append (c :: ds) fd hall
  have hhex : hexBody ((c :: ds) ++ '.' :: fd) = none := by
    cases ds with
    | nil => exact hexBody_of_second c '.' fd (by decide)
    | cons d ds =>
      exact hexBody_of_second c d _
        (isLetter_of_isdigit 'x' 'X' d (hds d (List.mem_cons_self _ _)) (by decide) (by decide))
  have hfw : fd.takeWhile isdigit = fd := by
    rw [List.takeWhile_eq_self_iff]
    exact hfd
  have hfdrop : fd.dropWhile isdigit = [] := by
    rw [List.dropWhile_eq_nil_iff]
    exact hfd
  have hfrac : fractionPart isdigit ('.' :: fd) = (fd, []) := by
    simp [fractionPart, hfw, hfdrop]
  unfold strtodMagnitude
  rw [show startsInf ((c :: ds) ++ '.' :: fd) = false from startsInf_of_digit c _ hc,
    show startsNan ((c :: ds) ++ '.' :: fd) = false from startsNan_of_digit c _ hc, hhex]
  simp only [Bool.false_eq_true, if_false, Option.bind]
  unfold strtodDecimal
  simp only [hw.1, hw.2, hfrac]
  rw [if_neg (by simp)]
  simp [exponentPart]

/-- Reading a printed finite value back with `atof` gives the decimal number that
was printed, rounded to binary64. -/
theorem atof_fmt6 (s : Bool) (m : Nat) (e : Int) :
    atof (fmt6 (.fin s m e)) = roundRat s (scaled6 m e) (10 ^ 6) := by
  obtain ⟨n1, n2, n3⟩ := natDigits_spec (scaled6 m e / 10 ^ 6)
  obtain ⟨f1, f2, f3⟩ := fracDigits6_spec (scaled6 m e % 10 ^ 6) (Nat.mod_lt _ (by norm_num))
  cases hds : natDigits (scaled6 m e / 10 ^ 6) with
  | nil => exact absurd hds n1
  | cons c ds =>
    rw [hds] at n2 n3
    have hc : isdigit c = true := n2 c (List.mem_cons_self _ _)
    have hrest : ∀ x ∈ ds, isdigit x = true := fun x hx => n2 x (List.mem_cons_of_mem _ hx)
    have hmag := strtodMagnitude_digits s c ds _ hc hrest f2
    have hval : digitsValue 10 ((c :: ds) ++ fracDigits6 (scaled6 m e % 10 ^ 6)) =
        scaled6 m e := by
      rw [digitsValue_append, n3, f3, f1]
      have := Nat.div_add_mod (scaled6 m e) (10 ^ 6)
      rw [Nat.mul_comm] at this
      exact this
    rw [hval, f1] at hmag
    have hround : roundDecimal s (scaled6 m e) (0 - ((6 : Nat) : Int)) =
        roundRat s (scaled6 m e) (10 ^ 6) := by
      simp [roundDecimal]
    rw [hround] at hmag
    have htext : fmt6 (.fin s m e) =
        signChars s ++ ((c :: ds) ++ '.' :: fracDigits6 (scaled6 m e % 10 ^ 6)) := by
      simp only [fmt6, hds, List.append_assoc]
    rw [htext]
    unfold atof
    cases s with
    | false =>
      have h1 : (signChars false ++ ((c :: ds) ++ '.' :: fracDigits6 (scaled6 m e % 10 ^ 6))) =
          c :: (ds ++ '.' :: fracDigits6 (scaled6 m e % 10 ^ 6)) := by
        simp [signChars]
      rw [h1]
      have h2 : (c :: (ds ++ '.' :: fracDigits6 (scaled6 m e % 10 ^ 6))).dropWhile isspace =
          c :: (ds ++ '.' :: fracDigits6 (scaled6 m e % 10 ^ 6)) := by
        simp [List.dropWhile, isspace_of_isdigit c hc]
      simp only [h2, takeSign_of_digit c _ hc]
      have h3 : c :: (ds ++ '.' :: fracDigits6 (scaled6 m e % 10 ^ 6)) =
          (c :: ds) ++ '.' :: fracDigits6 (scaled6 m e % 10 ^ 6) := rfl
      rw [h3, hmag]
    | true =>
      have h1 : (signChars true ++ ((c :: ds) ++ '.' :: fracDigits6 (scaled6 m e % 10 ^ 6))) =
          '-' :: ((c :: ds) ++ '.' :: fracDigits6 (scaled6 m e % 10 ^ 6)) := by
        simp [signChars]
      rw [h1]
      have hsp : isspace '-' = false := by decide
      have h2 : ('-' :: ((c :: ds) ++ '.' :: fracDigits6 (scaled6 m e % 10 ^ 6))).dropWhile
          isspace = '-' :: ((c :: ds) ++ '.' :: fracDigits6 (scaled6 m e % 10 ^ 6)) := by
        simp [List.dropWhile, hsp]
      simp only [h2, takeSign]
      rw [hmag]

/-- Reading the `%.6f` form of a binary64 number back with `atof` gives a number
within `1e-6` of it. -/
theorem atof_fmt6_close (x : Dbl) (hx : x.isBinary64 = true) :
    (atof (fmt6 x)).isFinite = true ∧ |(atof (fmt6 x)).toRat - x.toRat| ≤ 1 / 10 ^ 6 := by
  cases x with
  | inf s => simp [Dbl.isBinary64] at hx
  | nan s => simp [Dbl.isBinary64] at hx
  | fin s m e =>
    simp only [Dbl.isBinary64, Bool.and_eq_true, decide_eq_true_eq] at hx
    obtain ⟨⟨hm, he1⟩, he2⟩ := hx
    rw [atof_fmt6]
    have hs := scaled6_spec m e
    -- the printed number is within 0.0000005 of the value
    have hd : |(m : ℚ) * (2 : ℚ) ^ e - ((scaled6 m e : Nat) : ℚ) / ((10 ^ 6 : Nat) : ℚ)| ≤
        1 / (2 * 10 ^ 6) := by
      have e1 : (m : ℚ) * (2 : ℚ) ^ e - ((scaled6 m e : Nat) : ℚ) / ((10 ^ 6 : Nat) : ℚ) =
          -(((scaled6 m e : ℚ) - (m : ℚ) * (2 : ℚ) ^ e * 10 ^ 6) / 10 ^ 6) := by
        push_cast
        field_simp
        norm_num
      rw [e1, abs_neg, abs_div, abs_of_pos (by norm_num : (0 : ℚ) < 10 ^ 6),
        div_le_iff₀ (by norm_num : (0 : ℚ) < 10 ^ 6)]
      calc |(scaled6 m e : ℚ) - (m : ℚ) * (2 : ℚ) ^ e * 10 ^ 6| ≤ 1 / 2 := hs
        _ = 1 / (2 * 10 ^ 6) * 10 ^ 6 := by norm_num
    by_cases h0 : scaled6 m e = 0
    · rw [h0] at hd ⊢
      have hz : roundRat s 0 (10 ^ 6) = Dbl.fin s 0 (-1074) := by simp [roundRat]
      rw [hz]
      refine ⟨rfl, ?_⟩
      rw [toRat_fin, toRat_fin, ← mul_sub, abs_mul]
      have h1 : |(if s = true then (-1 : ℚ) else 1)| = 1 := by cases s <;> simp
      rw [h1, one_mul]
      simp only [Nat.cast_zero, zero_div, sub_zero, zero_mul, zero_sub, abs_neg] at hd ⊢
      exact hd.trans (by norm_num)
    · have hS : 1 ≤ scaled6 m e := Nat.one_le_iff_ne_zero.mpr h0
      have hden : 1 ≤ 10 ^ 6 := by norm_num
      have hfin := roundRat_isFinite s (scaled6 m e) (10 ^ 6) hS hden m e hm he2
        (hd.trans (by norm_num))
      refine ⟨hfin, ?_⟩
      cases hres : roundRat s (scaled6 m e) (10 ^ 6) with
      | inf t => rw [hres] at hfin; simp [Dbl.isFinite] at hfin
      | nan t => rw [hres] at hfin; simp [Dbl.isFinite] at hfin
      | fin t m' e' =>
        obtain ⟨hsign, _⟩ := roundRat_close s _ _ hS hden t m' e' hres
        have hnear := roundRat_nearest s _ _ hS hden t m' e' hres m e hm he1
        rw [toRat_fin, toRat_fin, hsign, ← mul_sub, abs_mul]
        have h1 : |(if s = true then (-1 : ℚ) else 1)| = 1 := by cases s <;> simp
        rw [h1, one_mul]
        have tri := abs_sub_le ((m' : ℚ) * (2 : ℚ) ^ e')
          (((scaled6 m e : Nat) : ℚ) / ((10 ^ 6 : Nat) : ℚ)) ((m : ℚ) * (2 : ℚ) ^ e)
        have hd' : |((scaled6 m e : Nat) : ℚ) / ((10 ^ 6 : Nat) : ℚ) - (m : ℚ) * (2 : ℚ) ^ e| ≤
            1 / (2 * 10 ^ 6) := by
          rw [abs_sub_comm]; exact hd
        have c : (1 : ℚ) / (2 * 10 ^ 6) + 1 / (2 * 10 ^ 6) = 1 / 10 ^ 6 := by norm_num
        linarith [hnear.trans hd]

/-- A finite result of the rounding is a binary64 number. -/
theorem roundRat_isBinary64 (neg : Bool) (num den : Nat) (hd : 1 ≤ den)
    (h : (roundRat neg num den).isFinite = true) :
    (roundRat neg num den).isBinary64 = true := by
  have two_ne : (2 : ℚ) ≠ 0 := by norm_num
  by_cases hn0 : num = 0
  · subst hn0
    simp [roundRat, Dbl.isBinary64]
  · have hn : 1 ≤ num := Nat.one_le_iff_ne_zero.mpr hn0
    -- the significand is at most `2^53`
    have hm0 : roundRatSignificand num den ≤ 2 ^ 53 := by
      have hcl := significand_close num den hd (max (ilog2Ratio num den - 52) (-1074))
      have hsig : ((if 0 ≤ max (ilog2Ratio num den - 52) (-1074)
          then divRoundEven num (den * 2 ^ (max (ilog2Ratio num den - 52) (-1074)).toNat)
          else divRoundEven (num * 2 ^ (-(max (ilog2Ratio num den - 52) (-1074))).toNat) den :
          Nat)) = roundRatSignificand num den := rfl
      rw [hsig] at hcl
      obtain ⟨_, hfl⟩ := ilog2Ratio_spec num den hn hd
      have pw : (0 : ℚ) < (2 : ℚ) ^ (max (ilog2Ratio num den - 52) (-1074)) :=
        zpow_pos (by norm_num) _
      have hq : (num : ℚ) / (den : ℚ) <
          2 ^ 53 * (2 : ℚ) ^ (max (ilog2Ratio num den - 52) (-1074)) := by
        have h1 : (2 : ℚ) ^ (ilog2Ratio num den + 1) ≤
            (2 : ℚ) ^ (max (ilog2Ratio num den - 52) (-1074) + 53) :=
          zpow_le_zpow_right₀ (by norm_num) (by
            have := le_max_left (ilog2Ratio num den - 52) (-1074)
            omega)
        have h2 : (2 : ℚ) ^ (max (ilog2Ratio num den - 52) (-1074) + 53) =
            2 ^ 53 * (2 : ℚ) ^ (max (ilog2Ratio num den - 52) (-1074)) := by
          rw [zpow_add₀ two_ne]
          have : (2 : ℚ) ^ (53 : ℤ) = 2 ^ 53 := by norm_num
          rw [this]
          ring
        rw [h2] at h1
        linarith
      have h3 := (abs_le.mp hcl).2
      have h4 : (roundRatSignificand num den : ℚ) *
          (2 : ℚ) ^ (max (ilog2Ratio num den - 52) (-1074)) <
          (2 ^ 53 + 1) * (2 : ℚ) ^ (max (ilog2Ratio num den - 52) (-1074)) := by
        nlinarith [h3, hq, pw]
      have h5 : (roundRatSignificand num den : ℚ) < 2 ^ 53 + 1 :=
        lt_of_mul_lt_mul_right h4 pw.le
      have h6 : roundRatSignificand num den < 2 ^ 53 + 1 := by exact_mod_cast h5
      omega
    rw [roundRat_unfold neg num den hn] at h ⊢
    have hE := le_max_right (ilog2Ratio num den - 52) (-1074)
    by_cases hover : 971 < (if roundRatSignificand num den = 2 ^ 53
        then max (ilog2Ratio num den - 52) (-1074) + 1
        else max (ilog2Ratio num den - 52) (-1074))
    · rw [if_pos hover] at h
      simp [Dbl.isFinite] at h
    · rw [if_neg hover]
      by_cases hm : roundRatSignificand num den = 2 ^ 53
      · simp only [hm, if_true] at hover ⊢
        simp only [Dbl.isBinary64, Bool.and_eq_true, decide_eq_true_eq]
        refine ⟨⟨by norm_num, by omega⟩, by omega⟩
      · simp only [hm, if_false] at hover ⊢
        simp only [Dbl.isBinary64, Bool.and_eq_true, decide_eq_true_eq]
        refine ⟨⟨by omega, by omega⟩, by omega⟩

theorem roundScaled_isBinary64 (neg : Bool) (num den : Nat) (k : Int) (hd : 1 ≤ den)
    (h : (roundScaled neg num den k).isFinite = true) :
    (roundScaled neg num den k).isBinary64 = true := by
  unfold roundScaled at h ⊢
  split
  · next hk =>
    rw [if_pos hk] at h
    exact roundRat_isBinary64 _ _ _ hd h
  · next hk =>
    rw [if_neg hk] at h
    exact roundRat_isBinary64 _ _ _ (Nat.mul_pos hd (Nat.pos_pow_of_pos _ (by decide))) h

/-- A finite product is a binary64 number. -/
theorem mul_isBinary64 (x y : Dbl) (h : (x.mul y).isFinite = true) :
    (x.mul y).isBinary64 = true := by
  cases x with
  | nan s => simp [Dbl.mul, Dbl.isFinite] at h
  | inf s =>
    cases y with
    | nan t => simp [Dbl.mul, Dbl.isFinite] at h
    | inf t => simp [Dbl.mul, Dbl.isFinite] at h
    | fin t n f =>
      simp only [Dbl.mul] at h
      split at h <;> simp [Dbl.isFinite] at h
  | fin s m e =>
    cases y with
    | nan t => simp [Dbl.mul, Dbl.isFinite] at h
    | inf t =>
      simp only [Dbl.mul] at h
      split at h <;> simp [Dbl.isFinite] at h
    | fin t n f => exact roundScaled_isBinary64 _ _ _ _ (le_refl 1) h

/-- A finite quotient is a binary64 number. -/
theorem div_isBinary64 (x y : Dbl) (h : (x.div y).isFinite = true) :
    (x.div y).isBinary64 = true := by
  cases x with
  | nan s => simp [Dbl.div, Dbl.isFinite] at h
  | inf s =>
    cases y with
    | nan t => simp [Dbl.div, Dbl.isFinite] at h
    | inf t => simp [Dbl.div, Dbl.isFinite] at h
    | fin t n f => simp [Dbl.div, Dbl.isFinite] at h
  | fin s m e =>
    cases y with
    | nan t => simp [Dbl.div, Dbl.isFinite] at h
    | inf t => simp [Dbl.div, Dbl.isBinary64]
    | fin t n f =>
      by_cases hn : n = 0
      · simp only [Dbl.div, hn, if_true] at h
        split at h <;> simp [Dbl.isFinite] at h
      · have hdiv : (Dbl.fin s m e).div (Dbl.fin t n f) = roundScaled (s != t) m n (e - f) := by
          simp [Dbl.div, hn]
        rw [hdiv] at h ⊢
        exact roundScaled_isBinary64 _ _ _ _ (Nat.one_le_iff_ne_zero.mpr hn) h

/-- When every finite property of the engine is a binary64 number, so is every
finite value that `send_state` prints. -/
theorem state_values_isBinary64 (fdm : Fdm)
    (hfdm : ∀ name, (fdm name).isFinite = true → (fdm name).isBinary64 = true)
    (x : Dbl) (hx : x ∈ state_values fdm) (hfin : x.isFinite = true) :
    x.isBinary64 = true := by
  simp only [state_values, List.mem_cons, List.mem_singleton, List.not_mem_nil, or_false] at hx
  rcases hx with h | h | h | h | h | h | h | h | h | h | h | h | h | h | h | h | h | h <;>
    subst h <;>
    first
      | exact hfdm _ hfin
      | exact mul_isBinary64 _ _ hfin
      | exact div_isBinary64 _ _ hfin

/-! ## The encoder -/

theorem state_values_length (fdm : Fdm) : (state_values fdm).length = 18 := rfl

theorem state_payload_eq (fdm : Fdm) : state_payload fdm = (state_text fdm).take 511 := rfl

/-- When the text fits the buffer, the comma-separated fields of the payload are the
eighteen values in `%.6f` form, in the order of the arguments of `snprintf`. -/
theorem splitOn_state_payload (fdm : Fdm) (hfit : (state_text fdm).length ≤ 511) :
    List.splitOn ',' (state_payload fdm) = (state_values fdm).map fmt6 := by
  rw [state_payload_eq, List.take_of_length_le hfit, state_text]
  apply List.splitOn_intercalate
  · intro l hl
    obtain ⟨x, _, rfl⟩ := List.mem_map.mp hl
    exact comma_not_mem_fmt6 x
  · intro h0
    have := congrArg List.length h0
    simp [state_values_length] at this

/-- C4, as the claim states it, fails: the payload has eighteen fields, but they are
not the seventeen values of the claimed order.  In level cruise the field after the
three angular velocity components is the altitude once more (`304.800000`); the
calibrated airspeed (`36.576000`) follows it. -/
theorem state_payload_repeats_altitude :
    state_payload cruiseFdm =
      ("0.785398,1.570796,304.800000,0.010000,0.020000,0.030000,".toList ++
       "30.480000,0.609600,0.914400,0.040000,0.050000,0.060000,".toList ++
       "304.800000,36.576000,0.200000,0.087266,0.017453,10.000000".toList) ∧
    (List.splitOn ',' (state_payload cruiseFdm)).length = 18 ∧
    (List.splitOn ',' (state_payload cruiseFdm)).getD 12 [] =
      fmt6 ((cruiseFdm "position/h-sl-ft").mul (Dbl.lit 3048 10000)) ∧
    (List.splitOn ',' (state_payload cruiseFdm)).getD 12 [] ≠
      fmt6 ((cruiseFdm "velocities/vc-fps").mul (Dbl.lit 3048 10000)) ∧
    List.splitOn ',' (state_payload cruiseFdm) ≠
      [fmt6 (((cruiseFdm "position/lat-gc-deg").mul M_PI).div (Dbl.lit 180 1)),
       fmt6 (((cruiseFdm "position/long-gc-deg").mul M_PI).div (Dbl.lit 180 1)),
       fmt6 ((cruiseFdm "position/h-sl-ft").mul (Dbl.lit 3048 10000)),
       fmt6 (cruiseFdm "orientation/phi-rad"),
       fmt6 (cruiseFdm "orientation/theta-rad"),
       fmt6 (cruiseFdm "orientation/psi-rad"),
       fmt6 ((cruiseFdm "velocities/u-fps").mul (Dbl.lit 3048 10000)),
       fmt6 ((cruiseFdm "velocities/v-fps").mul (Dbl.lit 3048 10000)),
       fmt6 ((cruiseFdm "velocities/w-fps").mul (Dbl.lit 3048 10000)),
       fmt6 (cruiseFdm "velocities/p-rad_sec"),
       fmt6 (cruiseFdm "velocities/q-rad_sec"),
       fmt6 (cruiseFdm "velocities/r-rad_sec"),
       fmt6 ((cruiseFdm "velocities/vc-fps").mul (Dbl.lit 3048 10000)),
       fmt6 (cruiseFdm "velocities/mach"),
       fmt6 (((cruiseFdm "aero/alpha-deg").mul M_PI).div (Dbl.lit 180 1)),
       fmt6 (((cruiseFdm "aero/beta-deg").mul M_PI).div (Dbl.lit 180 1)),
       fmt6 (cruiseFdm "simulation/sim-time-secs")] := by
  decide!

/-- C4, amended: for every engine state whose text fits the 511 characters of the
buffer, the payload is exactly eighteen comma-separated fields (no header, nothing
after them), each the `%.6f` form of one value, which for every finite value is a
decimal numeral with exactly six digits after the point, in this order: latitude,
longitude, altitude, the three orientation angles, the three body-axis linear
velocities, the three body-axis angular velocities, the altitude a second time,
calibrated airspeed, Mach number, angle of attack, sideslip, simulation time. -/
theorem state_payload_eighteen_fields (fdm : Fdm)
    (hfit : (state_text fdm).length ≤ 511) :
    List.splitOn ',' (state_payload fdm) =
      [fmt6 (((fdm "position/lat-gc-deg").mul M_PI).div (Dbl.lit 180 1)),
       fmt6 (((fdm "position/long-gc-deg").mul M_PI).div (Dbl.lit 180 1)),
       fmt6 ((fdm "position/h-sl-ft").mul (Dbl.lit 3048 10000)),
       fmt6 (fdm "orientation/phi-rad"),
       fmt6 (fdm "orientation/theta-rad"),
       fmt6 (fdm "orientation/psi-rad"),
       fmt6 ((fdm "velocities/u-fps").mul (Dbl.lit 3048 10000)),
       fmt6 ((fdm "velocities/v-fps").mul (Dbl.lit 3048 10000)),
       fmt6 ((fdm "velocities/w-fps").mul (Dbl.lit 3048 10000)),
       fmt6 (fdm "velocities/p-rad_sec"),
       fmt6 (fdm "velocities/q-rad_sec"),
       fmt6 (fdm "velocities/r-rad_sec"),
       fmt6 ((fdm "position/h-sl-ft").mul (Dbl.lit 3048 10000)),
       fmt6 ((fdm "velocities/vc-fps").mul (Dbl.lit 3048 10000)),
       fmt6 (fdm "velocities/mach"),
       fmt6 (((fdm "aero/alpha-deg").mul M_PI).div (Dbl.lit 180 1)),
       fmt6 (((fdm "aero/beta-deg").mul M_PI).div (Dbl.lit 180 1)),
       fmt6 (fdm "simulation/sim-time-secs")] ∧
    (List.splitOn ',' (state_payload fdm)).length = 18 ∧
    (∀ x : Dbl, x.isFinite = true → isFixed6 (fmt6 x) = true) ∧
    List.intercalate [','] (List.splitOn ',' (state_payload fdm)) = state_payload fdm := by
  have hs := splitOn_state_payload fdm hfit
  refine ⟨hs, ?_, isFixed6_fmt6, List.intercalate_splitOn _ _⟩
  rw [hs]; rfl

theorem state_payload_eighteen_fields_witness :
    List.splitOn ',' (state_payload cruiseFdm) =
      [fmt6 (((cruiseFdm "position/lat-gc-deg").mul M_PI).div (Dbl.lit 180 1)),
       fmt6 (((cruiseFdm "position/long-gc-deg").mul M_PI).div (Dbl.lit 180 1)),
       fmt6 ((cruiseFdm "position/h-sl-ft").mul (Dbl.lit 3048 10000)),
       fmt6 (cruiseFdm "orientation/phi-rad"),
       fmt6 (cruiseFdm "orientation/theta-rad"),
       fmt6 (cruiseFdm "orientation/psi-rad"),
       fmt6 ((cruiseFdm "velocities/u-fps").mul (Dbl.lit 3048 10000)),
       fmt6 ((cruiseFdm "velocities/v-fps").mul (Dbl.lit 3048 10000)),
       fmt6 ((cruiseFdm "velocities/w-fps").mul (Dbl.lit 3048 10000)),
       fmt6 (cruiseFdm "velocities/p-rad_sec"),
       fmt6 (cruiseFdm "velocities/q-rad_sec"),
       fmt6 (cruiseFdm "velocities/r-rad_sec"),
       fmt6 ((cruiseFdm "position/h-sl-ft").mul (Dbl.lit 3048 10000)),
       fmt6 ((cruiseFdm "velocities/vc-fps").mul (Dbl.lit 3048 10000)),
       fmt6 (cruiseFdm "velocities/mach"),
       fmt6 (((cruiseFdm "aero/alpha-deg").mul M_PI).div (Dbl.lit 180 1)),
       fmt6 (((cruiseFdm "aero/beta-deg").mul M_PI).div (Dbl.lit 180 1)),
       fmt6 (cruiseFdm "simulation/sim-time-secs")] ∧
    (List.splitOn ',' (state_payload cruiseFdm)).length = 18 ∧
    (∀ x : Dbl, x.isFinite = true → isFixed6 (fmt6 x) = true) ∧
    List.intercalate [','] (List.splitOn ',' (state_payload cruiseFdm)) =
      state_payload cruiseFdm :=
  state_payload_eighteen_fields cruiseFdm (by decide!)

/-- C5, as the claim states it, fails: with an altitude of `2^1000` feet every value
is finite, but the text of the eighteen fields is 761 characters long and the buffer
keeps 511 of them; the payload splits into thirteen fields, not eighteen, and the
last of them is a numeral cut off before its point. -/
theorem state_payload_cut_by_buffer :
    (state_values hugeAltitudeFdm).all Dbl.isFinite = true ∧
    (state_text hugeAltitudeFdm).length = 761 ∧
    (state_payload hugeAltitudeFdm).length = 511 ∧
    (List.splitOn ',' (state_payload hugeAltitudeFdm)).length = 13 ∧
    decimalValue ((List.splitOn ',' (state_payload hugeAltitudeFdm)).getD 12 []) = none := by
  refine ⟨by decide!, by decide!, by decide!, by decide!, ?_⟩
  have h : splitDecimal ((List.splitOn ',' (state_payload hugeAltitudeFdm)).getD 12 []) = none := by
    decide!
  unfold decimalValue
  rw [h]

/-- C5, amended: for every engine state whose text fits the 511 characters of the
buffer, the payload splits on commas into eighteen fields, and each field whose
converted source value is finite is a decimal numeral that denotes a number within
`1e-6` of the converted value formatted into that position; read back as a double
(`atof`), the field of a binary64 value also gives a number within `1e-6` of it. -/
theorem state_payload_round_trip (fdm : Fdm)
    (hfit : (state_text fdm).length ≤ 511) :
    (List.splitOn ',' (state_payload fdm)).length = 18 ∧
    (∀ i, i < 18 → ((state_values fdm).getD i Dbl.zero).isFinite = true → ∃ r,
      decimalValue ((List.splitOn ',' (state_payload fdm)).getD i []) = some r ∧
      |r - ((state_values fdm).getD i Dbl.zero).toRat| ≤ 1 / 10 ^ 6) ∧
    (∀ i, i < 18 → ((state_values fdm).getD i Dbl.zero).isBinary64 = true →
      (atof ((List.splitOn ',' (state_payload fdm)).getD i [])).isFinite = true ∧
      |(atof ((List.splitOn ',' (state_payload fdm)).getD i [])).toRat -
        ((state_values fdm).getD i Dbl.zero).toRat| ≤ 1 / 10 ^ 6) := by
  have hs := splitOn_state_payload fdm hfit
  have hfield : ∀ i, i < 18 → (List.splitOn ',' (state_payload fdm)).getD i [] =
      fmt6 ((state_values fdm).getD i Dbl.zero) := by
    intro i hi
    have hi' : i < (state_values fdm).length := by rw [state_values_length]; exact hi
    rw [hs, List.getD_eq_getElem _ _ (by simpa using hi'), List.getD_eq_getElem _ _ hi']
    simp
  refine ⟨by rw [hs]; rfl, ?_, ?_⟩
  · intro i hi hx
    obtain ⟨r, hr, hclose⟩ := decimalValue_fmt6_close _ hx
    exact ⟨r, by rw [hfield i hi, hr], hclose.trans (by norm_num)⟩
  · intro i hi hx
    rw [hfield i hi]
    exact atof_fmt6_close _ hx

theorem state_payload_round_trip_witness :
    (List.splitOn ',' (state_payload cruiseFdm)).length = 18 ∧
    (∀ i, i < 18 → ((state_values cruiseFdm).getD i Dbl.zero).isFinite = true → ∃ r,
      decimalValue ((List.splitOn ',' (state_payload cruiseFdm)).getD i []) = some r ∧
      |r - ((state_values cruiseFdm).getD i Dbl.zero).toRat| ≤ 1 / 10 ^ 6) ∧
    (∀ i, i < 18 → ((state_values cruiseFdm).getD i Dbl.zero).isBinary64 = true →
      (atof ((List.splitOn ',' (state_payload cruiseFdm)).getD i [])).isFinite = true ∧
      |(atof ((List.splitOn ',' (state_payload cruiseFdm)).getD i [])).toRat -
        ((state_values cruiseFdm).getD i Dbl.zero).toRat| ≤ 1 / 10 ^ 6) :=
  state_payload_round_trip cruiseFdm (by decide!)

/-! ## Fields of a text that the buffer cuts -/

theorem intercalate_cons_cons (g x : List Char) (xs : List (List Char)) :
    List.intercalate [','] (g :: x :: xs) = g ++ ',' :: List.intercalate [','] (x :: xs) := by
  simp [List.intercalate, List.intersperse]

theorem intercalate_append (l₁ l₂ : List (List Char)) (h1 : l₁ ≠ []) :
    List.intercalate [','] (l₁ ++ l₂) =
      List.intercalate [','] l₁ ++
        (if l₂ = [] then [] else ',' :: List.intercalate [','] l₂) := by
  induction l₁ with
  | nil => exact absurd rfl h1
  | cons g gs ih =>
    cases gs with
    | nil =>
      cases l₂ with
      | nil => simp
      | cons x xs =>
        have e : List.intercalate [','] [g] = g := by simp [List.intercalate]
        rw [List.singleton_append, intercalate_cons_cons, e]
        simp
    | cons y ys =>
      have ih' := ih (List.cons_ne_nil _ _)
      rw [List.cons_append, List.cons_append, intercalate_cons_cons, ← List.cons_append, ih',
        intercalate_cons_cons]
      simp

theorem splitOn_first (g t : List Char) (hg : ',' ∉ g) :
    List.splitOn ',' (g ++ ',' :: t) = g :: List.splitOn ',' t := by
  unfold List.splitOn
  apply List.splitOnP_first
  · intro x hx hp
    have : x = ',' := by simpa using hp
    exact hg (this ▸ hx)
  · simp

theorem splitOn_intercalate_append (l : List (List Char)) (hl : l ≠ [])
    (hc : ∀ f ∈ l, ',' ∉ f) (t : List Char) :
    List.splitOn ',' (List.intercalate [','] l ++ ',' :: t) = l ++ List.splitOn ',' t := by
  induction l with
  | nil => exact absurd rfl hl
  | cons g gs ih =>
    cases gs with
    | nil =>
      have e : List.intercalate [','] [g] = g := by simp [List.intercalate]
      rw [e, splitOn_first g t (hc g (List.mem_cons_self _ _))]
      rfl
    | cons y ys =>
      have ih' := ih (List.cons_ne_nil _ _) (fun f hf => hc f (List.mem_cons_of_mem _ hf))
      rw [intercalate_cons_cons, List.append_assoc, List.cons_append,
        splitOn_first g _ (hc g (List.mem_cons_self _ _)), ih']
      rfl

/-- Cutting a comma-separated text after a field keeps the fields before the cut. -/
theorem splitOn_take_intercalate (l₁ l₂ : List (List Char)) (n : Nat) (h1 : l₁ ≠ [])
    (hc : ∀ f ∈ l₁, ',' ∉ f) (hn : (List.intercalate [','] l₁).length ≤ n) :
    ∃ rest, List.splitOn ',' ((List.intercalate [','] (l₁ ++ l₂)).take n) = l₁ ++ rest := by
  rw [intercalate_append l₁ l₂ h1, List.take_append_eq_append_take,
    List.take_of_length_le hn]
  by_cases h2 : l₂ = []
  · refine ⟨[], ?_⟩
    simp only [h2, if_true, List.take_nil, List.append_nil]
    exact List.splitOn_intercalate _ ',' hc h1
  · simp only [h2, if_false]
    cases hk : n - (List.intercalate [','] l₁).length with
    | zero =>
      refine ⟨[], ?_⟩
      simp only [List.take_zero, List.append_nil]
      exact List.splitOn_intercalate _ ',' hc h1
    | succ k =>
      refine ⟨List.splitOn ',' ((List.intercalate [','] l₂).take k), ?_⟩
      rw [List.take_succ_cons]
      exact splitOn_intercalate_append l₁ h1 hc _

/-- A field is sent in full when the text up to its end fits the buffer. -/
theorem getD_splitOn_take_intercalate (l : List (List Char)) (n i : Nat) (hi : i < l.length)
    (hc : ∀ f ∈ l, ',' ∉ f)
    (hn : (List.intercalate [','] (l.take (i + 1))).length ≤ n) :
    (List.splitOn ',' ((List.intercalate [','] l).take n)).getD i [] = l.getD i [] := by
  have hne : l.take (i + 1) ≠ [] := by
    intro h0
    have h1 : (l.take (i + 1)).length = 0 := by rw [h0]; rfl
    rw [List.length_take] at h1
    omega
  obtain ⟨rest, hr⟩ := splitOn_take_intercalate (l.take (i + 1)) (l.drop (i + 1)) n hne
    (fun f hf => hc f (List.mem_of_mem_take hf)) hn
  rw [List.take_append_drop] at hr
  rw [hr]
  have hlen : i < (l.take (i + 1)).length := by simp; omega
  rw [List.getD_append _ _ _ _ hlen, List.getD_eq_getElem _ _ hlen, List.getD_eq_getElem _ _ hi]
  simp

/-! ## Length of a printed field -/

theorem natDigitsAux_length (fuel : Nat) : ∀ (n k : Nat) (acc : List Char), n < fuel →
    1 ≤ k → n < 10 ^ k → (natDigitsAux fuel n acc).length ≤ k + acc.length := by
  induction fuel with
  | zero => intro n k acc h; omega
  | succ fuel ih =>
    intro n k acc hf hk hn
    unfold natDigitsAux
    by_cases h10 : n < 10
    · simp only [h10, if_true, List.length_cons]
      omega
    · simp only [h10, if_false]
      obtain ⟨j, rfl⟩ : ∃ j, k = j + 1 := ⟨k - 1, by omega⟩
      have hj : 1 ≤ j := by
        rcases Nat.eq_zero_or_pos j with h0 | h0
        · subst h0
          simp at hn
          omega
        · exact h0
      have hdiv : n / 10 < 10 ^ j := by
        rw [Nat.div_lt_iff_lt_mul (by decide : 0 < 10)]
        rw [pow_succ] at hn
        exact hn
      have := ih (n / 10) j (digitChar (n % 10) :: acc) (by omega) hj hdiv
      simp only [List.length_cons] at this
      omega

/-- A number below `10^k` prints with at most `k` digits. -/
theorem natDigits_length_le (n k : Nat) (hk : 1 ≤ k) (hn : n < 10 ^ k) :
    (natDigits n).length ≤ k := by
  have := natDigitsAux_length (n + 1) n k [] (by omega) hk hn
  simpa [natDigits] using this

theorem signChars_length_le (s : Bool) : (signChars s).length ≤ 1 := by
  cases s <;> simp [signChars]

theorem fmt6_length_of_not_finite (x : Dbl) (h : x.isFinite = false) :
    (fmt6 x).length ≤ 4 := by
  cases x with
  | fin s m e => simp [Dbl.isFinite] at h
  | inf s =>
    have := signChars_length_le s
    simp [fmt6]
    omega
  | nan s =>
    have := signChars_length_le s
    simp [fmt6]
    omega

theorem fmt6_length_fin (s : Bool) (m : Nat) (e : Int) (k : Nat) (hk : 1 ≤ k)
    (h : scaled6 m e / 10 ^ 6 < 10 ^ k) : (fmt6 (.fin s m e)).length ≤ k + 8 := by
  have h1 := signChars_length_le s
  have h2 := natDigits_length_le _ k hk h
  simp only [fmt6, List.length_append, List.length_cons, fracDigits6, List.length_nil]
  omega

theorem scaled6_div_lt (m : Nat) (e : Int) (hm : m < 2 ^ 53) (he : e ≤ 971) :
    scaled6 m e / 10 ^ 6 < 10 ^ 309 := by
  unfold scaled6
  split
  · next h0 =>
    rw [Nat.mul_div_cancel _ (by norm_num : 0 < 10 ^ 6)]
    have he' : e.toNat ≤ 971 := Int.toNat_le.mpr he
    have hpow : ∀ k : Nat, e.toNat ≤ k → (2 : Nat) ^ e.toNat ≤ 2 ^ k :=
      fun k hk => Nat.pow_le_pow_right (by decide) hk
    have hp : (2 : Nat) ^ e.toNat ≤ 2 ^ 971 := hpow 971 he'
    have hbig : (2 : Nat) ^ 53 * 2 ^ 971 < 10 ^ 309 := by decide!
    exact lt_of_le_of_lt (Nat.mul_le_mul (Nat.le_of_lt hm) hp) hbig
  · next h0 =>
    have hpos : 0 < 2 ^ (-e).toNat := Nat.pos_pow_of_pos _ (by decide)
    have hq : m * 10 ^ 6 / 2 ^ (-e).toNat ≤ m * 10 ^ 6 := Nat.div_le_self _ _
    have hd : divRoundEven (m * 10 ^ 6) (2 ^ (-e).toNat) ≤ m * 10 ^ 6 + 1 := by
      unfold divRoundEven
      simp only
      split
      · omega
      · split
        · omega
        · split <;> omega
    have h3 : divRoundEven (m * 10 ^ 6) (2 ^ (-e).toNat) / 10 ^ 6 ≤ m := by
      calc divRoundEven (m * 10 ^ 6) (2 ^ (-e).toNat) / 10 ^ 6
          ≤ (m * 10 ^ 6 + 1) / 10 ^ 6 := Nat.div_le_div_right hd
        _ = m := by
          rw [Nat.mul_comm, Nat.mul_add_div (by norm_num : 0 < 10 ^ 6)]
          norm_num
    have h4 : (2 : Nat) ^ 53 < 10 ^ 309 := by norm_num
    exact lt_of_le_of_lt h3 (lt_trans hm h4)

/-- A binary64 number prints with at most 317 characters in `%.6f` form. -/
theorem fmt6_length_le (x : Dbl) (h : x.isFinite = true → x.isBinary64 = true) :
    (fmt6 x).length ≤ 317 := by
  cases x with
  | inf s =>
    have := fmt6_length_of_not_finite (.inf s) rfl
    omega
  | nan s =>
    have := fmt6_length_of_not_finite (.nan s) rfl
    omega
  | fin s m e =>
    have hb := h rfl
    simp only [Dbl.isBinary64, Bool.and_eq_true, decide_eq_true_eq] at hb
    exact fmt6_length_fin s m e 309 (by decide) (scaled6_div_lt m e hb.1.1 hb.2)

/-- A product prints with at most 317 characters. -/
theorem fmt6_mul_length_le (x y : Dbl) : (fmt6 (x.mul y)).length ≤ 317 :=
  fmt6_length_le _ (mul_isBinary64 x y)

/-- A finite value of magnitude at most 9 prints with at most 9 characters. -/
theorem fmt6_length_small (x : Dbl) (hx : x.isFinite = true) (h : |x.toRat| ≤ 9) :
    (fmt6 x).length ≤ 9 := by
  cases x with
  | inf s => simp [Dbl.isFinite] at hx
  | nan s => simp [Dbl.isFinite] at hx
  | fin s m e =>
    have hs := scaled6_spec m e
    have hv : (m : ℚ) * (2 : ℚ) ^ e ≤ 9 := by
      have h0 : (0 : ℚ) ≤ (m : ℚ) * (2 : ℚ) ^ e := by positivity
      cases s with
      | false =>
        simp only [Dbl.toRat] at h
        rw [abs_le] at h
        have := h.2
        simpa using this
      | true =>
        simp only [Dbl.toRat] at h
        rw [abs_le] at h
        have := h.1
        simp at this
        linarith
    have h1 : (scaled6 m e : ℚ) ≤ 9000000 + 1 / 2 := by
      have := (abs_le.mp hs).2
      linarith
    have h2 : scaled6 m e ≤ 9000000 := by
      by_contra hc
      have h3 : 9000001 ≤ scaled6 m e := by omega
      have h4 : (9000001 : ℚ) ≤ (scaled6 m e : ℚ) := by exact_mod_cast h3
      linarith
    have h5 : scaled6 m e / 10 ^ 6 < 10 ^ 1 := by
      have : scaled6 m e / 10 ^ 6 ≤ 9000000 / 10 ^ 6 := Nat.div_le_div_right h2
      norm_num at this ⊢
      omega
    exact fmt6_length_fin s m e 1 (by decide) h5

/-- An angle of at most 360 degrees in magnitude (or one that is not a number)
prints, in radians, with at most 9 characters. -/
theorem fmt6_deg_to_rad_length (x : Dbl) (h : x.isFinite = true → |x.toRat| ≤ 360) :
    (fmt6 ((x.mul M_PI).div (Dbl.lit 180 1))).length ≤ 9 := by
  by_cases hfin : ((x.mul M_PI).div (Dbl.lit 180 1)).isFinite = true
  · apply fmt6_length_small _ hfin
    have hc := deg_to_rad_close x hfin
    have hx : x.isFinite = true := by
      rw [lit_180] at hfin
      exact isFinite_of_mul_isFinite _ _ (isFinite_of_div_isFinite _ _ _ _ hfin)
    have hb := h hx
    have hP : M_PI.toRat = 7074237752028440 / 2 ^ 51 := by
      rw [M_PI_eq, toRat_fin]; norm_num
    rw [hP] at hc
    have t := abs_sub_abs_le_abs_sub (((x.mul M_PI).div (Dbl.lit 180 1)).toRat)
      (x.toRat * (7074237752028440 / 2 ^ 51) / 180)
    have e1 : |x.toRat * (7074237752028440 / 2 ^ 51) / 180| =
        |x.toRat| * (7074237752028440 / 2 ^ 51 / 180) := by
      rw [mul_div_assoc, abs_mul,
        abs_of_pos (by norm_num : (0 : ℚ) < 7074237752028440 / 2 ^ 51 / 180)]
    rw [e1] at t
    have hx0 : 0 ≤ |x.toRat| := abs_nonneg _
    have c1 : |x.toRat| * (7074237752028440 / 2 ^ 51 / 180) ≤
        360 * (7074237752028440 / 2 ^ 51 / 180) :=
      mul_le_mul_of_nonneg_right hb (by norm_num)
    have c2 : |x.toRat| / 2 ^ 57 ≤ 360 / 2 ^ 57 :=
      div_le_div_of_nonneg_right hb (by norm_num)
    have c3 : (1 : ℚ) / 2 ^ 1074 ≤ 1 := by
      rw [div_le_one (by positivity)]
      exact one_le_pow₀ (by norm_num)
    have c4 : (360 : ℚ) * (7074237752028440 / 2 ^ 51 / 180) + 360 / 2 ^ 57 + 1 ≤ 9 := by
      norm_num
    linarith
  · have := fmt6_length_of_not_finite _ (by simpa using hfin)
    omega

/-! ## Products that do not overflow -/

theorem roundRat_isFinite_of_le (neg : Bool) (num den : Nat) (hn : 1 ≤ num) (hd : 1 ≤ den)
    (hq : (num : ℚ) / (den : ℚ) ≤ 2 ^ 52) : (roundRat neg num den).isFinite = true := by
  have hdq : (0 : ℚ) < (den : ℚ) := by exact_mod_cast hd
  have hdm := Nat.div_add_mod num den
  have hr : num % den < den := Nat.mod_lt _ hd
  have hdmq : (den : ℚ) * ((num / den : Nat) : ℚ) + ((num % den : Nat) : ℚ) = (num : ℚ) := by
    exact_mod_cast hdm
  have hrq : ((num % den : Nat) : ℚ) < (den : ℚ) := by exact_mod_cast hr
  have hr0 : (0 : ℚ) ≤ ((num % den : Nat) : ℚ) := Nat.cast_nonneg _
  have hquot : (num : ℚ) / (den : ℚ) =
      ((num / den : Nat) : ℚ) + ((num % den : Nat) : ℚ) / (den : ℚ) := by
    rw [← hdmq]
    field_simp
    ring
  have hfrac0 : (0 : ℚ) ≤ ((num % den : Nat) : ℚ) / (den : ℚ) := div_nonneg hr0 hdq.le
  have hfrac1 : ((num % den : Nat) : ℚ) / (den : ℚ) ≤ 1 := by
    rw [div_le_one hdq]
    exact hrq.le
  apply roundRat_isFinite neg num den hn hd (num / den) 0 _ (by norm_num)
  · rw [zpow_zero, mul_one, hquot, abs_le]
    constructor <;> linarith
  · have h1 : ((num / den : Nat) : ℚ) ≤ 2 ^ 52 := by linarith
    have h2 : num / den ≤ 2 ^ 52 := by exact_mod_cast h1
    have h3 : (2 : Nat) ^ 52 < 2 ^ 53 := by norm_num
    omega

theorem roundScaled_isFinite_of_le (neg : Bool) (num den : Nat) (k : Int) (hd : 1 ≤ den)
    (hq : (num : ℚ) / (den : ℚ) * (2 : ℚ) ^ k ≤ 2 ^ 52) :
    (roundScaled neg num den k).isFinite = true := by
  by_cases hn : num = 0
  · subst hn
    have : roundScaled neg 0 den k = Dbl.fin neg 0 (-1074) := by
      unfold roundScaled
      split <;> simp [roundRat]
    rw [this]
    rfl
  · have hn1 : 1 ≤ num := Nat.one_le_iff_ne_zero.mpr hn
    unfold roundScaled
    split
    · next h =>
      have hz := zpow_two_toNat k h
      apply roundRat_isFinite_of_le _ _ _
        (Nat.mul_pos hn1 (Nat.pos_pow_of_pos _ (by decide))) hd
      rw [hz] at hq
      have e : (((num * 2 ^ k.toNat : Nat)) : ℚ) / (den : ℚ) =
          (num : ℚ) / (den : ℚ) * ((2 ^ k.toNat : Nat) : ℚ) := by
        push_cast
        ring
      rw [e]
      exact hq
    · next h =>
      have hz := zpow_two_neg_toNat k (by omega)
      have hp : (0 : ℚ) < ((2 ^ (-k).toNat : Nat) : ℚ) := by positivity
      have hdq : (0 : ℚ) < (den : ℚ) := by exact_mod_cast hd
      apply roundRat_isFinite_of_le _ _ _ hn1
        (Nat.mul_pos hd (Nat.pos_pow_of_pos _ (by decide)))
      rw [hz] at hq
      have e : (num : ℚ) / (((den * 2 ^ (-k).toNat : Nat)) : ℚ) =
          (num : ℚ) / (den : ℚ) * (1 / ((2 ^ (-k).toNat : Nat) : ℚ)) := by
        push_cast
        field_simp
      rw [e]
      exact hq

/-- A product of two numbers whose exact value is at most `2^52` in magnitude does
not overflow. -/
theorem mul_isFinite_of_le (x y : Dbl) (hx : x.isFinite = true) (hy : y.isFinite = true)
    (h : |x.toRat| * |y.toRat| ≤ 2 ^ 52) : (x.mul y).isFinite = true := by
  cases x with
  | inf s => simp [Dbl.isFinite] at hx
  | nan s => simp [Dbl.isFinite] at hx
  | fin s m e =>
    cases y with
    | inf t => simp [Dbl.isFinite] at hy
    | nan t => simp [Dbl.isFinite] at hy
    | fin t n f =>
      have hmul : (Dbl.fin s m e).mul (Dbl.fin t n f) =
          roundScaled (s != t) (m * n) 1 (e + f) := rfl
      rw [hmul]
      apply roundScaled_isFinite_of_le _ _ _ _ (le_refl 1)
      have hx1 : |(Dbl.fin s m e).toRat| = (m : ℚ) * (2 : ℚ) ^ e := by
        rw [toRat_fin, abs_mul]
        have : |(if s = true then (-1 : ℚ) else 1)| = 1 := by cases s <;> simp
        rw [this, one_mul, abs_of_nonneg (by positivity)]
      have hy1 : |(Dbl.fin t n f).toRat| = (n : ℚ) * (2 : ℚ) ^ f := by
        rw [toRat_fin, abs_mul]
        have : |(if t = true then (-1 : ℚ) else 1)| = 1 := by cases t <;> simp
        rw [this, one_mul, abs_of_nonneg (by positivity)]
      rw [hx1, hy1] at h
      have e1 : (((m * n : Nat)) : ℚ) / ((1 : Nat) : ℚ) * (2 : ℚ) ^ (e + f) =
          (m : ℚ) * (2 : ℚ) ^ e * ((n : ℚ) * (2 : ℚ) ^ f) := by
        rw [zpow_add₀ (by norm_num : (2 : ℚ) ≠ 0)]
        push_cast
        ring
      rw [e1]
      exact h

/-- An altitude of 1000 feet, however the engine holds the number, is sent as a
numeral within one thousandth of 304.8. -/
theorem altitude_1000_close (x : Dbl) (hx : x.isFinite = true) (hv : x.toRat = 1000) :
    ∃ r, decimalValue (fmt6 (x.mul (Dbl.lit 3048 10000))) = some r ∧
      |r - 3048 / 10| ≤ 1 / 1000 := by
  have hc : (Dbl.lit 3048 10000).toRat = 5490788665690109 / 2 ^ 54 := by
    rw [lit_3048, toRat_fin]
    norm_num
  have hfin : (x.mul (Dbl.lit 3048 10000)).isFinite = true := by
    apply mul_isFinite_of_le x _ hx (by rw [lit_3048]; rfl)
    rw [hv, hc, abs_of_pos (by norm_num : (0 : ℚ) < 1000),
      abs_of_pos (by norm_num : (0 : ℚ) < 5490788665690109 / 2 ^ 54)]
    norm_num
  obtain ⟨r, hr, hclose⟩ := decimalValue_fmt6_close _ hfin
  refine ⟨r, hr, ?_⟩
  have h1 := mul_3048_close x hx hfin
  rw [hv] at h1
  have tri := abs_sub_le r (x.mul (Dbl.lit 3048 10000)).toRat (3048 / 10)
  have e2 : ((1000 : ℚ) * (3048 / 10000)) = 3048 / 10 := by norm_num
  rw [e2] at h1
  have c1 : |(1000 : ℚ)| / 2 ^ 53 + 1 / 2 ^ 1075 + 1 / (2 * 10 ^ 6) ≤ 1 / 1000 := by
    norm_num
  linarith

/-! ## Unit conversions of the encoder -/

/-- A field of the payload is the `%.6f` form of its value whenever the text up to
the end of that field fits the 511 characters of the buffer. -/
theorem state_payload_field (fdm : Fdm) (i : Nat) (hi : i < 18)
    (hn : (List.intercalate [','] (((state_values fdm).map fmt6).take (i + 1))).length ≤ 511) :
    (List.splitOn ',' (state_payload fdm)).getD i [] =
      fmt6 ((state_values fdm).getD i Dbl.zero) := by
  have hlen : i < ((state_values fdm).map fmt6).length := by
    rw [List.length_map, state_values_length]; exact hi
  rw [state_payload_eq, state_text, getD_splitOn_take_intercalate _ 511 i hlen _ hn]
  · rw [List.getD_eq_getElem _ _ hlen,
      List.getD_eq_getElem _ _ (by rw [state_values_length]; exact hi), List.getElem_map]
  · intro l hl
    obtain ⟨x, _, rfl⟩ := List.mem_map.mp hl
    exact comma_not_mem_fmt6 x

/-- With latitude and longitude of at most 360 degrees in magnitude, the text up to
the end of the altitude field has at most 337 characters, whatever the altitude. -/
theorem altitude_field_fits (fdm : Fdm)
    (hlat : (fdm "position/lat-gc-deg").isFinite = true →
      |(fdm "position/lat-gc-deg").toRat| ≤ 360)
    (hlon : (fdm "position/long-gc-deg").isFinite = true →
      |(fdm "position/long-gc-deg").toRat| ≤ 360) :
    (List.intercalate [','] (((state_values fdm).map fmt6).take 3)).length ≤ 337 := by
  have h0 := fmt6_deg_to_rad_length _ hlat
  have h1 := fmt6_deg_to_rad_length _ hlon
  have h2 := fmt6_mul_length_le (fdm "position/h-sl-ft") (Dbl.lit 3048 10000)
  have e : ((state_values fdm).map fmt6).take 3 =
      [fmt6 (((fdm "position/lat-gc-deg").mul M_PI).div (Dbl.lit 180 1)),
       fmt6 (((fdm "position/long-gc-deg").mul M_PI).div (Dbl.lit 180 1)),
       fmt6 ((fdm "position/h-sl-ft").mul (Dbl.lit 3048 10000))] := rfl
  have e1 : List.intercalate [','] [fmt6 ((fdm "position/h-sl-ft").mul (Dbl.lit 3048 10000))] =
      fmt6 ((fdm "position/h-sl-ft").mul (Dbl.lit 3048 10000)) := by
    simp [List.intercalate]
  rw [e, intercalate_cons_cons, intercalate_cons_cons, e1]
  simp only [List.length_append, List.length_cons]
  omega

/-- The bound on latitude and longitude is needed: with a latitude and a longitude
of `2^824` degrees their two fields fill 509 of the 511 characters of the buffer,
and of the altitude field of an engine altitude of 1000.0 feet (`304.800000` in
full) only the first digit is sent. -/
theorem altitude_field_cut_by_buffer :
    hugeAnglesFdm "position/h-sl-ft" = Dbl.lit 1000 1 ∧
    fmt6 ((hugeAnglesFdm "position/h-sl-ft").mul (Dbl.lit 3048 10000)) =
      "304.800000".toList ∧
    (List.splitOn ',' (state_payload hugeAnglesFdm)).length = 3 ∧
    (List.splitOn ',' (state_payload hugeAnglesFdm)).getD 2 [] = ['3'] := by
  decide!

/-- C6: for every engine altitude `h` in feet (finite or not, up to the largest
`double`), the altitude field written by `send_state`, the third comma-separated
field of the payload, is the `%.6f` form of `h * 0.3048`; an engine altitude of
1000.0 feet is encoded as `304.800000`, which denotes 304.8 (and however the engine
holds the number 1000, as a numeral within one thousandth of 304.8).  Latitude and longitude
are angles in degrees: when they are numbers, their magnitude is at most 360; the
first two fields are their values times `M_PI` divided by `180.0`.  Every value
`send_state` formats is converted the same way: each feet-per-second velocity is
multiplied by the same `0.3048`, each degree value by `M_PI` and divided by `180.0`;
the payload is the first 511 characters of the values in `%.6f` form joined by
commas, and a field is there in full whenever the text up to its end fits those 511
characters.  The conversions are exact up to rounding: a finite product with
`0.3048` is within one part in `2^53` of the value times 3048/10000, a finite
`x * M_PI / 180.0` within one part in `2^56` of the value times pi over 180 (and
`2^-1074` near zero). -/
theorem state_payload_unit_conversion (fdm : Fdm)
    (hlat : (fdm "position/lat-gc-deg").isFinite = true →
      |(fdm "position/lat-gc-deg").toRat| ≤ 360)
    (hlon : (fdm "position/long-gc-deg").isFinite = true →
      |(fdm "position/long-gc-deg").toRat| ≤ 360) :
    (List.splitOn ',' (state_payload fdm)).getD 2 [] =
      fmt6 ((fdm "position/h-sl-ft").mul (Dbl.lit 3048 10000)) ∧
    (fdm "position/h-sl-ft" = Dbl.lit 1000 1 →
      (List.splitOn ',' (state_payload fdm)).getD 2 [] = "304.800000".toList) ∧
    decimalValue "304.800000".toList = some (3048 / 10) ∧
    ((fdm "position/h-sl-ft").isFinite = true → (fdm "position/h-sl-ft").toRat = 1000 →
      ∃ r, decimalValue ((List.splitOn ',' (state_payload fdm)).getD 2 []) = some r ∧
        |r - 3048 / 10| ≤ 1 / 1000) ∧
    (List.splitOn ',' (state_payload fdm)).getD 0 [] =
      fmt6 (((fdm "position/lat-gc-deg").mul M_PI).div (Dbl.lit 180 1)) ∧
    (List.splitOn ',' (state_payload fdm)).getD 1 [] =
      fmt6 (((fdm "position/long-gc-deg").mul M_PI).div (Dbl.lit 180 1)) ∧
    state_values fdm =
      [((fdm "position/lat-gc-deg").mul M_PI).div (Dbl.lit 180 1),
       ((fdm "position/long-gc-deg").mul M_PI).div (Dbl.lit 180 1),
       (fdm "position/h-sl-ft").mul (Dbl.lit 3048 10000),
       fdm "orientation/phi-rad", fdm "orientation/theta-rad", fdm "orientation/psi-rad",
       (fdm "velocities/u-fps").mul (Dbl.lit 3048 10000),
       (fdm "velocities/v-fps").mul (Dbl.lit 3048 10000),
       (fdm "velocities/w-fps").mul (Dbl.lit 3048 10000),
       fdm "velocities/p-rad_sec", fdm "velocities/q-rad_sec", fdm "velocities/r-rad_sec",
       (fdm "position/h-sl-ft").mul (Dbl.lit 3048 10000),
       (fdm "velocities/vc-fps").mul (Dbl.lit 3048 10000),
       fdm "velocities/mach",
       ((fdm "aero/alpha-deg").mul M_PI).div (Dbl.lit 180 1),
       ((fdm "aero/beta-deg").mul M_PI).div (Dbl.lit 180 1),
       fdm "simulation/sim-time-secs"] ∧
    state_payload fdm = (List.intercalate [','] ((state_values fdm).map fmt6)).take 511 ∧
    (∀ i, i < 18 →
      (List.intercalate [','] (((state_values fdm).map fmt6).take (i + 1))).length ≤ 511 →
      (List.splitOn ',' (state_payload fdm)).getD i [] =
        fmt6 ((state_values fdm).getD i Dbl.zero)) ∧
    (∀ x : Dbl, (x.mul (Dbl.lit 3048 10000)).isFinite = true →
      |(x.mul (Dbl.lit 3048 10000)).toRat - x.toRat * (3048 / 10000)| ≤
        |x.toRat| / 2 ^ 53 + 1 / 2 ^ 1075) ∧
    (∀ x : Dbl, ((x.mul M_PI).div (Dbl.lit 180 1)).isFinite = true →
      |((((x.mul M_PI).div (Dbl.lit 180 1)).toRat : ℚ) : ℝ) -
          ((x.toRat : ℚ) : ℝ) * Real.pi / 180| ≤
        |((x.toRat : ℚ) : ℝ)| / 2 ^ 56 + 1 / 2 ^ 1074) := by
  have hfit := altitude_field_fits fdm hlat hlon
  have hsub : ∀ i, i < 3 →
      (List.intercalate [','] (((state_values fdm).map fmt6).take (i + 1))).length ≤ 511 := by
    intro i hi
    have hs : List.Sublist (((state_values fdm).map fmt6).take (i + 1))
        (((state_values fdm).map fmt6).take 3) :=
      List.take_sublist_take_left _ (by omega : i + 1 ≤ 3)
    have := length_intercalate_sublist hs
    omega
  have h2 : (List.splitOn ',' (state_payload fdm)).getD 2 [] =
      fmt6 ((fdm "position/h-sl-ft").mul (Dbl.lit 3048 10000)) :=
    state_payload_field fdm 2 (by decide) (hsub 2 (by decide))
  have hdec : decimalValue "304.800000".toList = some (3048 / 10) := by
    have h : splitDecimal "304.800000".toList =
        some (false, "304".toList, "800000".toList) := by decide!
    have h1 : digitsValue 10 "304".toList = 304 := by decide!
    have h2 : digitsValue 10 "800000".toList = 800000 := by decide!
    have h3 : ("800000".toList).length = 6 := by decide!
    unfold decimalValue
    rw [h]
    simp only [h1, h2, h3]
    norm_num
  refine ⟨h2, ?_, hdec, fun hx hv => h2 ▸ altitude_1000_close _ hx hv,
    state_payload_field fdm 0 (by decide) (hsub 0 (by decide)),
    state_payload_field fdm 1 (by decide) (hsub 1 (by decide)), rfl, rfl,
    fun i hi hn => state_payload_field fdm i hi hn,
    fun x hx => mul_3048_close x (isFinite_of_mul_isFinite _ _ hx) hx,
    fun x hx => deg_to_rad_close_pi x hx⟩
  intro h1000
  rw [h2, h1000]
  decide!

theorem state_payload_unit_conversion_witness :
    ((state_text deepestFdm).length = 779 ∧
      ((List.splitOn ',' (state_payload deepestFdm)).getD 2 []).length = 316) ∧
    (List.splitOn ',' (state_payload deepestFdm)).getD 2 [] =
      fmt6 ((deepestFdm "position/h-sl-ft").mul (Dbl.lit 3048 10000)) ∧
    (deepestFdm "position/h-sl-ft" = Dbl.lit 1000 1 →
      (List.splitOn ',' (state_payload deepestFdm)).getD 2 [] = "304.800000".toList) ∧
    decimalValue "304.800000".toList = some (3048 / 10) ∧
    ((deepestFdm "position/h-sl-ft").isFinite = true →
      (deepestFdm "position/h-sl-ft").toRat = 1000 →
      ∃ r, decimalValue ((List.splitOn ',' (state_payload deepestFdm)).getD 2 []) = some r ∧
        |r - 3048 / 10| ≤ 1 / 1000) ∧
    (List.splitOn ',' (state_payload deepestFdm)).getD 0 [] =
      fmt6 (((deepestFdm "position/lat-gc-deg").mul M_PI).div (Dbl.lit 180 1)) ∧
    (List.splitOn ',' (state_payload deepestFdm)).getD 1 [] =
      fmt6 (((deepestFdm "position/long-gc-deg").mul M_PI).div (Dbl.lit 180 1)) ∧
    state_values deepestFdm =
      [((deepestFdm "position/lat-gc-deg").mul M_PI).div (Dbl.lit 180 1),
       ((deepestFdm "position/long-gc-deg").mul M_PI).div (Dbl.lit 180 1),
       (deepestFdm "position/h-sl-ft").mul (Dbl.lit 3048 10000),
       deepestFdm "orientation/phi-rad", deepestFdm "orientation/theta-rad",
       deepestFdm "orientation/psi-rad",
       (deepestFdm "velocities/u-fps").mul (Dbl.lit 3048 10000),
       (deepestFdm "velocities/v-fps").mul (Dbl.lit 3048 10000),
       (deepestFdm "velocities/w-fps").mul (Dbl.lit 3048 10000),
       deepestFdm "velocities/p-rad_sec", deepestFdm "velocities/q-rad_sec",
       deepestFdm "velocities/r-rad_sec",
       (deepestFdm "position/h-sl-ft").mul (Dbl.lit 3048 10000),
       (deepestFdm "velocities/vc-fps").mul (Dbl.lit 3048 10000),
       deepestFdm "velocities/mach",
       ((deepestFdm "aero/alpha-deg").mul M_PI).div (Dbl.lit 180 1),
       ((deepestFdm "aero/beta-deg").mul M_PI).div (Dbl.lit 180 1),
       deepestFdm "simulation/sim-time-secs"] ∧
    state_payload deepestFdm =
      (List.intercalate [','] ((state_values deepestFdm).map fmt6)).take 511 ∧
    (∀ i, i < 18 →
      (List.intercalate [','] (((state_values deepestFdm).map fmt6).take (i + 1))).length ≤ 511 →
      (List.splitOn ',' (state_payload deepestFdm)).getD i [] =
        fmt6 ((state_values deepestFdm).getD i Dbl.zero)) ∧
    (∀ x : Dbl, (x.mul (Dbl.lit 3048 10000)).isFinite = true →
      |(x.mul (Dbl.lit 3048 10000)).toRat - x.toRat * (3048 / 10000)| ≤
        |x.toRat| / 2 ^ 53 + 1 / 2 ^ 1075) ∧
    (∀ x : Dbl, ((x.mul M_PI).div (Dbl.lit 180 1)).isFinite = true →
      |((((x.mul M_PI).div (Dbl.lit 180 1)).toRat : ℚ) : ℝ) -
          ((x.toRat : ℚ) : ℝ) * Real.pi / 180| ≤
        |((x.toRat : ℚ) : ℝ)| / 2 ^ 56 + 1 / 2 ^ 1074) :=
  ⟨by decide!, state_payload_unit_conversion deepestFdm
    (fun _ => by
      have e : deepestFdm "position/lat-gc-deg" = Dbl.fin true 90 0 := by decide
      rw [e, toRat_fin]
      norm_num)
    (fun _ => by
      have e : deepestFdm "position/long-gc-deg" = Dbl.fin true 180 0 := by decide
      rw [e, toRat_fin]
      norm_num)⟩

end JSBSimBridge
